import Mathlib

set_option maxHeartbeats 1000000
set_option maxRecDepth 100000

/-!
Verification of the core data structures of the repository:
union-find (src/collections/unionfind.rs), the segment tree
(specified in §4.2 of the spec; implementation file absent, only
src/collections/segment_tree_test.rs is present), and the weighted
digraph with Floyd-Warshall and Dijkstra (src/graph/dag.rs).

Rust vectors indexed by `usize` are embedded as total functions out of
`Nat` together with an explicit length field; `i64` is embedded as `Int`
with the saturation points of `i64::saturating_add` made explicit.
-/

/-! ## Union-find (src/collections/unionfind.rs)

`parent: Vec<Option<usize>>` and `size: Vec<usize>` become functions with
an explicit length `n`.  The `loop` in `root` / `root_with_optimize` is
embedded with explicit fuel; for every state reachable by `union` calls
the parent chains are acyclic and have length at most `n`, so fuel `n`
computes exactly the value of the Rust loop.
-/

structure UnionFind where
  n : Nat
  parent : Nat → Option Nat
  sizev : Nat → Nat

inductive UnionResult where
  | Unified
  | AlreadyUnified
deriving DecidableEq, Repr

namespace UnionFind

/-- `UnionFind::new`: `n` singleton sets. -/
def new (n : Nat) : UnionFind :=
  ⟨n, fun _ => none, fun _ => 1⟩

/-- Point update of the `parent` vector (`self.parent[x] = v`). -/
def setParent (s : UnionFind) (x : Nat) (v : Option Nat) : UnionFind :=
  ⟨s.n, fun i => if i = x then v else s.parent i, s.sizev⟩

/-- Point update of the `size` vector (`self.size[x] = v`). -/
def setSize (s : UnionFind) (x : Nat) (v : Nat) : UnionFind :=
  ⟨s.n, s.parent, fun i => if i = x then v else s.sizev i⟩

/-- The loop of `UnionFind::root`, with explicit fuel. -/
def rootF (s : UnionFind) : Nat → Nat → Nat
  | 0, x => x
  | fuel + 1, x =>
    match s.parent x with
    | none => x
    | some p => rootF s fuel p

/-- `UnionFind::root` (fuel `n` suffices on every reachable state). -/
def root (s : UnionFind) (x : Nat) : Nat :=
  rootF s s.n x

/-- The loop of `UnionFind::root_with_optimize`: `x` is the argument whose
parent entry is overwritten at each iteration, `curr` the cursor. -/
def rwoF : Nat → UnionFind → Nat → Nat → Nat × UnionFind
  | 0, s, _, curr => (curr, s)
  | fuel + 1, s, x, curr =>
    match s.parent curr with
    | none => (curr, s)
    | some p => rwoF fuel (setParent s x (some p)) x p

/-- `UnionFind::root_with_optimize`. -/
def root_with_optimize (s : UnionFind) (x : Nat) : Nat × UnionFind :=
  rwoF s.n s x x

/-- `UnionFind::size` (reads the raw vector entry, no root resolution). -/
def size (s : UnionFind) (x : Nat) : Nat :=
  s.sizev x

/-- `UnionFind::union`. -/
def union (s : UnionFind) (x y : Nat) : UnionResult × UnionFind :=
  if x = y then (UnionResult.AlreadyUnified, s)
  else
    let px := root_with_optimize s x
    let s1 := px.2
    let py := root_with_optimize s1 y
    let s2 := py.2
    if px.1 = py.1 then (UnionResult.AlreadyUnified, s2)
    else
      let large := if s2.size py.1 ≤ s2.size px.1 then px.1 else py.1
      let small := if s2.size py.1 ≤ s2.size px.1 then py.1 else px.1
      (UnionResult.Unified,
        setSize (setParent s2 small (some large)) large (s2.size large + s2.size small))

/-- `size` after `union` / helper states reads through `sizev`; `union`
above calls the method `size` exactly where the Rust does. -/
theorem size_def (s : UnionFind) (x : Nat) : s.size x = s.sizev x := rfl

/-- `UnionFind::equiv`. -/
def equiv (s : UnionFind) (x y : Nat) : Bool :=
  root s x == root s y

/-- Run a sequence of `union` calls starting from `UnionFind::new n`,
keeping only the final state. -/
def runUnions (n : Nat) (ops : List (Nat × Nat)) : UnionFind :=
  ops.foldl (fun s p => (union s p.1 p.2).2) (new n)

/-- The parent chain from `x` down to a root `r`: the list of visited
nodes (including both `x` and `r`), each linked to the next by `parent`,
with `parent r = none`. -/
inductive Chain (s : UnionFind) : Nat → List Nat → Nat → Prop
  | nil (r : Nat) : s.parent r = none → Chain s r [r] r
  | cons (x p : Nat) (ch : List Nat) (r : Nat) :
      s.parent x = some p → Chain s p ch r → Chain s x (x :: ch) r

/-- A parent chain whose nodes are distinct and in range. -/
def GoodChain (s : UnionFind) (x : Nat) (ch : List Nat) (r : Nat) : Prop :=
  Chain s x ch r ∧ ch.Nodup ∧ ∀ a ∈ ch, a < s.n

/-- Well-formedness of a union-find state: from every index the parent
chain reaches a root through distinct in-range nodes.  This is the data
model invariant of the spec ("following `parent` from any index
terminates at a root in bounded steps"); it holds in every state
reachable from `new n` by `union` calls. -/
def Wf (s : UnionFind) : Prop :=
  ∀ x, x < s.n → ∃ ch r, GoodChain s x ch r

theorem chain_parent_none {s : UnionFind} {x r : Nat} {ch : List Nat}
    (h : Chain s x ch r) : s.parent r = none := by
  induction h with
  | nil r hr => exact hr
  | cons x p ch r hx hch ih => exact ih

theorem chain_head {s : UnionFind} {x r : Nat} {ch : List Nat}
    (h : Chain s x ch r) : ∃ t, ch = x :: t := by
  cases h with
  | nil r hr => exact ⟨[], rfl⟩
  | cons x p ch r hx hch => exact ⟨ch, rfl⟩

theorem chain_head_mem {s : UnionFind} {x r : Nat} {ch : List Nat}
    (h : Chain s x ch r) : x ∈ ch := by
  obtain ⟨t, rfl⟩ := chain_head h
  exact List.mem_cons_self x t

theorem chain_root_mem {s : UnionFind} {x r : Nat} {ch : List Nat}
    (h : Chain s x ch r) : r ∈ ch := by
  induction h with
  | nil r hr => exact List.mem_singleton.mpr rfl
  | cons x p ch r hx hch ih => exact List.mem_cons_of_mem x ih

theorem chain_mem_suffix {s : UnionFind} {x r a : Nat} {ch : List Nat}
    (h : Chain s x ch r) (ha : a ∈ ch) :
    ∃ ch2, Chain s a ch2 r ∧ ch2 <:+ ch := by
  induction h with
  | nil r hr =>
    rw [List.mem_singleton] at ha
    subst ha
    exact ⟨[a], Chain.nil a hr, List.suffix_refl _⟩
  | cons x p ch r hx hch ih =>
    rcases List.mem_cons.mp ha with rfl | ha2
    · exact ⟨a :: ch, Chain.cons a p ch r hx hch, List.suffix_refl _⟩
    · obtain ⟨ch2, h2, hsuf⟩ := ih ha2
      exact ⟨ch2, h2, hsuf.trans (List.suffix_cons x ch)⟩

theorem chain_unique {s : UnionFind} {x r1 r2 : Nat} {ch1 ch2 : List Nat}
    (h1 : Chain s x ch1 r1) (h2 : Chain s x ch2 r2) : ch1 = ch2 ∧ r1 = r2 := by
  induction h1 generalizing ch2 r2 with
  | nil r hr =>
    cases h2 with
    | nil r2 hr2 => exact ⟨rfl, rfl⟩
    | cons x p ch r2 hx hch => rw [hr] at hx; exact absurd hx (by simp)
  | cons x p ch r hx hch ih =>
    cases h2 with
    | nil r2 hr2 => rw [hr2] at hx; exact absurd hx (by simp)
    | cons x q ch2 r2 hq hch2 =>
      rw [hx] at hq
      obtain rfl : p = q := by injection hq
      obtain ⟨rfl, rfl⟩ := ih hch2
      exact ⟨rfl, rfl⟩

theorem rootF_of_parent_none {s : UnionFind} {x : Nat} (h : s.parent x = none)
    (fuel : Nat) : rootF s fuel x = x := by
  cases fuel with
  | zero => rfl
  | succ f => simp [rootF, h]

theorem rootF_spec {s : UnionFind} {x r : Nat} {ch : List Nat}
    (h : Chain s x ch r) : ∀ fuel, ch.length ≤ fuel + 1 → rootF s fuel x = r := by
  induction h with
  | nil r hr => exact fun fuel _ => rootF_of_parent_none hr fuel
  | cons x p ch r hx hch ih =>
    intro fuel hlen
    have hch1 : 1 ≤ ch.length := by
      obtain ⟨t, rfl⟩ := chain_head hch
      simp
    cases fuel with
    | zero => exfalso; rw [List.length_cons] at hlen; omega
    | succ f =>
      simp only [rootF, hx]
      exact ih f (by simp at hlen; omega)

theorem nodup_length_le {ch : List Nat} {n : Nat} (hnd : ch.Nodup)
    (hlt : ∀ a ∈ ch, a < n) : ch.length ≤ n := by
  classical
  have hcard : ch.toFinset.card = ch.length := List.toFinset_card_of_nodup hnd
  have hsub : ch.toFinset ⊆ Finset.range n := by
    intro a ha
    rw [List.mem_toFinset] at ha
    exact Finset.mem_range.mpr (hlt a ha)
  have := Finset.card_le_card hsub
  rw [hcard, Finset.card_range] at this
  exact this

theorem root_spec {s : UnionFind} {x r : Nat} {ch : List Nat}
    (h : GoodChain s x ch r) : root s x = r := by
  obtain ⟨hch, hnd, hlt⟩ := h
  exact rootF_spec hch s.n (Nat.le_succ_of_le (nodup_length_le hnd hlt))

theorem root_of_parent_none {s : UnionFind} {x : Nat} (h : s.parent x = none) :
    root s x = x :=
  rootF_of_parent_none h s.n

/-- The root of `x` along a good chain is a root (its parent is `none`),
is in range, and lies on the chain. -/
theorem goodChain_root_lt {s : UnionFind} {x r : Nat} {ch : List Nat}
    (h : GoodChain s x ch r) : r < s.n :=
  h.2.2 r (chain_root_mem h.1)

theorem chain_congr {s s2 : UnionFind} {x r : Nat} {ch : List Nat}
    (hpar : ∀ a ∈ ch, s2.parent a = s.parent a) (h : Chain s x ch r) :
    Chain s2 x ch r := by
  induction h with
  | nil r hr =>
    exact Chain.nil r ((hpar r (List.mem_singleton.mpr rfl)).trans hr)
  | cons x p ch r hx hch ih =>
    refine Chain.cons x p ch r ((hpar x (List.mem_cons_self x ch)).trans hx) (ih ?_)
    exact fun a ha => hpar a (List.mem_cons_of_mem x ha)

end UnionFind

namespace UnionFind

theorem setParent_parent (s : UnionFind) (x : Nat) (v : Option Nat) (a : Nat) :
    (setParent s x v).parent a = if a = x then v else s.parent a := rfl

theorem setParent_setParent (s : UnionFind) (x : Nat) (a b : Option Nat) :
    setParent (setParent s x a) x b = setParent s x b := by
  unfold setParent
  congr 1
  funext i
  by_cases h : i = x <;> simp [h]

theorem rwoF_go {s : UnionFind} {x : Nat} {curr r : Nat} {ch : List Nat}
    (h : Chain s curr ch r) (hx : x ∉ ch) :
    ∀ fuel, ch.length ≤ fuel + 1 →
      rwoF fuel (setParent s x (some curr)) x curr = (r, setParent s x (some r)) := by
  induction h with
  | nil r hr =>
    intro fuel _
    have hrx : r ≠ x := fun h => hx (h ▸ List.mem_singleton.mpr rfl)
    have hpar : (setParent s x (some r)).parent r = none := by
      rw [setParent_parent, if_neg hrx, hr]
    cases fuel with
    | zero => rfl
    | succ f => simp [rwoF, hpar]
  | cons c p ch r hc hch ih =>
    intro fuel hlen
    have hcx : c ≠ x := fun h => hx (h ▸ List.mem_cons_self c ch)
    have hch1 : 1 ≤ ch.length := by
      obtain ⟨t, rfl⟩ := chain_head hch
      simp
    cases fuel with
    | zero => exfalso; rw [List.length_cons] at hlen; omega
    | succ f =>
      have hpar : (setParent s x (some c)).parent c = some p := by
        rw [setParent_parent, if_neg hcx, hc]
      simp only [rwoF, hpar]
      rw [setParent_setParent]
      refine ih (fun h => hx (List.mem_cons_of_mem c h)) f ?_
      rw [List.length_cons] at hlen; omega

theorem root_with_optimize_of_none {s : UnionFind} {x : Nat}
    (h : s.parent x = none) : root_with_optimize s x = (x, s) := by
  unfold root_with_optimize
  cases hn : s.n with
  | zero => rfl
  | succ f => simp [rwoF, h]

theorem root_with_optimize_of_some {s : UnionFind} {x r p : Nat} {ch : List Nat}
    (hg : GoodChain s x ch r) (hp : s.parent x = some p) :
    root_with_optimize s x = (r, setParent s x (some r)) := by
  obtain ⟨hch, hnd, hlt⟩ := hg
  cases hch with
  | nil _ hr => rw [hr] at hp; exact absurd hp (by simp)
  | cons _ q ch2 _ hq hch2 =>
    obtain rfl : p = q := by rw [hp] at hq; injection hq
    have hxn : x < s.n := hlt x (List.mem_cons_self x ch2)
    have hlen : (x :: ch2).length ≤ s.n := nodup_length_le hnd hlt
    obtain ⟨f, hf⟩ : ∃ f, s.n = f + 1 := ⟨s.n - 1, by omega⟩
    unfold root_with_optimize
    rw [hf]
    simp only [rwoF, hp]
    refine rwoF_go hch2 (fun h => (List.nodup_cons.mp hnd).1 h) f ?_
    rw [List.length_cons] at hlen
    omega

end UnionFind

namespace UnionFind

/-- Inversion for a chain presented with an explicit head. -/
theorem chain_inv {s : UnionFind} {z r : Nat} {l : List Nat}
    (h : Chain s z (z :: l) r) :
    (l = [] ∧ z = r ∧ s.parent z = none) ∨
    (∃ p, s.parent z = some p ∧ Chain s p l r) := by
  cases h with
  | nil _ hr => exact Or.inl ⟨rfl, rfl, hr⟩
  | cons _ p _ _ hp hch => exact Or.inr ⟨p, hp, hch⟩

theorem chain_graft {s s2 : UnionFind} {x r2 : Nat} {ch2 : List Nat}
    (h2 : Chain s2 x ch2 r2) :
    ∀ (pre : List Nat) {z rz : Nat} {ch : List Nat}, Chain s z ch rz →
      ∀ {suf : List Nat}, ch = pre ++ x :: suf →
      (∀ a ∈ pre, s2.parent a = s.parent a) →
      Chain s2 z (pre ++ ch2) r2 := by
  intro pre
  induction pre with
  | nil =>
    intro z rz ch h suf hsplit _
    obtain ⟨t, rfl⟩ := chain_head h
    rw [List.nil_append] at hsplit
    have hzx : z = x := (List.cons.injEq z t x suf ▸ hsplit).1
    subst hzx
    simpa using h2
  | cons a pre2 ih =>
    intro z rz ch h suf hsplit hpar
    obtain ⟨t, rfl⟩ := chain_head h
    rw [List.cons_append] at hsplit
    have hza : z = a := (List.cons.injEq z t a (pre2 ++ x :: suf) ▸ hsplit).1
    have hts : t = pre2 ++ x :: suf := (List.cons.injEq z t a (pre2 ++ x :: suf) ▸ hsplit).2
    subst hza hts
    rcases chain_inv h with ⟨hnil, _, _⟩ | ⟨p, hp, hch⟩
    · exact absurd hnil (by simp)
    · refine Chain.cons z p _ r2 ?_ ?_
      · rw [hpar z (List.mem_cons_self z pre2)]
        exact hp
      · exact ih hch rfl (fun b hb => hpar b (List.mem_cons_of_mem z hb))

/-- Re-pointing `x` to its own root preserves every `GoodChain`
(chains through `x` get re-routed along the shortcut) and in particular
every root value. -/
theorem compress_goodChain {s : UnionFind} {x r p : Nat} {ch : List Nat}
    (hg : GoodChain s x ch r) (hp : s.parent x = some p)
    {z r2 : Nat} {ch2 : List Nat} (hz : GoodChain s z ch2 r2) :
    ∃ ch3, GoodChain (setParent s x (some r)) z ch3 r2 := by
  obtain ⟨hch2, hnd2, hlt2⟩ := hz
  by_cases hmem : x ∈ ch2
  · -- the chain of z passes through x; re-route it through the shortcut
    obtain ⟨chs, hchs, hsuf⟩ := chain_mem_suffix hch2 hmem
    obtain ⟨hcheq, hreq⟩ := chain_unique hchs hg.1
    rw [hreq]
    rw [hreq] at hch2 hchs
    rw [hcheq] at hchs hsuf
    obtain ⟨pre, hpre⟩ := hsuf
    obtain ⟨cht, hchteq⟩ := chain_head hg.1
    have hrx : r ≠ x := by
      intro h
      have hnone := chain_parent_none hg.1
      rw [← h, hnone] at hp
      exact absurd hp (by simp)
    have hrcht : r ∈ cht := by
      have := chain_root_mem hg.1
      rw [hchteq] at this
      rcases List.mem_cons.mp this with h | h
      · exact absurd h hrx
      · exact h
    have hx2 : Chain (setParent s x (some r)) x [x, r] r := by
      refine Chain.cons x r [r] r ?_ (Chain.nil r ?_)
      · rw [setParent_parent, if_pos rfl]
      · rw [setParent_parent, if_neg hrx]
        exact chain_parent_none hg.1
    have hchsplit : ch2 = pre ++ x :: cht := by
      rw [← hpre, hchteq]
    have hxpre : x ∉ pre := by
      intro hxp
      rw [hchsplit] at hnd2
      exact (List.nodup_append.mp hnd2).2.2 hxp (List.mem_cons_self x cht)
    have hsub : List.Sublist (pre ++ [x, r]) (pre ++ x :: cht) :=
      List.Sublist.append_left
        (List.Sublist.cons₂ x (List.singleton_sublist.mpr hrcht)) pre
    refine ⟨pre ++ [x, r], ?_, ?_, ?_⟩
    · exact chain_graft hx2 pre hch2 hchsplit
        (fun a ha => by
          rw [setParent_parent, if_neg (fun h : a = x => hxpre (by rw [← h]; exact ha))])
    · rw [hchsplit] at hnd2
      exact hnd2.sublist hsub
    · intro a ha
      exact hlt2 a (hchsplit ▸ hsub.subset ha)
  · -- x not on the chain of z: the chain is untouched
    refine ⟨ch2, chain_congr ?_ hch2, hnd2, hlt2⟩
    intro a ha
    rw [setParent_parent, if_neg (fun h : a = x => hmem (by rw [← h]; exact ha))]

/-- Linking the root `small` under the root `large` re-routes exactly the
chains ending at `small` and leaves all other chains unchanged. -/
theorem link_goodChain {s : UnionFind} {small large : Nat}
    (hps : s.parent small = none) (hpl : s.parent large = none)
    (hne : small ≠ large) (hlg : large < s.n)
    {z r2 : Nat} {ch2 : List Nat} (hz : GoodChain s z ch2 r2) :
    ∃ ch3, GoodChain (setParent s small (some large)) z ch3
      (if r2 = small then large else r2) := by
  obtain ⟨hch2, hnd2, hlt2⟩ := hz
  by_cases hmem : small ∈ ch2
  · obtain ⟨chs, hchs, hsuf⟩ := chain_mem_suffix hch2 hmem
    obtain ⟨hcheq, hreq⟩ := chain_unique hchs (Chain.nil small hps)
    rw [hreq]
    rw [if_pos rfl]
    rw [hcheq] at hsuf
    obtain ⟨pre, hpre⟩ := hsuf
    have hchsplit : ch2 = pre ++ small :: [] := by rw [← hpre]
    have hlnotin : large ∉ ch2 := by
      intro hl
      obtain ⟨chl, hchl, _⟩ := chain_mem_suffix hch2 hl
      obtain ⟨_, hreq2⟩ := chain_unique hchl (Chain.nil large hpl)
      rw [hreq] at hreq2
      exact hne hreq2
    have hsm2 : Chain (setParent s small (some large)) small [small, large] large := by
      refine Chain.cons small large [large] large ?_ (Chain.nil large ?_)
      · rw [setParent_parent, if_pos rfl]
      · rw [setParent_parent, if_neg (Ne.symm hne)]
        exact hpl
    have hspre : small ∉ pre := by
      intro hsp
      rw [hchsplit] at hnd2
      exact (List.nodup_append.mp hnd2).2.2 hsp (List.mem_cons_self small [])
    have hassoc : pre ++ [small, large] = (pre ++ [small]) ++ [large] := by
      rw [List.append_assoc]
      rfl
    refine ⟨pre ++ [small, large], ?_, ?_, ?_⟩
    · exact chain_graft hsm2 pre (hreq ▸ hch2) hchsplit
        (fun a ha => by
          rw [setParent_parent,
            if_neg (fun h : a = small => hspre (by rw [← h]; exact ha))])
    · rw [hassoc]
      refine List.Nodup.append (hchsplit ▸ hnd2) (List.nodup_singleton large) ?_
      intro a ha hb
      rw [List.mem_singleton] at hb
      subst hb
      exact hlnotin (hchsplit ▸ ha)
    · intro a ha
      rw [hassoc] at ha
      rcases List.mem_append.mp ha with h | h
      · exact hlt2 a (hchsplit ▸ h)
      · rw [List.mem_singleton] at h
        subst h
        exact hlg
  · have hrs : r2 ≠ small := by
      intro h
      refine hmem ?_
      rw [← h]
      exact chain_root_mem hch2
    rw [if_neg hrs]
    refine ⟨ch2, chain_congr ?_ hch2, hnd2, hlt2⟩
    intro a ha
    rw [setParent_parent, if_neg (fun h : a = small => hmem (by rw [← h]; exact ha))]

end UnionFind

namespace UnionFind

theorem rootF_ext {s s2 : UnionFind} (hpar : ∀ a, s2.parent a = s.parent a) :
    ∀ fuel x, rootF s2 fuel x = rootF s fuel x := by
  intro fuel
  induction fuel with
  | zero => intro x; rfl
  | succ f ih =>
    intro x
    simp only [rootF]
    rw [hpar x]
    cases s.parent x with
    | none => rfl
    | some p => exact ih p

theorem root_setSize (s : UnionFind) (a b : Nat) (z : Nat) :
    root (setSize s a b) z = root s z :=
  @rootF_ext s (setSize s a b) (fun _ => rfl) s.n z

theorem wf_setSize {s : UnionFind} (h : Wf s) (a b : Nat) : Wf (setSize s a b) := by
  intro z hz
  obtain ⟨ch, r, hch, hnd, hlt⟩ := h z hz
  exact ⟨ch, r, @chain_congr s (setSize s a b) z r ch (fun _ _ => rfl) hch, hnd, hlt⟩

theorem root_lt {s : UnionFind} (h : Wf s) {z : Nat} (hz : z < s.n) :
    root s z < s.n := by
  obtain ⟨ch, r, hg⟩ := h z hz
  rw [root_spec hg]
  exact goodChain_root_lt hg

theorem root_parent_none {s : UnionFind} (h : Wf s) {z : Nat} (hz : z < s.n) :
    s.parent (root s z) = none := by
  obtain ⟨ch, r, hg⟩ := h z hz
  rw [root_spec hg]
  exact chain_parent_none hg.1

theorem compress_wf {s : UnionFind} {x r p : Nat} {ch : List Nat}
    (hg : GoodChain s x ch r) (hp : s.parent x = some p) (hWf : Wf s) :
    Wf (setParent s x (some r)) := by
  intro z hz
  obtain ⟨ch2, r2, hz2⟩ := hWf z hz
  obtain ⟨ch3, hg3⟩ := compress_goodChain hg hp hz2
  exact ⟨ch3, r2, hg3⟩

theorem compress_root {s : UnionFind} {x r p : Nat} {ch : List Nat}
    (hg : GoodChain s x ch r) (hp : s.parent x = some p) (hWf : Wf s)
    {z : Nat} (hz : z < s.n) : root (setParent s x (some r)) z = root s z := by
  obtain ⟨ch2, r2, hz2⟩ := hWf z hz
  obtain ⟨ch3, hg3⟩ := compress_goodChain hg hp hz2
  rw [root_spec hg3, root_spec hz2]

theorem link_wf {s : UnionFind} {small large : Nat}
    (hps : s.parent small = none) (hpl : s.parent large = none)
    (hne : small ≠ large) (hlg : large < s.n) (hWf : Wf s) :
    Wf (setParent s small (some large)) := by
  intro z hz
  obtain ⟨ch2, r2, hz2⟩ := hWf z hz
  obtain ⟨ch3, hg3⟩ := link_goodChain hps hpl hne hlg hz2
  exact ⟨ch3, _, hg3⟩

theorem link_root {s : UnionFind} {small large : Nat}
    (hps : s.parent small = none) (hpl : s.parent large = none)
    (hne : small ≠ large) (hlg : large < s.n) (hWf : Wf s)
    {z : Nat} (hz : z < s.n) :
    root (setParent s small (some large)) z =
      if root s z = small then large else root s z := by
  obtain ⟨ch2, r2, hz2⟩ := hWf z hz
  obtain ⟨ch3, hg3⟩ := link_goodChain hps hpl hne hlg hz2
  rw [root_spec hg3, root_spec hz2]

/-- Net effect of `root_with_optimize` on a well-formed state: it returns
`root s x`, only the entry `parent[x]` can change, sizes and `n` are
untouched, well-formedness is preserved and no root value changes. -/
theorem root_with_optimize_state {s : UnionFind} (hWf : Wf s) {x : Nat}
    (hx : x < s.n) :
    (root_with_optimize s x).1 = root s x ∧
    (root_with_optimize s x).2.n = s.n ∧
    (root_with_optimize s x).2.sizev = s.sizev ∧
    Wf (root_with_optimize s x).2 ∧
    (∀ z, z < s.n → root (root_with_optimize s x).2 z = root s z) := by
  obtain ⟨ch, r, hg⟩ := hWf x hx
  cases hpx : s.parent x with
  | none =>
    rw [root_with_optimize_of_none hpx]
    exact ⟨(root_of_parent_none hpx).symm, rfl, rfl, hWf, fun z _ => rfl⟩
  | some p =>
    rw [root_with_optimize_of_some hg hpx]
    refine ⟨(root_spec hg).symm, rfl, rfl, compress_wf hg hpx hWf, ?_⟩
    exact fun z hz => compress_root hg hpx hWf hz

theorem union_eq {s : UnionFind} {x y : Nat} (hxy : x ≠ y) :
    union s x y =
      (if (root_with_optimize s x).1 =
          (root_with_optimize (root_with_optimize s x).2 y).1 then
        (UnionResult.AlreadyUnified, (root_with_optimize (root_with_optimize s x).2 y).2)
      else
        (UnionResult.Unified,
          let s2 := (root_with_optimize (root_with_optimize s x).2 y).2
          let rx := (root_with_optimize s x).1
          let ry := (root_with_optimize (root_with_optimize s x).2 y).1
          let large := if s2.size ry ≤ s2.size rx then rx else ry
          let small := if s2.size ry ≤ s2.size rx then ry else rx
          setSize (setParent s2 small (some large)) large
            (s2.size large + s2.size small))) := by
  simp only [union, if_neg hxy]

end UnionFind

namespace UnionFind

theorem union_self (s : UnionFind) (x : Nat) :
    union s x x = (UnionResult.AlreadyUnified, s) := by
  simp [union]

/-- `union` on an already-unified pair: result `AlreadyUnified`, length
and size vector untouched, partition (all root values) unchanged,
well-formedness preserved. -/
theorem union_already {s : UnionFind} {x y : Nat} (hWf : Wf s)
    (hx : x < s.n) (hy : y < s.n) (hroots : root s x = root s y) :
    (union s x y).1 = UnionResult.AlreadyUnified ∧
    (union s x y).2.n = s.n ∧
    (union s x y).2.sizev = s.sizev ∧
    Wf (union s x y).2 ∧
    (∀ z, z < s.n → root (union s x y).2 z = root s z) := by
  by_cases hxy : x = y
  · subst hxy
    rw [union_self]
    exact ⟨rfl, rfl, rfl, hWf, fun z _ => rfl⟩
  · rw [union_eq hxy]
    obtain ⟨hA1, hA2, hA3, hA4, hA5⟩ := root_with_optimize_state hWf hx
    have hy1 : y < (root_with_optimize s x).2.n := by rw [hA2]; exact hy
    obtain ⟨hB1, hB2, hB3, hB4, hB5⟩ := root_with_optimize_state hA4 hy1
    have hcond : (root_with_optimize s x).1 =
        (root_with_optimize (root_with_optimize s x).2 y).1 := by
      rw [hA1, hB1, hA5 y hy, hroots]
    rw [if_pos hcond]
    refine ⟨rfl, ?_, ?_, hB4, ?_⟩
    · rw [hB2, hA2]
    · rw [hB3, hA3]
    · intro z hz
      have hz1 : z < (root_with_optimize s x).2.n := by rw [hA2]; exact hz
      rw [hB5 z hz1, hA5 z hz]

theorem linkSize_state {s2 : UnionFind} (hWf2 : Wf s2) {small large : Nat}
    (hps : s2.parent small = none) (hpl : s2.parent large = none)
    (hne : small ≠ large) (hlg : large < s2.n) (sz : Nat) :
    (setSize (setParent s2 small (some large)) large sz).n = s2.n ∧
    Wf (setSize (setParent s2 small (some large)) large sz) ∧
    ∀ z, z < s2.n → root (setSize (setParent s2 small (some large)) large sz) z =
      if root s2 z = small then large else root s2 z := by
  refine ⟨rfl, wf_setSize (link_wf hps hpl hne hlg hWf2) _ _, ?_⟩
  intro z hz
  rw [root_setSize]
  exact link_root hps hpl hne hlg hWf2 hz

theorem union_merge_core {s2 : UnionFind} (hWf2 : Wf s2) {rx ry : Nat}
    (hpx : s2.parent rx = none) (hpy : s2.parent ry = none) (hne : rx ≠ ry)
    (hrx : rx < s2.n) (hry : ry < s2.n) :
    ∃ lg sm, ((lg = rx ∧ sm = ry) ∨ (lg = ry ∧ sm = rx)) ∧
      (let large := if s2.size ry ≤ s2.size rx then rx else ry
       let small := if s2.size ry ≤ s2.size rx then ry else rx
       let f := setSize (setParent s2 small (some large)) large
         (s2.size large + s2.size small)
       f.n = s2.n ∧ Wf f ∧
         ∀ z, z < s2.n → root f z = if root s2 z = sm then lg else root s2 z) := by
  by_cases hc : s2.size ry ≤ s2.size rx
  · refine ⟨rx, ry, Or.inl ⟨rfl, rfl⟩, ?_⟩
    simp only [if_pos hc]
    exact linkSize_state hWf2 hpy hpx (Ne.symm hne) hrx _
  · refine ⟨ry, rx, Or.inr ⟨rfl, rfl⟩, ?_⟩
    simp only [if_neg hc]
    exact linkSize_state hWf2 hpx hpy hne hry _

/-- `union` on two distinct classes: result `Unified`; one of the two old
roots becomes the root of the merged class and all other root values are
unchanged. -/
theorem union_merge {s : UnionFind} {x y : Nat} (hWf : Wf s)
    (hx : x < s.n) (hy : y < s.n) (hroots : root s x ≠ root s y) :
    (union s x y).1 = UnionResult.Unified ∧
    (union s x y).2.n = s.n ∧
    Wf (union s x y).2 ∧
    ∃ lg sm, ((lg = root s x ∧ sm = root s y) ∨ (lg = root s y ∧ sm = root s x)) ∧
      ∀ z, z < s.n → root (union s x y).2 z =
        if root s z = sm then lg else root s z := by
  have hxy : x ≠ y := fun h => hroots (h ▸ rfl)
  rw [union_eq hxy]
  obtain ⟨hA1, hA2, hA3, hA4, hA5⟩ := root_with_optimize_state hWf hx
  have hy1 : y < (root_with_optimize s x).2.n := by rw [hA2]; exact hy
  obtain ⟨hB1, hB2, hB3, hB4, hB5⟩ := root_with_optimize_state hA4 hy1
  have hry : (root_with_optimize (root_with_optimize s x).2 y).1 = root s y := by
    rw [hB1, hA5 y hy]
  have hcond : ¬ (root_with_optimize s x).1 =
      (root_with_optimize (root_with_optimize s x).2 y).1 := by
    rw [hA1, hry]; exact hroots
  rw [if_neg hcond]
  rw [hA1, hry]
  have hn2 : ((root_with_optimize s x).2.root_with_optimize y).2.n = s.n := by
    rw [hB2, hA2]
  have hroot2 : ∀ z, z < s.n →
      root ((root_with_optimize s x).2.root_with_optimize y).2 z = root s z := by
    intro z hz
    have hz1 : z < (root_with_optimize s x).2.n := by rw [hA2]; exact hz
    rw [hB5 z hz1, hA5 z hz]
  have hrxlt : root s x < s.n := root_lt hWf hx
  have hrylt : root s y < s.n := root_lt hWf hy
  have hpx2 : ((root_with_optimize s x).2.root_with_optimize y).2.parent (root s x) = none := by
    have h1 : root ((root_with_optimize s x).2.root_with_optimize y).2 x = root s x :=
      hroot2 x hx
    have h2 := root_parent_none hB4 (show x < _ by rw [hn2]; exact hx)
    rw [h1] at h2
    exact h2
  have hpy2 : ((root_with_optimize s x).2.root_with_optimize y).2.parent (root s y) = none := by
    have h1 : root ((root_with_optimize s x).2.root_with_optimize y).2 y = root s y :=
      hroot2 y hy
    have h2 := root_parent_none hB4 (show y < _ by rw [hn2]; exact hy)
    rw [h1] at h2
    exact h2
  obtain ⟨lg, sm, hd, hE1, hE2, hE3⟩ :=
    union_merge_core hB4 hpx2 hpy2 hroots
      (show root s x < _ by rw [hn2]; exact hrxlt)
      (show root s y < _ by rw [hn2]; exact hrylt)
  refine ⟨rfl, ?_, ?_, lg, sm, hd, ?_⟩
  · show _ = s.n
    rw [hE1, hn2]
  · exact hE2
  · intro z hz
    have hz2 : z < ((root_with_optimize s x).2.root_with_optimize y).2.n := by
      rw [hn2]; exact hz
    rw [hE3 z hz2, hroot2 z hz]

end UnionFind

namespace UnionFind

theorem wf_new (n : Nat) : Wf (new n) := by
  intro x hx
  refine ⟨[x], x, Chain.nil x rfl, List.nodup_singleton x, ?_⟩
  intro a ha
  rw [List.mem_singleton] at ha
  subst ha
  exact hx

theorem root_new (n x : Nat) : root (new n) x = x :=
  root_of_parent_none rfl

/-- `x` and `y` are connected, directly or transitively, by the pairs on
which `union` was called. -/
inductive Related (ops : List (Nat × Nat)) : Nat → Nat → Prop
  | rel {a b : Nat} : (a, b) ∈ ops → Related ops a b
  | refl (a : Nat) : Related ops a a
  | symm {a b : Nat} : Related ops a b → Related ops b a
  | trans {a b c : Nat} : Related ops a b → Related ops b c → Related ops a c

theorem related_mono {ops l : List (Nat × Nat)} {a b : Nat}
    (h : Related ops a b) : Related (ops ++ l) a b := by
  induction h with
  | rel hmem => exact Related.rel (List.mem_append_left _ hmem)
  | refl a => exact Related.refl a
  | symm _ ih => exact ih.symm
  | trans _ _ ih1 ih2 => exact ih1.trans ih2

theorem related_nil {a b : Nat} (h : Related [] a b) : a = b := by
  induction h with
  | rel hmem => exact absurd hmem (List.not_mem_nil _)
  | refl a => rfl
  | symm _ ih => exact ih.symm
  | trans _ _ ih1 ih2 => exact ih1.trans ih2

/-- Elimination principle: any relation that is an equivalence, contains
the pairs of `ops` and relates `x` to `y` contains
`Related (ops ++ [(x, y)])`. -/
theorem related_append_single {ops : List (Nat × Nat)} {x y a b : Nat}
    (h : Related (ops ++ [(x, y)]) a b) (R : Nat → Nat → Prop)
    (hrefl : ∀ a, R a a) (hsymm : ∀ {a b}, R a b → R b a)
    (htrans : ∀ {a b c}, R a b → R b c → R a c)
    (hbase : ∀ {a b}, (a, b) ∈ ops → R a b) (hxy : R x y) : R a b := by
  induction h with
  | rel hmem =>
    rcases List.mem_append.mp hmem with h | h
    · exact hbase h
    · rw [List.mem_singleton, Prod.mk.injEq] at h
      rw [h.1, h.2]
      exact hxy
  | refl a => exact hrefl a
  | symm _ ih => exact hsymm ih
  | trans _ _ ih1 ih2 => exact htrans ih1 ih2

/-- Invariant tying a reachable state to the `union` calls that produced
it: the partition computed by `root` is exactly the equivalence closure
of the processed pairs. -/
def UFInv (n : Nat) (ops : List (Nat × Nat)) (s : UnionFind) : Prop :=
  s.n = n ∧ Wf s ∧
  ∀ a b, Related ops a b ↔ (a = b ∨ (a < n ∧ b < n ∧ root s a = root s b))

theorem ufInv_new (n : Nat) : UFInv n [] (new n) := by
  refine ⟨rfl, wf_new n, ?_⟩
  intro a b
  constructor
  · intro h
    exact Or.inl (related_nil h)
  · rintro (rfl | ⟨_, _, heq⟩)
    · exact Related.refl a
    · rw [root_new, root_new] at heq
      rw [heq]
      exact Related.refl b

theorem ufInv_step {n : Nat} {ops : List (Nat × Nat)} {s : UnionFind}
    (h : UFInv n ops s) {x y : Nat} (hx : x < n) (hy : y < n) :
    UFInv n (ops ++ [(x, y)]) (union s x y).2 := by
  obtain ⟨hn, hWf, hchar⟩ := h
  subst hn
  by_cases hroots : root s x = root s y
  · -- already unified (including the x = y fast path)
    obtain ⟨_, hn', hsz', hWf', hroots'⟩ := union_already hWf hx hy hroots
    refine ⟨hn', hWf', ?_⟩
    intro a b
    constructor
    · intro h
      refine related_append_single h
        (fun a b => a = b ∨ (a < s.n ∧ b < s.n ∧ root (union s x y).2 a = root (union s x y).2 b))
        (fun a => Or.inl rfl) ?_ ?_ ?_ ?_
      · rintro a b (rfl | ⟨ha, hb, heq⟩)
        · exact Or.inl rfl
        · exact Or.inr ⟨hb, ha, heq.symm⟩
      · rintro a b c (rfl | ⟨ha, hb, heq⟩) hbc
        · exact hbc
        · rcases hbc with rfl | ⟨_, hc, heq2⟩
          · exact Or.inr ⟨ha, hb, heq⟩
          · exact Or.inr ⟨ha, hc, heq.trans heq2⟩
      · intro a b hmem
        rcases (hchar a b).mp (Related.rel hmem) with rfl | ⟨ha, hb, heq⟩
        · exact Or.inl rfl
        · exact Or.inr ⟨ha, hb, by rw [hroots' a ha, hroots' b hb]; exact heq⟩
      · exact Or.inr ⟨hx, hy, by rw [hroots' x hx, hroots' y hy]; exact hroots⟩
    · rintro (rfl | ⟨ha, hb, heq⟩)
      · exact Related.refl a
      · rw [hroots' a ha, hroots' b hb] at heq
        exact related_mono ((hchar a b).mpr (Or.inr ⟨ha, hb, heq⟩))
  · -- genuine merge
    obtain ⟨_, hn', hWf', lg, sm, hd, hmap⟩ := union_merge hWf hx hy hroots
    have hmapeq : ∀ a b, a < s.n → b < s.n → root s a = root s b →
        root (union s x y).2 a = root (union s x y).2 b := by
      intro a b ha hb heq
      rw [hmap a ha, hmap b hb, heq]
    refine ⟨hn', hWf', ?_⟩
    intro a b
    constructor
    · intro h
      refine related_append_single h
        (fun a b => a = b ∨ (a < s.n ∧ b < s.n ∧ root (union s x y).2 a = root (union s x y).2 b))
        (fun a => Or.inl rfl) ?_ ?_ ?_ ?_
      · rintro a b (rfl | ⟨ha, hb, heq⟩)
        · exact Or.inl rfl
        · exact Or.inr ⟨hb, ha, heq.symm⟩
      · rintro a b c (rfl | ⟨ha, hb, heq⟩) hbc
        · exact hbc
        · rcases hbc with rfl | ⟨_, hc, heq2⟩
          · exact Or.inr ⟨ha, hb, heq⟩
          · exact Or.inr ⟨ha, hc, heq.trans heq2⟩
      · intro a b hmem
        rcases (hchar a b).mp (Related.rel hmem) with rfl | ⟨ha, hb, heq⟩
        · exact Or.inl rfl
        · exact Or.inr ⟨ha, hb, hmapeq a b ha hb heq⟩
      · refine Or.inr ⟨hx, hy, ?_⟩
        rw [hmap x hx, hmap y hy]
        rcases hd with ⟨hlg, hsm⟩ | ⟨hlg, hsm⟩
        · rw [if_neg (by rw [hsm]; exact hroots), if_pos hsm.symm, hlg]
        · rw [if_pos hsm.symm, if_neg (by rw [hsm]; exact fun h => hroots h.symm), hlg]
    · -- backwards: a merged-equality comes from the closure with the new pair
      have key : ∀ a b, a < s.n → b < s.n → root s a = sm → root s b = lg →
          Related (ops ++ [(x, y)]) a b := by
        intro a b ha hb hasm hblg
        have hrelxy : Related (ops ++ [(x, y)]) x y :=
          Related.rel (List.mem_append_right _ (List.mem_singleton.mpr rfl))
        rcases hd with ⟨hlg, hsm⟩ | ⟨hlg, hsm⟩
        · -- lg = root x, sm = root y : a ~ y and b ~ x
          have hay : Related ops a y := (hchar a y).mpr (Or.inr ⟨ha, hy, by rw [hasm, hsm]⟩)
          have hbx : Related ops b x := (hchar b x).mpr (Or.inr ⟨hb, hx, by rw [hblg, hlg]⟩)
          exact (related_mono hay).trans (hrelxy.symm.trans (related_mono hbx).symm)
        · -- lg = root y, sm = root x : a ~ x and b ~ y
          have hax : Related ops a x := (hchar a x).mpr (Or.inr ⟨ha, hx, by rw [hasm, hsm]⟩)
          have hby : Related ops b y := (hchar b y).mpr (Or.inr ⟨hb, hy, by rw [hblg, hlg]⟩)
          exact (related_mono hax).trans (hrelxy.trans (related_mono hby).symm)
      rintro (rfl | ⟨ha, hb, heq⟩)
      · exact Related.refl a
      · by_cases hab : root s a = root s b
        · exact related_mono ((hchar a b).mpr (Or.inr ⟨ha, hb, hab⟩))
        · rw [hmap a ha, hmap b hb] at heq
          by_cases hca : root s a = sm <;> by_cases hcb : root s b = sm
          · exact absurd (hca.trans hcb.symm) hab
          · rw [if_pos hca, if_neg hcb] at heq
            exact key a b ha hb hca heq.symm
          · rw [if_neg hca, if_pos hcb] at heq
            exact (key b a hb ha hcb heq).symm
          · rw [if_neg hca, if_neg hcb] at heq
            exact absurd heq hab

theorem ufInv_runUnions (n : Nat) (ops : List (Nat × Nat))
    (hops : ∀ p ∈ ops, p.1 < n ∧ p.2 < n) : UFInv n ops (runUnions n ops) := by
  induction ops using List.reverseRecOn with
  | nil => exact ufInv_new n
  | append_singleton l p ih =>
    have hrun : runUnions n (l ++ [p]) = (union (runUnions n l) p.1 p.2).2 := by
      unfold runUnions
      rw [List.foldl_append]
      rfl
    rw [hrun]
    have hp := hops p (List.mem_append_right _ (List.mem_singleton.mpr rfl))
    have hl : ∀ q ∈ l, q.1 < n ∧ q.2 < n :=
      fun q hq => hops q (List.mem_append_left _ hq)
    have := ufInv_step (ih hl) hp.1 hp.2
    simpa using this

end UnionFind

namespace UnionFind

/-- C2: the claim says `size(x)` returns the size of the set containing
`x` for every member `x`, resolving to the root internally.  The code
returns the raw vector entry `self.size[x]` without resolving to the
root, so for a non-root member it returns a stale value: after
`new(2)` and `union(0, 1)`, element `1` lies in the two-element set
rooted at `0` (its root is `0`, whose recorded size is `2`), yet
`size(1)` returns `1`. -/
theorem size_nonroot_stale :
    size (runUnions 2 [(0, 1)]) 1 = 1 ∧
    equiv (runUnions 2 [(0, 1)]) 0 1 = true ∧
    root (runUnions 2 [(0, 1)]) 1 = 0 ∧
    size (runUnions 2 [(0, 1)]) 0 = 2 ∧
    (1 : Nat) ≠ 2 := by decide

/-- C4 (amended): on a well-formed state, `root_with_optimize` returns
the current root of `x` and, as its only side effect, re-points `x`
itself directly to that root (when `x` is not already a root); every
other entry of the parent vector, and the size vector, are left
unchanged.  It does not re-point the intermediate nodes visited on the
path. -/
theorem root_with_optimize_compresses_only_arg {s : UnionFind} (hWf : Wf s)
    {x : Nat} (hx : x < s.n) :
    (root_with_optimize s x).1 = root s x ∧
    (∀ i, i ≠ x → (root_with_optimize s x).2.parent i = s.parent i) ∧
    (s.parent x = none → (root_with_optimize s x).2.parent x = none) ∧
    (∀ p, s.parent x = some p → (root_with_optimize s x).2.parent x = some (root s x)) ∧
    (root_with_optimize s x).2.sizev = s.sizev ∧
    (root_with_optimize s x).2.n = s.n := by
  obtain ⟨ch, r, hg⟩ := hWf x hx
  cases hpx : s.parent x with
  | none =>
    rw [root_with_optimize_of_none hpx]
    exact ⟨(root_of_parent_none hpx).symm, fun i _ => rfl, fun _ => hpx,
      fun p hp => absurd hp (by simp), rfl, rfl⟩
  | some p =>
    rw [root_with_optimize_of_some hg hpx]
    refine ⟨(root_spec hg).symm, ?_, ?_, ?_, rfl, rfl⟩
    · intro i hi
      rw [setParent_parent, if_neg hi]
    · intro h
      exact absurd h (by simp)
    · intro q _
      rw [setParent_parent, if_pos rfl, root_spec hg]

/-- Witness for the amended C4 on a concrete reachable state. -/
theorem root_with_optimize_compresses_only_arg_witness :
    (root_with_optimize (runUnions 2 [(0, 1)]) 1).1 = root (runUnions 2 [(0, 1)]) 1 ∧
    (root_with_optimize (runUnions 2 [(0, 1)]) 1).2.sizev =
      (runUnions 2 [(0, 1)]).sizev :=
  ⟨(root_with_optimize_compresses_only_arg
      (ufInv_runUnions 2 [(0, 1)] (by decide)).2.1 (by decide)).1,
   (root_with_optimize_compresses_only_arg
      (ufInv_runUnions 2 [(0, 1)] (by decide)).2.1 (by decide)).2.2.2.2.1⟩

/-- C4 counterexample: after the unions below the parent chain of `7` is
`7 → 6 → 4 → 0`.  `root_with_optimize 7` returns the root `0`, but the
visited node `6` still points to `4` afterwards — it is not re-pointed
to the discovered root (full compression violated); and `7` is
re-pointed all the way to `0`, not to its grandparent `4` (so the
observed state is not single-pass path halving either). -/
theorem root_with_optimize_leaves_visited_node :
    (root_with_optimize (runUnions 8 [(0,1),(2,3),(0,2),(4,5),(6,7),(4,6),(0,4)]) 7).1 = 0 ∧
    (runUnions 8 [(0,1),(2,3),(0,2),(4,5),(6,7),(4,6),(0,4)]).parent 7 = some 6 ∧
    (runUnions 8 [(0,1),(2,3),(0,2),(4,5),(6,7),(4,6),(0,4)]).parent 6 = some 4 ∧
    (runUnions 8 [(0,1),(2,3),(0,2),(4,5),(6,7),(4,6),(0,4)]).parent 4 = some 0 ∧
    (root_with_optimize (runUnions 8 [(0,1),(2,3),(0,2),(4,5),(6,7),(4,6),(0,4)]) 7).2.parent 6
      = some 4 ∧
    some (4 : Nat) ≠ some 0 ∧
    (root_with_optimize (runUnions 8 [(0,1),(2,3),(0,2),(4,5),(6,7),(4,6),(0,4)]) 7).2.parent 7
      = some 0 ∧
    some (0 : Nat) ≠ some 4 := by decide

/-- C5 (amended): on a well-formed state, calling `union` on an
already-unified pair (`x = y` or equal roots) returns `AlreadyUnified`,
changes no `size` value, and leaves the partition (every root value)
unchanged; the parent vector may still change, because
`root_with_optimize` performs path compression before the roots are
compared. -/
theorem union_already_unified_frame {s : UnionFind} (hWf : Wf s) {x y : Nat}
    (hx : x < s.n) (hy : y < s.n) (hsame : x = y ∨ root s x = root s y) :
    (union s x y).1 = UnionResult.AlreadyUnified ∧
    (∀ z, size (union s x y).2 z = size s z) ∧
    (union s x y).2.n = s.n ∧
    (∀ z, z < s.n → root (union s x y).2 z = root s z) := by
  rcases hsame with rfl | hroots
  · rw [union_self]
    exact ⟨rfl, fun z => rfl, rfl, fun z _ => rfl⟩
  · obtain ⟨h1, h2, h3, _, h5⟩ := union_already hWf hx hy hroots
    refine ⟨h1, ?_, h2, h5⟩
    intro z
    show (union s x y).2.sizev z = s.sizev z
    rw [h3]

/-- Witness for the amended C5 on a concrete reachable state. -/
theorem union_already_unified_frame_witness :
    (union (runUnions 2 [(0, 1)]) 1 0).1 = UnionResult.AlreadyUnified ∧
    size (union (runUnions 2 [(0, 1)]) 1 0).2 0 = size (runUnions 2 [(0, 1)]) 0 :=
  ⟨(union_already_unified_frame
      (ufInv_runUnions 2 [(0, 1)] (by decide)).2.1 (by decide) (by decide)
      (Or.inr (by decide))).1,
   (union_already_unified_frame
      (ufInv_runUnions 2 [(0, 1)] (by decide)).2.1 (by decide) (by decide)
      (Or.inr (by decide))).2.1 0⟩

/-- C5 counterexample: `union` on an already-unified pair does not leave
the structure unchanged.  After `(0,1) (2,3) (0,2)` the chain of `3` is
`3 → 2 → 0`; `union(3, 1)` returns `AlreadyUnified` but compresses
`parent[3]` from `some 2` to `some 0`. -/
theorem union_already_unified_mutates :
    (union (runUnions 4 [(0,1),(2,3),(0,2)]) 3 1).1 = UnionResult.AlreadyUnified ∧
    (runUnions 4 [(0,1),(2,3),(0,2)]).parent 3 = some 2 ∧
    (union (runUnions 4 [(0,1),(2,3),(0,2)]) 3 1).2.parent 3 = some 0 ∧
    some (0 : Nat) ≠ some 2 := by decide

/-- C6: after any sequence of `union` calls on `new n` (all indices in
range), `equiv(x, y)` returns `true` exactly when `x` and `y` were
connected, directly or transitively, by some prior `union` call. -/
theorem equiv_iff_related {n : Nat} {ops : List (Nat × Nat)}
    (hops : ∀ p ∈ ops, p.1 < n ∧ p.2 < n) {x y : Nat} (hx : x < n) (hy : y < n) :
    equiv (runUnions n ops) x y = true ↔ Related ops x y := by
  obtain ⟨hn, hWf, hchar⟩ := ufInv_runUnions n ops hops
  rw [hchar x y]
  unfold equiv
  rw [beq_iff_eq]
  constructor
  · intro h
    exact Or.inr ⟨hx, hy, h⟩
  · rintro (rfl | ⟨_, _, h⟩)
    · rfl
    · exact h

/-- Witness for C6: `union(0, 1)` makes `0` and `1` related, and `equiv`
detects it; `equiv(0, 2)` stays `false` because `Related` does not hold. -/
theorem equiv_iff_related_witness :
    Related [(0, 1)] 0 1 ∧ ¬ Related [(0, 1)] 0 2 :=
  ⟨(@equiv_iff_related 2 [(0, 1)] (by decide) 0 1 (by decide) (by decide)).mp
      (by decide),
   fun h => by
    have := (@equiv_iff_related 3 [(0, 1)] (by decide) 0 2 (by decide)
      (by decide)).mpr h
    exact absurd this (by decide)⟩

end UnionFind

/-! ## RangeTree / SegmentTree (spec §4.2)

Modelled from the spec: the implementation file
`src/collections/segment_tree.rs` is not under `src/`; only its test
file `segment_tree_test.rs` is.  The definitions below follow §3 and
§4.2 of the spec: a heap-style buffer of length `2 * capacity` with
`capacity` the least power of two ≥ the logical size, leaves at
`[capacity, 2 * capacity)`, every internal node `k` caching
`combine(buffer[2k], buffer[2k+1])`; `from_vec` builds internal nodes in
one descending pass `capacity-1 .. 1`; `update` overwrites a leaf and
recomputes the ancestors walking upward; `query` uses the standard
recursive decomposition of a half-open range (the spec allows the
iterative or the recursive form), combining leaves left-to-right.
-/

/-- Height of the padded tree: the least `h` with `n ≤ 2 ^ h`
(capacity `2 ^ h` is "the next power of two ≥ logical size"). -/
def heightFor : Nat → Nat
  | 0 => 0
  | n + 1 => if n + 1 ≤ 2 ^ heightFor n then heightFor n else heightFor n + 1

structure SegmentTree (T : Type) where
  height : Nat
  logicalSize : Nat
  identity : T
  combine : T → T → T
  buffer : Nat → T

namespace SegmentTree

/-- The padded capacity (number of leaves). -/
def cap {T : Type} (t : SegmentTree T) : Nat := 2 ^ t.height

/-- The one descending build pass over internal indices `k, k-1, ..., 1`. -/
def buildLoop {T : Type} (f : T → T → T) : Nat → (Nat → T) → (Nat → T)
  | 0, buf => buf
  | k + 1, buf =>
    buildLoop f k
      (fun j => if j = k + 1 then f (buf (2 * (k + 1))) (buf (2 * (k + 1) + 1)) else buf j)

/-- `SegmentTree::new(logical_size, identity, combine)`. -/
def new {T : Type} (sz : Nat) (id : T) (f : T → T → T) : SegmentTree T :=
  ⟨heightFor sz, sz, id, f, buildLoop f (2 ^ heightFor sz - 1) (fun _ => id)⟩

/-- `SegmentTree::from_vec(values, identity, combine)`. -/
def from_vec {T : Type} (values : List T) (id : T) (f : T → T → T) : SegmentTree T :=
  let h := heightFor values.length
  let c := 2 ^ h
  ⟨h, values.length, id, f,
    buildLoop f (c - 1)
      (fun j => if c ≤ j ∧ j < c + values.length then values.getD (j - c) id else id)⟩

/-- The upward walk of `update`: recompute node `i`, then `i / 2`, ...
until the root; `fuel` bounds the walk (the height of the tree plus one
always suffices, since `i < capacity = 2 ^ height`). -/
def updateUpF {T : Type} (f : T → T → T) : Nat → (Nat → T) → Nat → (Nat → T)
  | 0, buf, _ => buf
  | fuel + 1, buf, i =>
    if i = 0 then buf
    else updateUpF f fuel
      (fun j => if j = i then f (buf (2 * i)) (buf (2 * i + 1)) else buf j) (i / 2)

/-- `SegmentTree::update(position, value)` (precondition
`position < logical_size`). -/
def update {T : Type} (t : SegmentTree T) (pos : Nat) (v : T) : SegmentTree T :=
  ⟨t.height, t.logicalSize, t.identity, t.combine,
    updateUpF t.combine (t.height + 1)
      (fun j => if j = pos + t.cap then v else t.buffer j) ((pos + t.cap) / 2)⟩

/-- The recursive range decomposition: `node` spans the logical leaves
`[nodeLo, nodeLo + 2 ^ h)`. -/
def queryR {T : Type} (f : T → T → T) (id : T) (buf : Nat → T) (lo hi : Nat) :
    Nat → Nat → Nat → T
  | 0, node, nodeLo => if lo ≤ nodeLo ∧ nodeLo < hi then buf node else id
  | h + 1, node, nodeLo =>
    if hi ≤ nodeLo ∨ nodeLo + 2 ^ (h + 1) ≤ lo then id
    else if lo ≤ nodeLo ∧ nodeLo + 2 ^ (h + 1) ≤ hi then buf node
    else f (queryR f id buf lo hi h (2 * node) nodeLo)
           (queryR f id buf lo hi h (2 * node + 1) (nodeLo + 2 ^ h))

/-- `SegmentTree::query(lo..hi)`. -/
def query {T : Type} (t : SegmentTree T) (lo hi : Nat) : T :=
  queryR t.combine t.identity t.buffer lo hi t.height 1 0

/-- `SegmentTree::get(position)`, i.e. `query(position..position+1)`. -/
def get {T : Type} (t : SegmentTree T) (pos : Nat) : T :=
  query t pos (pos + 1)

/-- Left-to-right combination of a list of leaf values, seeded with the
identity on the left. -/
def combineAll {T : Type} (f : T → T → T) (id : T) (l : List T) : T :=
  l.foldl f id

/-- The list of leaf values of logical positions `[a, b)`. -/
def leafSeg {T : Type} (t : SegmentTree T) (a b : Nat) : List T :=
  (List.range' a (b - a)).map (fun j => t.buffer (t.cap + j))

/-- Internal-node invariant of the data model (§3): every internal node
caches the combination of its two children. -/
def InnerInv {T : Type} (t : SegmentTree T) : Prop :=
  ∀ k, k < t.cap → 1 ≤ k → t.buffer k = t.combine (t.buffer (2 * k)) (t.buffer (2 * k + 1))

end SegmentTree

namespace SegmentTree

theorem combineAll_nil {T : Type} (f : T → T → T) (id : T) :
    combineAll f id [] = id := rfl

theorem foldl_eq_f {T : Type} {f : T → T → T} {id : T}
    (hassoc : ∀ a b c, f (f a b) c = f a (f b c))
    (hidl : ∀ a, f id a = a) (hidr : ∀ a, f a id = a) :
    ∀ (l : List T) (a : T), l.foldl f a = f a (l.foldl f id) := by
  intro l
  induction l with
  | nil => intro a; exact (hidr a).symm
  | cons x l ih =>
    intro a
    show (l.foldl f (f a x)) = f a ((x :: l).foldl f id)
    rw [ih (f a x)]
    show f (f a x) (l.foldl f id) = f a (l.foldl f (f id x))
    rw [hassoc, hidl x, ih x]

theorem combineAll_append {T : Type} {f : T → T → T} {id : T}
    (hassoc : ∀ a b c, f (f a b) c = f a (f b c))
    (hidl : ∀ a, f id a = a) (hidr : ∀ a, f a id = a) (l1 l2 : List T) :
    combineAll f id (l1 ++ l2) = f (combineAll f id l1) (combineAll f id l2) := by
  unfold combineAll
  rw [List.foldl_append]
  exact foldl_eq_f hassoc hidl hidr l2 (l1.foldl f id)

theorem leafSeg_empty {T : Type} (t : SegmentTree T) {a b : Nat} (h : b ≤ a) :
    leafSeg t a b = [] := by
  unfold leafSeg
  rw [Nat.sub_eq_zero_of_le h]
  rfl

theorem leafSeg_single {T : Type} (t : SegmentTree T) (a : Nat) :
    leafSeg t a (a + 1) = [t.buffer (t.cap + a)] := by
  unfold leafSeg
  rw [Nat.add_sub_cancel_left]
  rfl

theorem leafSeg_append {T : Type} (t : SegmentTree T) {a b c : Nat}
    (hab : a ≤ b) (hbc : b ≤ c) :
    leafSeg t a b ++ leafSeg t b c = leafSeg t a c := by
  unfold leafSeg
  rw [← List.map_append]
  have h1 : List.range' a (b - a) ++ List.range' b (c - b) = List.range' a (c - a) := by
    have := List.range'_append a (b - a) (c - b) 1
    rw [Nat.one_mul] at this
    rw [Nat.add_sub_cancel' hab] at this
    rw [this]
    congr 1
    omega
  rw [h1]

theorem combineAll_of_all_id {T : Type} {f : T → T → T} {id : T}
    (hidl : ∀ a, f id a = a) :
    ∀ (l : List T), (∀ x ∈ l, x = id) → combineAll f id l = id := by
  intro l
  induction l with
  | nil => intro _; rfl
  | cons x l ih =>
    intro h
    show (l.foldl f (f id x)) = id
    rw [hidl x, h x (List.mem_cons_self x l)]
    exact ih (fun y hy => h y (List.mem_cons_of_mem x hy))

/-- An internal node spans exactly the combination of its subtree's
leaves, in left-to-right order. -/
theorem subtree_val {T : Type} {t : SegmentTree T}
    (hassoc : ∀ a b c, t.combine (t.combine a b) c = t.combine a (t.combine b c))
    (hidl : ∀ a, t.combine t.identity a = a)
    (hidr : ∀ a, t.combine a t.identity = a)
    (hinv : InnerInv t) :
    ∀ (h node nodeLo : Nat), node * 2 ^ h = t.cap + nodeLo →
      (node + 1) * 2 ^ h ≤ 2 * t.cap → 1 ≤ node →
      t.buffer node =
        combineAll t.combine t.identity (leafSeg t nodeLo (nodeLo + 2 ^ h)) := by
  intro h
  induction h with
  | zero =>
    intro node nodeLo heq _ _
    rw [Nat.pow_zero, Nat.mul_one] at heq
    show t.buffer node = combineAll t.combine t.identity (leafSeg t nodeLo (nodeLo + 1))
    rw [leafSeg_single]
    show t.buffer node = (t.combine t.identity (t.buffer (t.cap + nodeLo)))
    rw [hidl, heq]
  | succ h ih =>
    intro node nodeLo heq hle hnode
    have hP : 0 < 2 ^ h := Nat.two_pow_pos h
    have hps : (2 : Nat) ^ (h + 1) = 2 ^ h * 2 := Nat.pow_succ 2 h
    have hnodecap : node < t.cap := by
      by_contra hcon
      push_neg at hcon
      have h1 : t.cap * 2 ^ (h + 1) ≤ node * 2 ^ (h + 1) :=
        Nat.mul_le_mul_right _ hcon
      have h2 : node * 2 ^ (h + 1) + 2 ^ (h + 1) ≤ 2 * t.cap := by
        calc node * 2 ^ (h + 1) + 2 ^ (h + 1) = (node + 1) * 2 ^ (h + 1) := by ring
        _ ≤ 2 * t.cap := hle
      have h3 : 2 * t.cap ≤ t.cap * 2 ^ (h + 1) := by
        rw [Nat.mul_comm 2 t.cap]
        exact Nat.mul_le_mul_left _ (by
          calc (2 : Nat) = 2 ^ 1 := rfl
          _ ≤ 2 ^ (h + 1) := Nat.pow_le_pow_right (by omega) (by omega))
      have hpos : 0 < 2 ^ (h + 1) := Nat.two_pow_pos (h + 1)
      omega
    have hchild1 : (2 * node) * 2 ^ h = t.cap + nodeLo := by
      rw [← heq, hps]; ring
    have hchild2 : (2 * node + 1) * 2 ^ h = t.cap + (nodeLo + 2 ^ h) := by
      rw [← Nat.add_assoc, ← hchild1]; ring
    have hbound2 : (2 * node + 1 + 1) * 2 ^ h ≤ 2 * t.cap := by
      calc (2 * node + 1 + 1) * 2 ^ h = (node + 1) * 2 ^ (h + 1) := by rw [hps]; ring
      _ ≤ 2 * t.cap := hle
    have hbound1 : (2 * node + 1) * 2 ^ h ≤ 2 * t.cap := by
      refine le_trans ?_ hbound2
      exact Nat.mul_le_mul_right _ (by omega)
    have hl := ih (2 * node) nodeLo hchild1 hbound1 (by omega)
    have hr := ih (2 * node + 1) (nodeLo + 2 ^ h) hchild2 hbound2 (by omega)
    rw [hinv node hnodecap hnode, hl, hr,
      ← combineAll_append hassoc hidl hidr,
      leafSeg_append t (by omega) (by omega)]
    congr 2
    rw [hps]
    ring

end SegmentTree

namespace SegmentTree

/-- Correctness of the recursive range decomposition: on any subtree it
returns the left-to-right combination of the leaves lying inside the
query range. -/
theorem queryR_spec {T : Type} {t : SegmentTree T}
    (hassoc : ∀ a b c, t.combine (t.combine a b) c = t.combine a (t.combine b c))
    (hidl : ∀ a, t.combine t.identity a = a)
    (hidr : ∀ a, t.combine a t.identity = a)
    (hinv : InnerInv t) (lo hi : Nat) :
    ∀ (h node nodeLo : Nat), node * 2 ^ h = t.cap + nodeLo →
      (node + 1) * 2 ^ h ≤ 2 * t.cap → 1 ≤ node →
      queryR t.combine t.identity t.buffer lo hi h node nodeLo =
        combineAll t.combine t.identity
          (leafSeg t (max lo nodeLo) (min hi (nodeLo + 2 ^ h))) := by
  intro h
  induction h with
  | zero =>
    intro node nodeLo heq _ _
    rw [Nat.pow_zero, Nat.mul_one] at heq
    show (if lo ≤ nodeLo ∧ nodeLo < hi then t.buffer node else t.identity) = _
    rw [Nat.pow_zero]
    by_cases hcond : lo ≤ nodeLo ∧ nodeLo < hi
    · rw [if_pos hcond, Nat.max_eq_right hcond.1, Nat.min_eq_right (by omega),
        leafSeg_single]
      show t.buffer node = t.combine t.identity (t.buffer (t.cap + nodeLo))
      rw [hidl, heq]
    · rw [if_neg hcond, leafSeg_empty]
      · rfl
      · omega
  | succ h ih =>
    intro node nodeLo heq hle hnode
    have hP : 0 < 2 ^ h := Nat.two_pow_pos h
    have hps : (2 : Nat) ^ (h + 1) = 2 ^ h * 2 := Nat.pow_succ 2 h
    show (if hi ≤ nodeLo ∨ nodeLo + 2 ^ (h + 1) ≤ lo then t.identity
      else if lo ≤ nodeLo ∧ nodeLo + 2 ^ (h + 1) ≤ hi then t.buffer node
      else _) = _
    by_cases hdis : hi ≤ nodeLo ∨ nodeLo + 2 ^ (h + 1) ≤ lo
    · rw [if_pos hdis, leafSeg_empty]
      · rfl
      · rcases hdis with hd | hd
        · omega
        · omega
    · rw [if_neg hdis]
      push_neg at hdis
      by_cases hcov : lo ≤ nodeLo ∧ nodeLo + 2 ^ (h + 1) ≤ hi
      · rw [if_pos hcov,
          subtree_val hassoc hidl hidr hinv (h + 1) node nodeLo heq hle hnode,
          Nat.max_eq_right hcov.1, Nat.min_eq_right hcov.2]
      · rw [if_neg hcov]
        have hchild1 : (2 * node) * 2 ^ h = t.cap + nodeLo := by
          rw [← heq, hps]; ring
        have hchild2 : (2 * node + 1) * 2 ^ h = t.cap + (nodeLo + 2 ^ h) := by
          rw [← Nat.add_assoc, ← hchild1]; ring
        have hbound2 : (2 * node + 1 + 1) * 2 ^ h ≤ 2 * t.cap := by
          calc (2 * node + 1 + 1) * 2 ^ h = (node + 1) * 2 ^ (h + 1) := by
                rw [hps]; ring
          _ ≤ 2 * t.cap := hle
        have hbound1 : (2 * node + 1) * 2 ^ h ≤ 2 * t.cap := by
          refine le_trans ?_ hbound2
          exact Nat.mul_le_mul_right _ (by omega)
        rw [ih (2 * node) nodeLo hchild1 hbound1 (by omega),
          ih (2 * node + 1) (nodeLo + 2 ^ h) hchild2 hbound2 (by omega)]
        have htop : nodeLo + 2 ^ (h + 1) = (nodeLo + 2 ^ h) + 2 ^ h := by
          rw [hps]; ring
        rw [htop]
        by_cases hs1 : hi ≤ nodeLo + 2 ^ h
        · -- the range ends in the left half
          have hbr : min hi (nodeLo + 2 ^ h + 2 ^ h) = hi := by omega
          have hbl : min hi (nodeLo + 2 ^ h) = hi := by omega
          rw [leafSeg_empty t (show min hi (nodeLo + 2 ^ h + 2 ^ h) ≤ max lo (nodeLo + 2 ^ h) by omega),
            combineAll_nil, hidr, hbl, hbr]
        · push_neg at hs1
          by_cases hs2 : nodeLo + 2 ^ h ≤ lo
          · -- the range starts in the right half
            rw [leafSeg_empty t (show min hi (nodeLo + 2 ^ h) ≤ max lo nodeLo by omega),
              combineAll_nil, hidl]
            have h1 : max lo nodeLo = lo := by omega
            have h2 : max lo (nodeLo + 2 ^ h) = lo := by omega
            rw [h1, h2]
          · -- the range straddles the midpoint
            push_neg at hs2
            have h1 : min hi (nodeLo + 2 ^ h) = nodeLo + 2 ^ h := by omega
            have h2 : max lo (nodeLo + 2 ^ h) = nodeLo + 2 ^ h := by omega
            rw [h1, h2, ← combineAll_append hassoc hidl hidr,
              leafSeg_append t (by omega) (by omega)]

/-- `query` on a half-open range within the padded capacity combines the
leaves of the range in left-to-right order. -/
theorem query_spec {T : Type} {t : SegmentTree T}
    (hassoc : ∀ a b c, t.combine (t.combine a b) c = t.combine a (t.combine b c))
    (hidl : ∀ a, t.combine t.identity a = a)
    (hidr : ∀ a, t.combine a t.identity = a)
    (hinv : InnerInv t) {lo hi : Nat} (hhi : hi ≤ t.cap) :
    query t lo hi = combineAll t.combine t.identity (leafSeg t lo hi) := by
  unfold query
  rw [queryR_spec hassoc hidl hidr hinv lo hi t.height 1 0
    (by rw [Nat.one_mul]; rfl) (by show 2 * 2 ^ t.height ≤ 2 * t.cap; rfl) le_rfl]
  have h0 : max lo 0 = lo := Nat.max_eq_left (Nat.zero_le lo)
  have h1 : (0 : Nat) + 2 ^ t.height = t.cap := by
    rw [Nat.zero_add]
    rfl
  rw [h0, h1, Nat.min_eq_left hhi]

end SegmentTree

namespace SegmentTree

theorem leafSeg_mem {T : Type} {t : SegmentTree T} {a b : Nat} {x : T}
    (hx : x ∈ leafSeg t a b) :
    ∃ j, a ≤ j ∧ j < b ∧ x = t.buffer (t.cap + j) := by
  unfold leafSeg at hx
  obtain ⟨j, hj, rfl⟩ := List.mem_map.mp hx
  rw [List.mem_range'_1] at hj
  exact ⟨j, hj.1, by omega, rfl⟩

/-- Clamping the upper bound of a query to the logical size does not
change the result when the padding leaves hold the identity. -/
theorem query_clamp {T : Type} {t : SegmentTree T}
    (hassoc : ∀ a b c, t.combine (t.combine a b) c = t.combine a (t.combine b c))
    (hidl : ∀ a, t.combine t.identity a = a)
    (hidr : ∀ a, t.combine a t.identity = a)
    (hinv : InnerInv t)
    (hpad : ∀ j, j < t.cap → t.logicalSize ≤ j → t.buffer (t.cap + j) = t.identity)
    {lo hi : Nat} (hlo : lo ≤ t.cap) (hhi : hi ≤ t.cap) :
    query t lo hi = query t lo (max lo (min hi t.logicalSize)) := by
  have hmcap : max lo (min hi t.logicalSize) ≤ t.cap := by omega
  rw [query_spec hassoc hidl hidr hinv hhi,
    query_spec hassoc hidl hidr hinv hmcap]
  by_cases hord : hi ≤ lo
  · have h1 : leafSeg t lo hi = [] := leafSeg_empty t hord
    have h2 : leafSeg t lo (max lo (min hi t.logicalSize)) = [] :=
      leafSeg_empty t (by omega)
    rw [h1, h2]
  · push_neg at hord
    have hm1 : lo ≤ max lo (min hi t.logicalSize) := by omega
    have hm2 : max lo (min hi t.logicalSize) ≤ hi := by omega
    rw [← leafSeg_append t hm1 hm2,
      combineAll_append hassoc hidl hidr,
      combineAll_of_all_id hidl (leafSeg t (max lo (min hi t.logicalSize)) hi) ?_,
      hidr]
    intro x hx
    obtain ⟨j, hj1, hj2, rfl⟩ := leafSeg_mem hx
    refine hpad j (by omega) (by omega)

instance innerInvDecidable {T : Type} [DecidableEq T] (t : SegmentTree T) :
    Decidable (InnerInv t) := by
  unfold InnerInv
  infer_instance

/-- C8: `query([lo, hi))` returns the combination, in left-to-right
order, of all leaves within the range (for any associative `combine`
with two-sided identity `identity`, on any buffer satisfying the
internal-node invariant); in particular, on the tree built by
`from_vec([1,2,3,4,5,6,7])` with identity `0` and sum combine,
`query(0..2) = 3` and `query(0..7) = 28`. -/
theorem query_combines_range :
    (∀ (T : Type) (t : SegmentTree T),
      (∀ a b c, t.combine (t.combine a b) c = t.combine a (t.combine b c)) →
      (∀ a, t.combine t.identity a = a) →
      (∀ a, t.combine a t.identity = a) →
      InnerInv t →
      ∀ lo hi, hi ≤ t.cap →
        query t lo hi = combineAll t.combine t.identity (leafSeg t lo hi)) ∧
    query (from_vec [1, 2, 3, 4, 5, 6, 7] 0 (fun a b => a + b)) 0 2 = 3 ∧
    query (from_vec [1, 2, 3, 4, 5, 6, 7] 0 (fun a b => a + b)) 0 7 = 28 := by
  refine ⟨?_, by decide, by decide⟩
  intro T t hassoc hidl hidr hinv lo hi hhi
  exact query_spec hassoc hidl hidr hinv hhi

/-- Witness for C8, applying the general statement to the
`from_vec([1..7])` sum tree. -/
theorem query_combines_range_witness :
    query (from_vec [1, 2, 3, 4, 5, 6, 7] 0 (fun a b => a + b)) 0 7 =
      combineAll (fun a b => a + b) 0
        (leafSeg (from_vec [1, 2, 3, 4, 5, 6, 7] 0 (fun a b => a + b)) 0 7) :=
  query_combines_range.1 Nat (from_vec [1, 2, 3, 4, 5, 6, 7] 0 (fun a b => a + b))
    (fun a b c => Nat.add_assoc a b c) (fun a => Nat.zero_add a)
    (fun a => Nat.add_zero a) (by decide) 0 7 (by decide)

/-- C7: `query` tolerates an upper bound up to the full padded capacity
and returns the same result as if the padding leaves, all equal to
`identity`, were included (clamping `hi` to the logical size changes
nothing); in particular, after `new(7, 0, +)`, `update(0, 1)`,
`update(1, 2)`: `query(0..k) = 3` for every `k` from `2` through `8`
(capacity is `8`), and `get(7) = 0`. -/
theorem query_tolerates_padding :
    (∀ (T : Type) (t : SegmentTree T),
      (∀ a b c, t.combine (t.combine a b) c = t.combine a (t.combine b c)) →
      (∀ a, t.combine t.identity a = a) →
      (∀ a, t.combine a t.identity = a) →
      InnerInv t →
      (∀ j, j < t.cap → t.logicalSize ≤ j → t.buffer (t.cap + j) = t.identity) →
      ∀ lo hi, lo ≤ t.cap → hi ≤ t.cap →
        query t lo hi = query t lo (max lo (min hi t.logicalSize))) ∧
    (update (update (new 7 0 (fun a b => a + b)) 0 1) 1 2).cap = 8 ∧
    (∀ k, k ≤ 8 → 2 ≤ k →
      query (update (update (new 7 0 (fun a b => a + b)) 0 1) 1 2) 0 k = 3) ∧
    get (update (update (new 7 0 (fun a b => a + b)) 0 1) 1 2) 7 = 0 := by
  refine ⟨?_, by decide, by decide, by decide⟩
  intro T t hassoc hidl hidr hinv hpad lo hi hlo hhi
  exact query_clamp hassoc hidl hidr hinv hpad hlo hhi

/-- Witness for C7, applying the general statement to the scenario tree:
`query(0..8)` equals the clamped `query(0..7)`. -/
theorem query_tolerates_padding_witness :
    query (update (update (new 7 0 (fun a b => a + b)) 0 1) 1 2) 0 8 =
      query (update (update (new 7 0 (fun a b => a + b)) 0 1) 1 2) 0
        (max 0 (min 8 (update (update (new 7 0 (fun a b => a + b)) 0 1) 1 2).logicalSize)) :=
  query_tolerates_padding.1 Nat (update (update (new 7 0 (fun a b => a + b)) 0 1) 1 2)
    (fun a b c => Nat.add_assoc a b c) (fun a => Nat.zero_add a)
    (fun a => Nat.add_zero a) (by decide) (by decide) 0 8 (by decide) (by decide)

end SegmentTree

/-! ## Weighted digraph (src/graph/dag.rs)

`Vec<Vec<Edge>>` becomes `adj : Nat → List Edge` plus the vertex count
`n`; the `n × n` matrix `Vec<Vec<i64>>` of `floyd_warshall` becomes a
function `Nat → Nat → Int` (only entries with both indices `< n` are
ever written or read by the algorithm).  `i64` is embedded as `Int`,
with `i64::MAX` (the `INF` sentinel) and `i64::MIN` as explicit
saturation points of `saturating_add`.
-/

/-- `const INF: i64 = i64::MAX`. -/
def INF : Int := 2 ^ 63 - 1

/-- `i64::MIN`, the lower saturation point of `saturating_add`. -/
def NEG_INF : Int := -(2 ^ 63)

/-- `i64::saturating_add`. -/
def satAdd (a b : Int) : Int := max NEG_INF (min (a + b) INF)

structure Edge where
  from_ : Nat
  to_ : Nat
  cost : Int
deriving DecidableEq, Repr

structure Dag where
  n : Nat
  adj : Nat → List Edge

namespace Dag

/-- `Dag::new(size)`. -/
def new (n : Nat) : Dag := ⟨n, fun _ => []⟩

/-- `Dag::add_edge`: pushes onto `self.edges[from]`. -/
def add_edge (g : Dag) (from_ to_ : Nat) (cost : Int) : Dag :=
  ⟨g.n, fun v => if v = from_ then g.adj v ++ [⟨from_, to_, cost⟩] else g.adj v⟩

/-- `Dag::size`. -/
def size (g : Dag) : Nat := g.n

/-- `Dag::edges`: `self.edges.iter().flatten()`, i.e. all edges in
adjacency order (per-vertex lists in insertion order). -/
def edges (g : Dag) : List Edge :=
  (List.range g.n).flatMap g.adj

/-- Well-formedness: every stored edge has the right `from` field and an
in-range target, as guaranteed for graphs built by in-range `add_edge`
calls.  (`add_edge` with an out-of-range endpoint panics in Rust or
builds a graph whose traversal panics.) -/
def Wf (g : Dag) : Prop :=
  ∀ v, v < g.n → ∀ e ∈ g.adj v, e.from_ = v ∧ e.to_ < g.n

/-- The distance matrix `Vec<Vec<i64>>` (row-major, `n × n`).
Out-of-range writes are no-ops and out-of-range reads default, but the
algorithm only ever touches indices `< n` on well-formed graphs. -/
abbrev Mat := List (List Int)

/-- `dp[i][j]` (`sp[i][j]` through the `Index` impl). -/
def mget (m : Mat) (i j : Nat) : Int := (m.getD i []).getD j 0

/-- `dp[i][j] = v`. -/
def mset (m : Mat) (i j : Nat) (v : Int) : Mat :=
  m.set i ((m.getD i []).set j v)

/-- `vec![vec![INF; n]; n]`. -/
def fwBase (n : Nat) : Mat := List.replicate n (List.replicate n INF)

/-- `for (i, adj) in dp.iter_mut().enumerate() { adj[i] = 0 }`. -/
def fwDiag (n : Nat) (m : Mat) : Mat :=
  (List.range n).foldl (fun m i => mset m i i 0) m

/-- The initialization phase of `floyd_warshall`: `INF` everywhere,
`0` on the diagonal, then one direct assignment `dp[from][to] = cost`
per edge, in `edges()` order. -/
def fwInit (g : Dag) : Mat :=
  g.edges.foldl (fun m e => mset m e.from_ e.to_ e.cost) (fwDiag g.n (fwBase g.n))

/-- Innermost relaxation loop (`for j in 0..n`) at fixed `k`, `i`:
`chmin(&mut dp[i][j], dp[i][k].saturating_add(dp[k][j]))`, reading the
matrix as mutated so far. -/
def relaxJ (k i n : Nat) (m : Mat) : Mat :=
  (List.range n).foldl
    (fun m j =>
      if satAdd (mget m i k) (mget m k j) < mget m i j
      then mset m i j (satAdd (mget m i k) (mget m k j)) else m) m

/-- Middle loop (`for i in 0..n`). -/
def relaxI (k n : Nat) (m : Mat) : Mat :=
  (List.range n).foldl (fun m i => relaxJ k i n m) m

/-- Outer loop (`for k in 0..n`). -/
def fwLoop (n : Nat) (m : Mat) : Mat :=
  (List.range n).foldl (fun m k => relaxI k n m) m

/-- `Dag::floyd_warshall` (`all_pairs_shortest_paths`). -/
def floyd_warshall (g : Dag) : Mat :=
  fwLoop g.n (fwInit g)

/-! Functional mirror of the matrix program, used for the correctness
proofs; `matR_floyd` below transfers its values to `floyd_warshall`. -/

/-- Function-matrix point update. -/
def msetF (f : Nat → Nat → Int) (i j : Nat) (v : Int) : Nat → Nat → Int :=
  fun a b => if a = i ∧ b = j then v else f a b

def fwInitF (g : Dag) : Nat → Nat → Int :=
  g.edges.foldl (fun f e => msetF f e.from_ e.to_ e.cost)
    (fun i j => if i = j then 0 else INF)

def relaxJF (k i n : Nat) (f : Nat → Nat → Int) : Nat → Nat → Int :=
  (List.range n).foldl
    (fun f j =>
      if satAdd (f i k) (f k j) < f i j
      then msetF f i j (satAdd (f i k) (f k j)) else f) f

def relaxIF (k n : Nat) (f : Nat → Nat → Int) : Nat → Nat → Int :=
  (List.range n).foldl (fun f i => relaxJF k i n f) f

def fwLoopF (n : Nat) (f : Nat → Nat → Int) : Nat → Nat → Int :=
  (List.range n).foldl (fun f k => relaxIF k n f) f

def floyd_warshallF (g : Dag) : Nat → Nat → Int :=
  fwLoopF g.n (fwInitF g)

/-- A directed walk from `u` to `v`: the list of edges traversed, each
taken from the adjacency list of the current vertex. -/
def IsWalk (g : Dag) : Nat → Nat → List Edge → Prop
  | u, v, [] => u = v
  | u, v, e :: es => e ∈ g.adj u ∧ IsWalk g e.to_ v es

/-- Total cost of a walk. -/
def walkCost (es : List Edge) : Int := (es.map Edge.cost).sum

end Dag

namespace Dag

theorem getD_set_self {α : Type} (l : List α) (i : Nat) (v d : α)
    (h : i < l.length) : (l.set i v).getD i d = v := by
  rw [List.getD_eq_getElem?_getD, List.getElem?_set_self h]
  rfl

theorem getD_set_ne {α : Type} (l : List α) {i j : Nat} (v d : α)
    (h : i ≠ j) : (l.set i v).getD j d = l.getD j d := by
  rw [List.getD_eq_getElem?_getD, List.getElem?_set_ne h, ← List.getD_eq_getElem?_getD]

theorem getD_replicate {α : Type} {n i : Nat} (v d : α) (h : i < n) :
    (List.replicate n v).getD i d = v := by
  rw [List.getD_eq_getElem?_getD, List.getElem?_replicate_of_lt h]
  rfl

theorem getD_of_length_le {α : Type} {l : List α} {i : Nat} (d : α)
    (h : l.length ≤ i) : l.getD i d = d := by
  rw [List.getD_eq_getElem?_getD, List.getElem?_eq_none h]
  rfl

theorem mget_mset_same {m : Mat} {i j : Nat} (v : Int)
    (hi : i < m.length) (hj : j < (m.getD i []).length) :
    mget (mset m i j v) i j = v := by
  unfold mget mset
  rw [getD_set_self m i _ [] hi, getD_set_self _ j _ 0 hj]

theorem mget_mset_ne {m : Mat} {i j a b : Nat} (v : Int)
    (h : ¬(a = i ∧ b = j)) :
    mget (mset m i j v) a b = mget m a b := by
  unfold mget mset
  by_cases hai : a = i
  · subst hai
    have hbj : b ≠ j := fun hb => h ⟨rfl, hb⟩
    by_cases hlen : a < m.length
    · rw [getD_set_self m a _ [] hlen, getD_set_ne _ v 0 (fun hc => hbj hc.symm)]
    · push_neg at hlen
      rw [List.set_eq_of_length_le hlen]
  · rw [getD_set_ne m _ [] (fun hc => hai hc.symm)]

/-- Refinement between the list matrix and its functional mirror. -/
def MatR (n : Nat) (m : Mat) (f : Nat → Nat → Int) : Prop :=
  m.length = n ∧ (∀ row ∈ m, row.length = n) ∧
  ∀ i j, i < n → j < n → mget m i j = f i j

theorem matR_row_len {n : Nat} {m : Mat} {f : Nat → Nat → Int}
    (h : MatR n m f) {i : Nat} (hi : i < n) : (m.getD i []).length = n := by
  have hlen : i < m.length := by rw [h.1]; exact hi
  have : m.getD i [] ∈ m := by
    rw [List.getD_eq_getElem?_getD, List.getElem?_eq_getElem hlen]
    exact List.getElem_mem hlen
  exact h.2.1 _ this

theorem matR_mset {n : Nat} {m : Mat} {f : Nat → Nat → Int}
    (h : MatR n m f) {i j : Nat} (v : Int) (hi : i < n) (hj : j < n) :
    MatR n (mset m i j v) (msetF f i j v) := by
  refine ⟨?_, ?_, ?_⟩
  · show (m.set i _).length = n
    rw [List.length_set, h.1]
  · intro row hrow
    rcases List.mem_or_eq_of_mem_set hrow with hold | hnew
    · exact h.2.1 row hold
    · rw [hnew, List.length_set]
      exact matR_row_len h hi
  · intro a b ha hb
    by_cases hab : a = i ∧ b = j
    · obtain ⟨rfl, rfl⟩ := hab
      rw [mget_mset_same v (by rw [h.1]; exact hi) (by rw [matR_row_len h hi]; exact hj)]
      unfold msetF
      rw [if_pos ⟨rfl, rfl⟩]
    · rw [mget_mset_ne v hab, h.2.2 a b ha hb]
      unfold msetF
      rw [if_neg hab]

/-- Paired induction over two folds of related states. -/
theorem foldl_rel {α β γ : Type} (R : β → γ → Prop)
    (stepL : β → α → β) (stepF : γ → α → γ) :
    ∀ (l : List α) (m : β) (f : γ), R m f →
      (∀ b c a, a ∈ l → R b c → R (stepL b a) (stepF c a)) →
      R (l.foldl stepL m) (l.foldl stepF f) := by
  intro l
  induction l with
  | nil => intro m f h _; exact h
  | cons x l ih =>
    intro m f h hstep
    exact ih (stepL m x) (stepF f x) (hstep m f x (List.mem_cons_self x l) h)
      (fun b c a ha => hstep b c a (List.mem_cons_of_mem x ha))

theorem matR_fwBase (n : Nat) : MatR n (fwBase n) (fun _ _ => INF) := by
  refine ⟨List.length_replicate n _, ?_, ?_⟩
  · intro row hrow
    rw [List.eq_of_mem_replicate hrow]
    exact List.length_replicate n _
  · intro i j hi hj
    unfold mget fwBase
    rw [getD_replicate _ [] hi, getD_replicate _ 0 hj]

theorem diagF_spec :
    ∀ (l : List Nat) (f : Nat → Nat → Int) (a b : Nat),
      (l.foldl (fun f i => msetF f i i 0) f) a b =
        if a = b ∧ a ∈ l then 0 else f a b := by
  intro l
  induction l with
  | nil => intro f a b; simp
  | cons x l ih =>
    intro f a b
    show (l.foldl _ (msetF f x x 0)) a b = _
    rw [ih]
    unfold msetF
    by_cases h1 : a = b ∧ a ∈ l
    · rw [if_pos h1, if_pos ⟨h1.1, List.mem_cons_of_mem x h1.2⟩]
    · rw [if_neg h1]
      by_cases h2 : a = x ∧ b = x
      · rw [if_pos h2, if_pos ⟨h2.1.trans h2.2.symm, by rw [h2.1]; exact List.mem_cons_self x l⟩]
      · rw [if_neg h2, if_neg ?_]
        intro hcon
        rcases List.mem_cons.mp hcon.2 with hx | hl
        · exact h2 ⟨hx, hcon.1 ▸ hx⟩
        · exact h1 ⟨hcon.1, hl⟩

theorem matR_fwDiag (n : Nat) :
    MatR n (fwDiag n (fwBase n)) (fun i j => if i = j then 0 else INF) := by
  have hfold : MatR n (fwDiag n (fwBase n))
      ((List.range n).foldl (fun f i => msetF f i i 0) (fun _ _ => INF)) := by
    refine foldl_rel (MatR n) _ _ (List.range n) _ _ (matR_fwBase n) ?_
    intro b c a ha h
    have han : a < n := List.mem_range.mp ha
    exact matR_mset h 0 han han
  obtain ⟨h1, h2, h3⟩ := hfold
  refine ⟨h1, h2, ?_⟩
  intro i j hi hj
  rw [h3 i j hi hj]
  show _ = if i = j then (0 : Int) else INF
  rw [diagF_spec (List.range n) (fun _ _ => INF) i j]
  by_cases hij : i = j
  · rw [if_pos ⟨hij, List.mem_range.mpr hi⟩, if_pos hij]
  · rw [if_neg (fun h => hij h.1), if_neg hij]

theorem edges_mem {g : Dag} {e : Edge} (he : e ∈ g.edges) :
    ∃ v, v < g.n ∧ e ∈ g.adj v := by
  unfold edges at he
  obtain ⟨v, hv, hev⟩ := List.mem_flatMap.mp he
  exact ⟨v, List.mem_range.mp hv, hev⟩

theorem edges_bounds {g : Dag} (hwf : Wf g) {e : Edge} (he : e ∈ g.edges) :
    e.from_ < g.n ∧ e.to_ < g.n := by
  obtain ⟨v, hv, hev⟩ := edges_mem he
  obtain ⟨h1, h2⟩ := hwf v hv e hev
  exact ⟨h1 ▸ hv, h2⟩

theorem matR_fwInit {g : Dag} (hwf : Wf g) : MatR g.n (fwInit g) (fwInitF g) := by
  unfold fwInit fwInitF
  refine foldl_rel (MatR g.n) _ _ g.edges _ _ (matR_fwDiag g.n) ?_
  intro b c e he h
  obtain ⟨h1, h2⟩ := edges_bounds hwf he
  exact matR_mset h e.cost h1 h2

theorem matR_relaxJ {n : Nat} {m : Mat} {f : Nat → Nat → Int}
    (h : MatR n m f) {k i : Nat} (hk : k < n) (hi : i < n) :
    MatR n (relaxJ k i n m) (relaxJF k i n f) := by
  unfold relaxJ relaxJF
  refine foldl_rel (MatR n) _ _ (List.range n) _ _ h ?_
  intro b c j hj hbc
  have hjn : j < n := List.mem_range.mp hj
  rw [hbc.2.2 i k hi hk, hbc.2.2 k j hk hjn, hbc.2.2 i j hi hjn]
  by_cases hcond : satAdd (c i k) (c k j) < c i j
  · rw [if_pos hcond, if_pos hcond]
    exact matR_mset hbc _ hi hjn
  · rw [if_neg hcond, if_neg hcond]
    exact hbc

theorem matR_relaxI {n : Nat} {m : Mat} {f : Nat → Nat → Int}
    (h : MatR n m f) {k : Nat} (hk : k < n) :
    MatR n (relaxI k n m) (relaxIF k n f) := by
  unfold relaxI relaxIF
  refine foldl_rel (MatR n) _ _ (List.range n) _ _ h ?_
  intro b c i hi hbc
  exact @matR_relaxJ n b c hbc k i hk (List.mem_range.mp hi)

theorem matR_fwLoop {n : Nat} {m : Mat} {f : Nat → Nat → Int}
    (h : MatR n m f) : MatR n (fwLoop n m) (fwLoopF n f) := by
  unfold fwLoop fwLoopF
  refine foldl_rel (MatR n) _ _ (List.range n) _ _ h ?_
  intro b c k hk hbc
  exact @matR_relaxI n b c hbc k (List.mem_range.mp hk)

/-- The list-matrix program refines its functional mirror: on a
well-formed graph every in-range entry of `floyd_warshall` equals the
corresponding entry of `floyd_warshallF`. -/
theorem matR_floyd {g : Dag} (hwf : Wf g) :
    MatR g.n (floyd_warshall g) (floyd_warshallF g) :=
  @matR_fwLoop g.n (fwInit g) (fwInitF g) (matR_fwInit hwf)

end Dag

namespace Dag

theorem fwInitF_acc (u w : Nat) :
    ∀ (es : List Edge) (f : Nat → Nat → Int),
      (es.foldl (fun f e => msetF f e.from_ e.to_ e.cost) f) u w =
        es.foldl (fun acc e => if u = e.from_ ∧ w = e.to_ then e.cost else acc) (f u w) := by
  intro es
  induction es with
  | nil => intro f; rfl
  | cons e es ih =>
    intro f
    show (es.foldl _ (msetF f e.from_ e.to_ e.cost)) u w = _
    rw [ih]
    rfl

theorem acc_skip {u w : Nat} :
    ∀ (es : List Edge) (a : Int), (∀ e ∈ es, e.from_ ≠ u) →
      es.foldl (fun acc e => if u = e.from_ ∧ w = e.to_ then e.cost else acc) a = a := by
  intro es
  induction es with
  | nil => intro a _; rfl
  | cons e es ih =>
    intro a h
    show es.foldl _ (if u = e.from_ ∧ w = e.to_ then e.cost else a) = a
    rw [if_neg (fun hc => h e (List.mem_cons_self e es) hc.1.symm)]
    exact ih a (fun e2 he2 => h e2 (List.mem_cons_of_mem e he2))

theorem acc_over_edges {g : Dag} {u w : Nat} :
    ∀ (vs : List Nat) (a : Int), vs.Nodup →
      (∀ v ∈ vs, ∀ e ∈ g.adj v, e.from_ = v) → u ∈ vs →
      (vs.flatMap g.adj).foldl
        (fun acc e => if u = e.from_ ∧ w = e.to_ then e.cost else acc) a =
      (g.adj u).foldl
        (fun acc e => if u = e.from_ ∧ w = e.to_ then e.cost else acc) a := by
  intro vs
  induction vs with
  | nil => intro a _ _ hu; exact absurd hu (List.not_mem_nil u)
  | cons v vs ih =>
    intro a hnd hfr hu
    rw [List.flatMap_cons, List.foldl_append]
    by_cases hv : v = u
    · subst hv
      have hnotin : v ∉ vs := (List.nodup_cons.mp hnd).1
      rw [acc_skip (vs.flatMap g.adj) _ ?_]
      intro e he
      obtain ⟨v2, hv2, hev2⟩ := List.mem_flatMap.mp he
      rw [hfr v2 (List.mem_cons_of_mem v hv2) e hev2]
      intro hc
      rw [hc] at hv2
      exact hnotin hv2
    · rw [acc_skip (g.adj v) a ?_]
      · refine ih a (List.nodup_cons.mp hnd).2
          (fun v2 hv2 => hfr v2 (List.mem_cons_of_mem v hv2)) ?_
        rcases List.mem_cons.mp hu with h | h
        · exact absurd h.symm hv
        · exact h
      · intro e he
        rw [hfr v (List.mem_cons_self v vs) e he]
        exact hv

theorem acc_last {u w : Nat} :
    ∀ (l : List Edge) (a : Int), (∀ e ∈ l, e.from_ = u) →
      l.foldl (fun acc e => if u = e.from_ ∧ w = e.to_ then e.cost else acc) a =
        (match (l.filter (fun e => e.to_ == w)).getLast? with
         | some e => e.cost
         | none => a) := by
  intro l
  induction l using List.reverseRecOn with
  | nil => intro a _; rfl
  | append_singleton l e ih =>
    intro a h
    rw [List.foldl_append, List.filter_append]
    have hfr : e.from_ = u := h e (List.mem_append_right l (List.mem_singleton.mpr rfl))
    by_cases hw : e.to_ = w
    · show (if u = e.from_ ∧ w = e.to_ then e.cost else _) = _
      rw [if_pos ⟨hfr.symm, hw.symm⟩]
      have hfe : List.filter (fun e => e.to_ == w) [e] = [e] := by
        simp [List.filter, hw]
      rw [hfe, List.getLast?_concat]
    · show (if u = e.from_ ∧ w = e.to_ then e.cost else _) = _
      rw [if_neg (fun hc => hw hc.2.symm)]
      have hfe : List.filter (fun e => e.to_ == w) [e] = [] := by
        have hbeq : (e.to_ == w) = false := by
          rw [beq_eq_false_iff_ne]
          exact hw
        simp [List.filter, hbeq]
      rw [hfe, List.append_nil]
      exact ih a (fun e2 he2 => h e2 (List.mem_append_left _ he2))

/-- C9: the Floyd-Warshall initialization writes `dp[from][to]` by
direct assignment per edge in insertion order, so with parallel edges
the entry before relaxation holds the cost of the last-added parallel
edge, not the minimum: on any well-formed graph the initialized entry
`[u][w]` equals the cost of the last edge `u → w` in the adjacency list
of `u`; concretely, after `add_edge(0,1,3); add_edge(0,1,5)` the entry
is `5`, though the minimum of the parallel costs is `3`. -/
theorem fwInit_last_parallel_write :
    (∀ (g : Dag), Wf g → ∀ u (e₀ : Edge), u < g.n →
      ((g.adj u).filter (fun e => e.to_ == e₀.to_)).getLast? = some e₀ →
      mget (fwInit g) u e₀.to_ = e₀.cost) ∧
    mget (fwInit (((Dag.new 2).add_edge 0 1 3).add_edge 0 1 5)) 0 1 = 5 ∧
    ((((((Dag.new 2).add_edge 0 1 3).add_edge 0 1 5)).adj 0).filter
      (fun e => e.to_ == 1)).map Edge.cost = [3, 5] ∧
    (5 : Int) ≠ 3 := by
  refine ⟨?_, by decide, by decide, by decide⟩
  intro g hwf u e₀ hu hlast
  have hmem : e₀ ∈ g.adj u := by
    have := List.mem_of_mem_getLast? hlast
    exact List.mem_of_mem_filter this
  have hw : e₀.to_ < g.n := (hwf u hu e₀ hmem).2
  rw [(matR_fwInit hwf).2.2 u e₀.to_ hu hw]
  unfold fwInitF
  rw [fwInitF_acc]
  unfold edges
  rw [acc_over_edges (List.range g.n) _ (List.nodup_range g.n)
    (fun v hv e he => (hwf v (List.mem_range.mp hv) e he).1)
    (List.mem_range.mpr hu)]
  rw [acc_last (g.adj u) _ (fun e he => (hwf u hu e he).1), hlast]

end Dag

namespace Dag

instance wfDecidable (g : Dag) : Decidable (Wf g) := by
  unfold Wf
  infer_instance

/-- Witness for C9, applying the general last-write statement to the
two-parallel-edge graph. -/
theorem fwInit_last_parallel_write_witness :
    mget (fwInit (((Dag.new 2).add_edge 0 1 3).add_edge 0 1 5)) 0
      (Edge.to_ ⟨0, 1, 5⟩) = Edge.cost ⟨0, 1, 5⟩ :=
  fwInit_last_parallel_write.1 (((Dag.new 2).add_edge 0 1 3).add_edge 0 1 5)
    (by decide) 0 ⟨0, 1, 5⟩ (by decide) (by decide)

end Dag

namespace Dag

/-- All edge costs are non-negative. -/
def Nonneg (g : Dag) : Prop :=
  ∀ v, v < g.n → ∀ e ∈ g.adj v, 0 ≤ e.cost

theorem isWalk_nil {g : Dag} {u : Nat} : IsWalk g u u [] := rfl

theorem isWalk_append {g : Dag} {u v : Nat} :
    ∀ {es1 es2 : List Edge}, IsWalk g u v (es1 ++ es2) ↔
      ∃ w, IsWalk g u w es1 ∧ IsWalk g w v es2 := by
  intro es1
  induction es1 generalizing u with
  | nil =>
    intro es2
    constructor
    · intro h
      exact ⟨u, rfl, h⟩
    · rintro ⟨w, hw, h2⟩
      have : u = w := hw
      rw [this]
      exact h2
  | cons e es1 ih =>
    intro es2
    constructor
    · rintro ⟨he, hrest⟩
      obtain ⟨w, h1, h2⟩ := (ih).mp hrest
      exact ⟨w, ⟨he, h1⟩, h2⟩
    · rintro ⟨w, ⟨he, h1⟩, h2⟩
      exact ⟨he, (ih).mpr ⟨w, h1, h2⟩⟩

theorem walkCost_nil : walkCost [] = 0 := rfl

theorem walkCost_cons (e : Edge) (es : List Edge) :
    walkCost (e :: es) = e.cost + walkCost es := by
  unfold walkCost
  rw [List.map_cons, List.sum_cons]

theorem walkCost_append (es1 es2 : List Edge) :
    walkCost (es1 ++ es2) = walkCost es1 + walkCost es2 := by
  unfold walkCost
  rw [List.map_append, List.sum_append]

/-- On a well-formed graph, a walk starting in range stays in range, and
all its edges are genuine in-range adjacency entries. -/
theorem isWalk_bounds {g : Dag} (hwf : Wf g) :
    ∀ {es : List Edge} {u v : Nat}, u < g.n → IsWalk g u v es →
      v < g.n ∧ ∀ e ∈ es, e.from_ < g.n ∧ e.to_ < g.n ∧ e ∈ g.adj e.from_ := by
  intro es
  induction es with
  | nil =>
    intro u v hu h
    have : u = v := h
    exact ⟨this ▸ hu, fun e he => absurd he (List.not_mem_nil e)⟩
  | cons e es ih =>
    intro u v hu h
    obtain ⟨he, hrest⟩ := h
    obtain ⟨hfr, hto⟩ := hwf u hu e he
    obtain ⟨hv, hall⟩ := ih hto hrest
    refine ⟨hv, ?_⟩
    intro e2 he2
    rcases List.mem_cons.mp he2 with rfl | h2
    · exact ⟨hfr ▸ hu, hto, hfr ▸ he⟩
    · exact hall e2 h2

theorem walkCost_nonneg {g : Dag} (hwf : Wf g) (hnn : Nonneg g)
    {es : List Edge} {u v : Nat} (hu : u < g.n) (h : IsWalk g u v es) :
    0 ≤ walkCost es := by
  have hall := (isWalk_bounds hwf hu h).2
  clear h
  induction es with
  | nil => exact le_refl 0
  | cons e es ih =>
    rw [walkCost_cons]
    have he := hall e (List.mem_cons_self e es)
    have h1 : 0 ≤ e.cost := hnn e.from_ he.1 e he.2.2
    have h2 : 0 ≤ walkCost es := ih (fun e2 he2 => hall e2 (List.mem_cons_of_mem e he2))
    omega

theorem walkCost_le_length {B : Int} :
    ∀ {es : List Edge}, (∀ e ∈ es, e.cost ≤ B) →
      walkCost es ≤ es.length * B := by
  intro es
  induction es with
  | nil => intro _; simp [walkCost]
  | cons e es ih =>
    intro h
    rw [walkCost_cons, List.length_cons]
    have h1 : e.cost ≤ B := h e (List.mem_cons_self e es)
    have h2 : walkCost es ≤ es.length * B := ih (fun e2 he2 => h e2 (List.mem_cons_of_mem e he2))
    have : ((es.length : Int) + 1) * B = es.length * B + B := by ring
    push_cast
    rw [this]
    omega

/-- All intermediate vertices of the walk (targets of all edges except
the last) are below `k`. -/
def Below (k : Nat) (es : List Edge) : Prop :=
  ∀ e ∈ es.dropLast, e.to_ < k

theorem below_nil (k : Nat) : Below k [] :=
  fun e he => absurd he (List.not_mem_nil e)

theorem below_single (k : Nat) (e : Edge) : Below k [e] :=
  fun e2 he2 => absurd he2 (List.not_mem_nil e2)

theorem below_mono {k k2 : Nat} (h : k ≤ k2) {es : List Edge}
    (hb : Below k es) : Below k2 es :=
  fun e he => lt_of_lt_of_le (hb e he) h

theorem below_cons {k : Nat} {e : Edge} {es : List Edge} (hne : es ≠ [])
    (hb : Below k (e :: es)) : e.to_ < k ∧ Below k es := by
  have hdl : (e :: es).dropLast = e :: es.dropLast := by
    cases es with
    | nil => exact absurd rfl hne
    | cons f fs => rfl
  constructor
  · exact hb e (hdl ▸ List.mem_cons_self e es.dropLast)
  · intro e2 he2
    refine hb e2 (hdl ▸ List.mem_cons_of_mem e ?_)
    exact he2

theorem below_cons_of {k : Nat} {e : Edge} {es : List Edge}
    (hto : e.to_ < k) (hb : Below k es) : Below k (e :: es) := by
  intro e2 he2
  cases es with
  | nil => exact absurd he2 (List.not_mem_nil e2)
  | cons f fs =>
    rcases List.mem_cons.mp he2 with rfl | h2
    · exact hto
    · exact hb e2 h2

theorem below_cons_weak {k : Nat} {e : Edge} {es : List Edge}
    (hb : Below k (e :: es)) : Below k es := by
  intro e2 he2
  cases es with
  | nil => exact absurd he2 (List.not_mem_nil e2)
  | cons f fs =>
    exact hb e2 (List.mem_cons_of_mem e he2)

/-- The last edge of a nonempty walk points at the walk's endpoint. -/
theorem walk_last_to {g : Dag} :
    ∀ {es : List Edge} {u v : Nat}, IsWalk g u v es → ∀ e ∈ es,
      e ∈ es.dropLast ∨ e.to_ = v := by
  intro es
  induction es with
  | nil => intro u v _ e he; exact absurd he (List.not_mem_nil e)
  | cons f es ih =>
    intro u v h e he
    obtain ⟨hf, hrest⟩ := h
    cases es with
    | nil =>
      rcases List.mem_singleton.mp he with rfl
      right
      exact hrest.symm ▸ rfl
    | cons f2 fs =>
      have hdl : (f :: f2 :: fs).dropLast = f :: (f2 :: fs).dropLast := rfl
      rcases List.mem_cons.mp he with rfl | h2
      · left
        rw [hdl]
        exact List.mem_cons_self e _
      · rcases ih hrest e h2 with hin | hto
        · left
          rw [hdl]
          exact List.mem_cons_of_mem f hin
        · right
          exact hto

/-- Appending a `Below k` walk into `k` and a `Below k` walk out of `k`
gives a `Below (k+1)` walk. -/
theorem below_append_at {g : Dag} {k i : Nat} {es1 es2 : List Edge}
    (h1 : IsWalk g i k es1) (hb1 : Below k es1) (hb2 : Below k es2) :
    Below (k + 1) (es1 ++ es2) := by
  intro e he
  have hmem : e ∈ es1 ++ es2 := (List.dropLast_sublist (es1 ++ es2)).subset he
  rcases List.mem_append.mp hmem with h1m | h2m
  · rcases walk_last_to h1 e h1m with hin | hto
    · exact Nat.lt_succ_of_lt (hb1 e hin)
    · rw [hto]
      exact Nat.lt_succ_self k
  · -- e comes from es2; if it is not the global last edge it is in
    -- es2.dropLast, otherwise it is the last edge and unconstrained
    by_cases hlast : e ∈ es2.dropLast
    · exact Nat.lt_succ_of_lt (hb2 e hlast)
    · -- e ∈ es2 but not in es2.dropLast; show e is not in the dropLast
      -- of the concatenation unless es2 contributes it there
      cases hes2 : es2 with
      | nil => rw [hes2] at h2m; exact absurd h2m (List.not_mem_nil e)
      | cons f fs =>
        have hdl : (es1 ++ es2).dropLast = es1 ++ es2.dropLast := by
          rw [List.dropLast_append_of_ne_nil]
          rw [hes2]
          exact List.cons_ne_nil f fs
        rw [hdl] at he
        rcases List.mem_append.mp he with ha | hb
        · rcases walk_last_to h1 e ha with hin | hto
          · exact Nat.lt_succ_of_lt (hb1 e hin)
          · rw [hto]
            exact Nat.lt_succ_self k
        · exact absurd hb hlast

end Dag

namespace Dag

theorem below_append_right {k : Nat} {a b : List Edge}
    (h : Below k (a ++ b)) : Below k b := by
  intro e he
  cases hb : b with
  | nil => rw [hb] at he; exact absurd he (List.not_mem_nil e)
  | cons f fs =>
    subst hb
    refine h e ?_
    rw [List.dropLast_append_cons]
    exact List.mem_append_right a he

/-- Cutting repeated vertices out of a walk: every walk contains a walk
with the same endpoints, no repeated vertices, visiting a subset of the
original targets, of no greater cost (costs non-negative) and respecting
the same intermediate bound. -/
theorem walk_extract {g : Dag} (hwf : Wf g) (hnn : Nonneg g) (k : Nat) :
    ∀ (L : Nat) (es : List Edge) (i j : Nat), es.length ≤ L → i < g.n →
      IsWalk g i j es → Below k es →
      ∃ es2, IsWalk g i j es2 ∧ Below k es2 ∧ walkCost es2 ≤ walkCost es ∧
        es2.length ≤ es.length ∧ (∀ t ∈ es2.map Edge.to_, t ∈ es.map Edge.to_) ∧
        (i :: es2.map Edge.to_).Nodup := by
  intro L
  induction L with
  | zero =>
    intro es i j hlen hi h hb
    have : es = [] := List.length_eq_zero.mp (by omega)
    subst this
    exact ⟨[], h, below_nil k, le_refl _, le_refl _,
      fun t ht => ht, List.nodup_singleton i⟩
  | succ L ih =>
    intro es i j hlen hi h hb
    by_cases hmem : i ∈ es.map Edge.to_
    · -- the walk returns to its start: drop the leading closed part
      obtain ⟨e, he, hto⟩ := List.mem_map.mp hmem
      obtain ⟨l1, l2, rfl⟩ := List.append_of_mem he
      obtain ⟨w, hw1, hw2⟩ := isWalk_append.mp h
      obtain ⟨hew, hrest⟩ := hw2
      rw [hto] at hrest
      have hwn : w < g.n := (isWalk_bounds hwf hi hw1).1
      have hl2len : l2.length ≤ L := by
        have := List.length_append l1 (e :: l2)
        rw [List.length_cons] at this
        omega
      have hbl2 : Below k l2 := by
        have h1 : Below k (e :: l2) := below_append_right hb
        exact below_cons_weak h1
      obtain ⟨es2, p1, p2, p3, p4, p5, p6⟩ := ih l2 i j hl2len hi hrest hbl2
      refine ⟨es2, p1, p2, ?_, ?_, ?_, p6⟩
      · have hc1 : 0 ≤ walkCost l1 := walkCost_nonneg hwf hnn hi hw1
        have hc2 : 0 ≤ e.cost := hnn w hwn e hew
        rw [walkCost_append, walkCost_cons]
        omega
      · rw [List.length_append, List.length_cons]
        omega
      · intro t ht
        have := p5 t ht
        rw [List.map_append, List.map_cons]
        exact List.mem_append_right _ (List.mem_cons_of_mem _ this)
    · cases es with
      | nil =>
        exact ⟨[], h, below_nil k, le_refl _, le_refl _,
          fun t ht => ht, List.nodup_singleton i⟩
      | cons e es' =>
        obtain ⟨hei, hrest⟩ := h
        have hton : e.to_ < g.n := (hwf i hi e hei).2
        obtain ⟨es'', p1, p2, p3, p4, p5, p6⟩ :=
          ih es' e.to_ j (by rw [List.length_cons] at hlen; omega) hton hrest
            (below_cons_weak hb)
        have hsub : ∀ t ∈ (e :: es'').map Edge.to_, t ∈ (e :: es').map Edge.to_ := by
          intro t ht
          rw [List.map_cons] at ht ⊢
          rcases List.mem_cons.mp ht with rfl | h2
          · exact List.mem_cons_self _ _
          · exact List.mem_cons_of_mem _ (p5 t h2)
        refine ⟨e :: es'', ⟨hei, p1⟩, ?_, ?_, ?_, hsub, ?_⟩
        · cases hes'' : es'' with
          | nil => exact below_single k e
          | cons f fs =>
            have hne' : es' ≠ [] := by
              intro hcon
              rw [hcon] at p4
              rw [hes''] at p4
              simp at p4
            have hek : e.to_ < k := (below_cons hne' hb).1
            rw [← hes'']
            exact below_cons_of hek p2
        · rw [walkCost_cons, walkCost_cons]
          omega
        · rw [List.length_cons, List.length_cons]
          omega
        · rw [List.map_cons]
          rw [List.nodup_cons]
          refine ⟨?_, p6⟩
          intro hcon
          refine hmem ?_
          rw [List.map_cons]
          rcases List.mem_cons.mp hcon with rfl | h2
          · exact List.mem_cons_self _ _
          · exact List.mem_cons_of_mem _ (p5 i h2)

/-- Every `Below k` walk admits a `Below k` walk of the same endpoints
whose cost is at most `(n - 1) * B` (costs in `[0, B]`). -/
theorem walk_min_bound {g : Dag} (hwf : Wf g) (hnn : Nonneg g) {B : Int}
    (hcb : ∀ v, v < g.n → ∀ e ∈ g.adj v, e.cost ≤ B) (hB : 0 ≤ B)
    {k i j : Nat} {es : List Edge} (hi : i < g.n)
    (h : IsWalk g i j es) (hb : Below k es) :
    ∃ es2, IsWalk g i j es2 ∧ Below k es2 ∧ walkCost es2 ≤ walkCost es ∧
      walkCost es2 ≤ ((g.n : Int) - 1) * B := by
  obtain ⟨es2, p1, p2, p3, p4, p5, p6⟩ :=
    walk_extract hwf hnn k es.length es i j (le_refl _) hi h hb
  refine ⟨es2, p1, p2, p3, ?_⟩
  have hbounds := (isWalk_bounds hwf hi p1).2
  have hlt : ∀ a ∈ i :: es2.map Edge.to_, a < g.n := by
    intro a ha
    rcases List.mem_cons.mp ha with rfl | h2
    · exact hi
    · obtain ⟨e, he, rfl⟩ := List.mem_map.mp h2
      exact (hbounds e he).2.1
  have hlen : (i :: es2.map Edge.to_).length ≤ g.n :=
    UnionFind.nodup_length_le p6 hlt
  rw [List.length_cons, List.length_map] at hlen
  have hcost : walkCost es2 ≤ (es2.length : Int) * B := by
    refine walkCost_le_length ?_
    intro e he
    exact hcb e.from_ (hbounds e he).1 e (hbounds e he).2.2
  refine le_trans hcost ?_
  have h1 : (es2.length : Int) ≤ (g.n : Int) - 1 := by
    have : es2.length + 1 ≤ g.n := hlen
    omega
  exact mul_le_mul_of_nonneg_right h1 hB

end Dag

namespace Dag

/-- Splitting a `Below (k+1)` walk: either it never passes through `k`,
or it splits into a `Below k` walk into `k` and a `Below k` walk out of
`k`, of no greater total cost (costs non-negative). -/
theorem walk_split {g : Dag} (hwf : Wf g) (hnn : Nonneg g) {k : Nat} :
    ∀ (L : Nat) (es : List Edge) (i j : Nat), es.length ≤ L → i < g.n →
      IsWalk g i j es → Below (k + 1) es →
      Below k es ∨
      ∃ es1 es2, IsWalk g i k es1 ∧ IsWalk g k j es2 ∧ Below k es1 ∧
        Below k es2 ∧ walkCost es1 + walkCost es2 ≤ walkCost es := by
  intro L
  induction L with
  | zero =>
    intro es i j hlen hi h hb
    have : es = [] := List.length_eq_zero.mp (by omega)
    subst this
    exact Or.inl (below_nil k)
  | succ L ih =>
    intro es i j hlen hi h hb
    cases es with
    | nil => exact Or.inl (below_nil k)
    | cons e es' =>
      obtain ⟨hei, hrest⟩ := h
      have hton : e.to_ < g.n := (hwf i hi e hei).2
      cases hes' : es' with
      | nil => exact Or.inl (below_single k e)
      | cons f fs =>
        have hne' : es' ≠ [] := by rw [hes']; exact List.cons_ne_nil f fs
        rw [← hes'] at *
        obtain ⟨hek1, hb'⟩ := below_cons hne' hb
        have hlen' : es'.length ≤ L := by
          rw [List.length_cons] at hlen; omega
        rcases Nat.lt_succ_iff_lt_or_eq.mp hek1 with hlt | heq
        · -- e.to_ < k : prepend e to whatever the tail yields
          rcases ih es' e.to_ j hlen' hton hrest hb' with hbk | hsplit
          · exact Or.inl (below_cons_of hlt hbk)
          · obtain ⟨es1, es2, q1, q2, q3, q4, q5⟩ := hsplit
            refine Or.inr ⟨e :: es1, es2, ⟨hei, q1⟩, q2,
              below_cons_of hlt q3, q4, ?_⟩
            rw [walkCost_cons, walkCost_cons]
            omega
        · -- e.to_ = k : split right after e, dropping any closed walk at k
          rcases ih es' e.to_ j hlen' hton hrest hb' with hbk | hsplit
          · refine Or.inr ⟨[e], es', ⟨hei, heq⟩, ?_, below_single k e,
              heq ▸ hbk, ?_⟩
            · exact heq ▸ hrest
            · rw [walkCost_cons, walkCost_cons, walkCost_nil]
              omega
          · obtain ⟨es1, es2, q1, q2, q3, q4, q5⟩ := hsplit
            have hq1' : IsWalk g k k es1 := heq ▸ q1
            have hc1 : 0 ≤ walkCost es1 :=
              walkCost_nonneg hwf hnn (heq ▸ hton) hq1'
            refine Or.inr ⟨[e], es2, ⟨hei, heq⟩, q2, below_single k e, q4, ?_⟩
            rw [walkCost_cons, walkCost_cons, walkCost_nil]
            omega

end Dag

namespace Dag

theorem satAdd_lb (a b : Int) : NEG_INF ≤ satAdd a b :=
  le_max_left _ _

theorem satAdd_ub (a b : Int) : satAdd a b ≤ INF := by
  unfold satAdd
  exact max_le (by decide) (min_le_right _ _)

theorem satAdd_exact {a b : Int} (h1 : NEG_INF ≤ a + b) (h2 : a + b ≤ INF) :
    satAdd a b = a + b := by
  unfold satAdd
  rw [min_eq_left h2, max_eq_right h1]

theorem satAdd_le_sum {a b : Int} (h : NEG_INF ≤ a + b) : satAdd a b ≤ a + b := by
  unfold satAdd
  exact max_le h (min_le_left _ _)

theorem satAdd_zero_right {a : Int} (h1 : NEG_INF ≤ a) (h2 : a ≤ INF) :
    satAdd a 0 = a := by
  unfold satAdd
  rw [add_zero, min_eq_left h2, max_eq_right h1]

theorem satAdd_zero_left {b : Int} (h1 : NEG_INF ≤ b) (h2 : b ≤ INF) :
    satAdd 0 b = b := by
  unfold satAdd
  rw [zero_add, min_eq_left h2, max_eq_right h1]

theorem satAdd_inf_left {b : Int} (h : 0 ≤ b) : satAdd INF b = INF := by
  unfold satAdd
  rw [min_eq_right (le_add_of_nonneg_right h), max_eq_right (by decide)]

theorem satAdd_inf_right {a : Int} (h : 0 ≤ a) : satAdd a INF = INF := by
  unfold satAdd
  rw [min_eq_right (le_add_of_nonneg_left h), max_eq_right (by decide)]

theorem satAdd_nonneg {a b : Int} (ha : 0 ≤ a) (hb : 0 ≤ b) :
    0 ≤ satAdd a b := by
  unfold satAdd
  refine le_trans (le_min (add_nonneg ha hb) (by decide)) (le_max_right _ _)

/-- The initialized entry `[u][w]`, for any in-range row `u`: the cost
of the last `u → w` edge if one exists, otherwise `0` on the diagonal
and `INF` off it. -/
theorem fwInitF_char {g : Dag} (hwf : Wf g) (u w : Nat) (hu : u < g.n) :
    fwInitF g u w =
      match ((g.adj u).filter (fun e => e.to_ == w)).getLast? with
      | some e => e.cost
      | none => if u = w then 0 else INF := by
  show (g.edges.foldl (fun f e => msetF f e.from_ e.to_ e.cost)
    (fun i j => if i = j then 0 else INF)) u w = _
  rw [fwInitF_acc]
  show ((List.range g.n).flatMap g.adj).foldl _ (if u = w then 0 else INF) = _
  rw [acc_over_edges (List.range g.n) _ (List.nodup_range g.n)
    (fun v hv e he => (hwf v (List.mem_range.mp hv) e he).1)
    (List.mem_range.mpr hu)]
  exact acc_last (g.adj u) _ (fun e he => (hwf u hu e he).1)

/-- Rows `≥ n` of the initialized matrix are never written. -/
theorem fwInitF_out {g : Dag} (hwf : Wf g) (u w : Nat) (hu : ¬ u < g.n) :
    fwInitF g u w = if u = w then 0 else INF := by
  show (g.edges.foldl (fun f e => msetF f e.from_ e.to_ e.cost)
    (fun i j => if i = j then 0 else INF)) u w = _
  rw [fwInitF_acc]
  refine acc_skip g.edges _ ?_
  intro e he
  obtain ⟨v, hv, hev⟩ := List.mem_flatMap.mp he
  rw [(hwf v (List.mem_range.mp hv) e hev).1]
  intro hc
  rw [hc] at hv
  exact hu (List.mem_range.mp hv)

end Dag

namespace Dag

/-- Closed form of the in-place inner loop over an arbitrary column
list: when the pivot entries are stable (`f k k = 0` and row `i` holds
representable values), the in-place `chmin` updates read the original
`dp[i][k]` and `dp[k][j]` values throughout. -/
theorem relaxJF_go (k i : Nat) (f : Nat → Nat → Int)
    (hA : f k k = 0)
    (hC : ∀ b, NEG_INF ≤ f i b ∧ f i b ≤ INF) :
    ∀ (l : List Nat),
      l.foldl
        (fun f j =>
          if satAdd (f i k) (f k j) < f i j
          then msetF f i j (satAdd (f i k) (f k j)) else f) f =
      fun a b => if a = i ∧ b ∈ l
        then min (f i b) (satAdd (f i k) (f k b)) else f a b := by
  intro l
  induction l using List.reverseRecOn with
  | nil =>
    funext a b
    show f a b = _
    rw [if_neg (fun hc => List.not_mem_nil b hc.2)]
  | append_singleton l j ih =>
    have hkk0 : satAdd (f i k) (f k k) = f i k := by
      rw [hA]
      exact satAdd_zero_right (hC k).1 (hC k).2
    funext a b
    rw [List.foldl_append, List.foldl_cons, List.foldl_nil, ih]
    simp only [true_and, hkk0, min_self, ite_self]
    have hX2 : (if k = i ∧ j ∈ l
        then f i j ⊓ satAdd (f i k) (f k j) else f k j) = f k j := by
      by_cases hc : k = i ∧ j ∈ l
      · obtain ⟨hki, hjl⟩ := hc
        rw [if_pos ⟨hki, hjl⟩]
        subst hki
        rw [hA, satAdd_zero_left (hC j).1 (hC j).2, min_self]
      · rw [if_neg hc]
    rw [hX2]
    by_cases hjl : j ∈ l
    · rw [if_pos hjl, if_neg (not_lt.mpr (min_le_right _ _))]
      have hiff : (b ∈ l ++ [j]) ↔ b ∈ l := by
        constructor
        · intro h
          rcases List.mem_append.mp h with h2 | h2
          · exact h2
          · rw [List.mem_singleton.mp h2]; exact hjl
        · exact List.mem_append_left _
      by_cases hc : a = i ∧ b ∈ l
      · rw [if_pos hc, if_pos ⟨hc.1, hiff.mpr hc.2⟩]
      · rw [if_neg hc, if_neg (fun h2 => hc ⟨h2.1, hiff.mp h2.2⟩)]
    · rw [if_neg hjl]
      by_cases hlt : satAdd (f i k) (f k j) < f i j
      · rw [if_pos hlt]
        show (if a = i ∧ b = j then satAdd (f i k) (f k j)
          else if a = i ∧ b ∈ l
            then f i b ⊓ satAdd (f i k) (f k b) else f a b) = _
        by_cases hc : a = i ∧ b = j
        · obtain ⟨rfl, rfl⟩ := hc
          rw [if_pos ⟨rfl, rfl⟩,
            if_pos ⟨rfl, List.mem_append_right _ (List.mem_singleton.mpr rfl)⟩]
          rw [min_eq_right (le_of_lt hlt)]
        · rw [if_neg hc]
          by_cases hc2 : a = i ∧ b ∈ l
          · rw [if_pos hc2, if_pos ⟨hc2.1, List.mem_append_left _ hc2.2⟩]
          · rw [if_neg hc2, if_neg ?_]
            intro h2
            rcases List.mem_append.mp h2.2 with h3 | h3
            · exact hc2 ⟨h2.1, h3⟩
            · exact hc ⟨h2.1, List.mem_singleton.mp h3⟩
      · rw [if_neg hlt]
        by_cases hc : a = i ∧ b ∈ l
        · rw [if_pos hc, if_pos ⟨hc.1, List.mem_append_left _ hc.2⟩]
        · rw [if_neg hc]
          by_cases hc2 : a = i ∧ b ∈ l ++ [j]
          · obtain ⟨rfl, hbm⟩ := hc2
            rcases List.mem_append.mp hbm with h3 | h3
            · exact absurd ⟨rfl, h3⟩ hc
            · have hbj : b = j := List.mem_singleton.mp h3
              subst hbj
              rw [if_pos ⟨rfl, List.mem_append_right _ (List.mem_singleton.mpr rfl)⟩]
              rw [min_eq_left (not_lt.mp hlt)]
          · rw [if_neg hc2]

/-- The inner loop over columns `0..n`. -/
theorem relaxJF_eq (k i n : Nat) (f : Nat → Nat → Int)
    (hA : f k k = 0)
    (hC : ∀ b, NEG_INF ≤ f i b ∧ f i b ≤ INF) :
    relaxJF k i n f =
      fun a b => if a = i ∧ b < n
        then min (f i b) (satAdd (f i k) (f k b)) else f a b := by
  show (List.range n).foldl _ f = _
  rw [relaxJF_go k i f hA hC (List.range n)]
  funext a b
  by_cases hc : a = i ∧ b < n
  · rw [if_pos ⟨hc.1, List.mem_range.mpr hc.2⟩, if_pos hc]
  · rw [if_neg (fun h2 => hc ⟨h2.1, List.mem_range.mp h2.2⟩), if_neg hc]

end Dag

namespace Dag

/-- Closed form of one full relaxation round: on representable inputs
with `f k k = 0`, the in-place triple loop at pivot `k` computes the
pointwise `chmin` against `dp[a][k] + dp[k][b]` read from the values
before the round. -/
theorem relaxIF_go (k n : Nat) (f : Nat → Nat → Int)
    (hA : f k k = 0)
    (hR : ∀ a b, NEG_INF ≤ f a b ∧ f a b ≤ INF) :
    ∀ (l : List Nat), l.Nodup →
      l.foldl (fun f i => relaxJF k i n f) f =
      fun a b => if a ∈ l ∧ b < n
        then min (f a b) (satAdd (f a k) (f k b)) else f a b := by
  intro l
  induction l using List.reverseRecOn with
  | nil =>
    intro _
    funext a b
    show f a b = _
    rw [if_neg (fun hc => List.not_mem_nil a hc.1)]
  | append_singleton l i ih =>
    intro hnd
    obtain ⟨hndl, _, hdisj⟩ := List.nodup_append.mp hnd
    have hil : i ∉ l := fun hi => hdisj hi (List.mem_singleton.mpr rfl)
    rw [List.foldl_append, List.foldl_cons, List.foldl_nil, ih hndl]
    have hGkb : ∀ b, (if k ∈ l ∧ b < n
        then min (f k b) (satAdd (f k k) (f k b)) else f k b) = f k b := by
      intro b
      by_cases hc : k ∈ l ∧ b < n
      · rw [if_pos hc, hA, satAdd_zero_left (hR k b).1 (hR k b).2, min_self]
      · rw [if_neg hc]
    have hGib : ∀ b, (if i ∈ l ∧ b < n
        then min (f i b) (satAdd (f i k) (f k b)) else f i b) = f i b := by
      intro b
      exact if_neg (fun hc => hil hc.1)
    have hGkk : (fun a b => if a ∈ l ∧ b < n
        then min (f a b) (satAdd (f a k) (f k b)) else f a b) k k = 0 := by
      show (if k ∈ l ∧ k < n
        then min (f k k) (satAdd (f k k) (f k k)) else f k k) = 0
      rw [hGkb k, hA]
    have hGR : ∀ b, NEG_INF ≤ (fun a b => if a ∈ l ∧ b < n
        then min (f a b) (satAdd (f a k) (f k b)) else f a b) i b ∧
        (fun a b => if a ∈ l ∧ b < n
          then min (f a b) (satAdd (f a k) (f k b)) else f a b) i b ≤ INF := by
      intro b
      show NEG_INF ≤ (if i ∈ l ∧ b < n
        then min (f i b) (satAdd (f i k) (f k b)) else f i b) ∧
        (if i ∈ l ∧ b < n
          then min (f i b) (satAdd (f i k) (f k b)) else f i b) ≤ INF
      rw [hGib b]
      exact hR i b
    rw [relaxJF_eq k i n _ hGkk hGR]
    funext a b
    simp only [hGkb, hGib]
    by_cases hc : a = i ∧ b < n
    · obtain ⟨rfl, hbn⟩ := hc
      rw [if_pos ⟨rfl, hbn⟩,
        if_pos ⟨List.mem_append_right _ (List.mem_singleton.mpr rfl), hbn⟩]
    · rw [if_neg hc]
      by_cases hc2 : a ∈ l ∧ b < n
      · rw [if_pos hc2, if_pos ⟨List.mem_append_left _ hc2.1, hc2.2⟩]
      · rw [if_neg hc2, if_neg ?_]
        intro h2
        rcases List.mem_append.mp h2.1 with h3 | h3
        · exact hc2 ⟨h3, h2.2⟩
        · exact hc ⟨List.mem_singleton.mp h3, h2.2⟩

/-- One full round of the in-place relaxation, rows `0..n`. -/
theorem relaxIF_eq (k n : Nat) (f : Nat → Nat → Int)
    (hA : f k k = 0)
    (hR : ∀ a b, NEG_INF ≤ f a b ∧ f a b ≤ INF) :
    relaxIF k n f =
      fun a b => if a < n ∧ b < n
        then min (f a b) (satAdd (f a k) (f k b)) else f a b := by
  show (List.range n).foldl _ f = _
  rw [relaxIF_go k n f hA hR (List.range n) (List.nodup_range n)]
  funext a b
  by_cases hc : a < n ∧ b < n
  · rw [if_pos ⟨List.mem_range.mpr hc.1, hc.2⟩, if_pos hc]
  · rw [if_neg (fun h2 => hc ⟨List.mem_range.mp h2.1, h2.2⟩), if_neg hc]

end Dag

namespace Dag

/-- The value `v` is the minimum cost over walks `a → b` whose
intermediate vertices are all `< k`, or `INF` when no such walk
exists. -/
def DK (g : Dag) (k a b : Nat) (v : Int) : Prop :=
  (∀ es, IsWalk g a b es → Below k es → v ≤ walkCost es) ∧
  ((∃ es, IsWalk g a b es ∧ Below k es ∧ walkCost es = v) ∨
   (v = INF ∧ ∀ es, IsWalk g a b es → ¬ Below k es))

theorem dk_nonneg {g : Dag} {k a b : Nat} {v : Int}
    (hwf : Wf g) (hnn : Nonneg g) (ha : a < g.n) (h : DK g k a b v) :
    0 ≤ v := by
  rcases h.2 with ⟨es, hw, _, hc⟩ | ⟨hv, _⟩
  · rw [← hc]
    exact walkCost_nonneg hwf hnn ha hw
  · rw [hv]
    decide

theorem dk_le_bound {g : Dag} {k a b : Nat} {v B : Int}
    (hwf : Wf g) (hnn : Nonneg g)
    (hcb : ∀ u, u < g.n → ∀ e ∈ g.adj u, e.cost ≤ B) (hB0 : 0 ≤ B)
    (ha : a < g.n) (h : DK g k a b v)
    (hex : ∃ es, IsWalk g a b es ∧ Below k es) :
    v ≤ ((g.n : Int) - 1) * B := by
  obtain ⟨es, hw, hb⟩ := hex
  obtain ⟨es2, p1, p2, _, p4⟩ := walk_min_bound hwf hnn hcb hB0 ha hw hb
  exact le_trans (h.1 es2 p1 p2) p4

theorem bound_lt_INF {n : Nat} {B : Int} (hB0 : 0 ≤ B)
    (hINF : 2 * ((n : Int) - 1) * B < INF) : ((n : Int) - 1) * B < INF := by
  rcases Nat.eq_zero_or_pos n with h0 | hpos
  · subst h0
    have h1 : (0 : Int) < INF := by decide
    have h2 : ((0 : Nat) : Int) - 1 = -1 := by decide
    rw [h2]
    nlinarith
  · have h1 : (1 : Int) ≤ (n : Int) := by exact_mod_cast hpos
    have h2 : (0 : Int) ≤ ((n : Int) - 1) * B :=
      mul_nonneg (by linarith) hB0
    have h3 : 2 * ((n : Int) - 1) * B = ((n : Int) - 1) * B + ((n : Int) - 1) * B := by
      ring
    linarith

theorem dk_lt_INF {g : Dag} {k a b : Nat} {v B : Int}
    (hwf : Wf g) (hnn : Nonneg g)
    (hcb : ∀ u, u < g.n → ∀ e ∈ g.adj u, e.cost ≤ B) (hB0 : 0 ≤ B)
    (hINF : 2 * ((g.n : Int) - 1) * B < INF)
    (ha : a < g.n) (h : DK g k a b v)
    (hex : ∃ es, IsWalk g a b es ∧ Below k es) :
    v < INF :=
  lt_of_le_of_lt (dk_le_bound hwf hnn hcb hB0 ha h hex) (bound_lt_INF hB0 hINF)

theorem dk_le_INF {g : Dag} {k a b : Nat} {v B : Int}
    (hwf : Wf g) (hnn : Nonneg g)
    (hcb : ∀ u, u < g.n → ∀ e ∈ g.adj u, e.cost ≤ B) (hB0 : 0 ≤ B)
    (hINF : 2 * ((g.n : Int) - 1) * B < INF)
    (ha : a < g.n) (h : DK g k a b v) :
    v ≤ INF := by
  rcases h.2 with ⟨es, hw, hb, _⟩ | ⟨hv, _⟩
  · exact le_of_lt (dk_lt_INF hwf hnn hcb hB0 hINF ha h ⟨es, hw, hb⟩)
  · rw [hv]

theorem dk_unique {g : Dag} {k a b : Nat} {v w B : Int}
    (hwf : Wf g) (hnn : Nonneg g)
    (hcb : ∀ u, u < g.n → ∀ e ∈ g.adj u, e.cost ≤ B) (hB0 : 0 ≤ B)
    (hINF : 2 * ((g.n : Int) - 1) * B < INF)
    (ha : a < g.n) (h1 : DK g k a b v) (h2 : DK g k a b w) :
    v = w := by
  refine le_antisymm ?_ ?_
  · rcases h2.2 with ⟨es, hw, hb, hc⟩ | ⟨hv, _⟩
    · rw [← hc]
      exact h1.1 es hw hb
    · rw [hv]
      exact dk_le_INF hwf hnn hcb hB0 hINF ha h1
  · rcases h1.2 with ⟨es, hw, hb, hc⟩ | ⟨hv, _⟩
    · rw [← hc]
      exact h2.1 es hw hb
    · rw [hv]
      exact dk_le_INF hwf hnn hcb hB0 hINF ha h2

theorem dk_diag_zero {g : Dag} {a : Nat} (hwf : Wf g) (hnn : Nonneg g)
    (ha : a < g.n) (k : Nat) : DK g k a a 0 := by
  constructor
  · intro es hw _
    exact walkCost_nonneg hwf hnn ha hw
  · exact Or.inl ⟨[], isWalk_nil, below_nil k, rfl⟩

end Dag

namespace Dag

/-- The Floyd-Warshall recurrence on the walk-minimum characterization:
admitting vertex `k` as an intermediate turns the minimum into the
`chmin` of the old value against the (saturating) sum through `k`. -/
theorem dk_step {g : Dag} {k i j : Nat} {d0 d1 d2 B : Int}
    (hwf : Wf g) (hnn : Nonneg g)
    (hcb : ∀ u, u < g.n → ∀ e ∈ g.adj u, e.cost ≤ B) (hB0 : 0 ≤ B)
    (hINF : 2 * ((g.n : Int) - 1) * B < INF)
    (hk : k < g.n) (hi : i < g.n)
    (h1 : DK g k i k d1) (h2 : DK g k k j d2) (h0 : DK g k i j d0) :
    DK g (k + 1) i j (min d0 (satAdd d1 d2)) := by
  have hd1n : 0 ≤ d1 := dk_nonneg hwf hnn hi h1
  have hd2n : 0 ≤ d2 := dk_nonneg hwf hnn hk h2
  have hd0I : d0 ≤ INF := dk_le_INF hwf hnn hcb hB0 hINF hi h0
  have hNI : NEG_INF ≤ (0 : Int) := by decide
  constructor
  · intro es hw hb
    rcases walk_split hwf hnn es.length es i j le_rfl hi hw hb with
      hbk | ⟨es1, es2, q1, q2, q3, q4, q5⟩
    · exact le_trans (min_le_left _ _) (h0.1 es hw hbk)
    · have ha1 : d1 ≤ walkCost es1 := h1.1 es1 q1 q3
      have ha2 : d2 ≤ walkCost es2 := h2.1 es2 q2 q4
      have hs : satAdd d1 d2 ≤ d1 + d2 := satAdd_le_sum (by linarith)
      refine le_trans (min_le_right _ _) ?_
      linarith
  · by_cases hI : d1 = INF ∨ d2 = INF
    · have hsI : satAdd d1 d2 = INF := by
        rcases hI with h | h
        · rw [h]
          exact satAdd_inf_left hd2n
        · rw [h]
          exact satAdd_inf_right hd1n
      rw [hsI, min_eq_left hd0I]
      rcases h0.2 with ⟨es, hwk, hbk, hc⟩ | ⟨hv, hnw⟩
      · exact Or.inl ⟨es, hwk, below_mono (Nat.le_succ k) hbk, hc⟩
      · refine Or.inr ⟨hv, ?_⟩
        intro es hwk hbk
        rcases walk_split hwf hnn es.length es i j le_rfl hi hwk hbk with
          hbk2 | ⟨es1, es2, q1, q2, q3, q4, _⟩
        · exact hnw es hwk hbk2
        · rcases hI with h | h
          · rcases h1.2 with ⟨es', hw', hb', _⟩ | ⟨_, hnw1⟩
            · exact absurd h (ne_of_lt
                (dk_lt_INF hwf hnn hcb hB0 hINF hi h1 ⟨es', hw', hb'⟩))
            · exact hnw1 es1 q1 q3
          · rcases h2.2 with ⟨es', hw', hb', _⟩ | ⟨_, hnw2⟩
            · exact absurd h (ne_of_lt
                (dk_lt_INF hwf hnn hcb hB0 hINF hk h2 ⟨es', hw', hb'⟩))
            · exact hnw2 es2 q2 q4
    · push_neg at hI
      obtain ⟨hI1, hI2⟩ := hI
      have hach1 : ∃ es, IsWalk g i k es ∧ Below k es ∧ walkCost es = d1 := by
        rcases h1.2 with hach | ⟨hv, _⟩
        · exact hach
        · exact absurd hv hI1
      have hach2 : ∃ es, IsWalk g k j es ∧ Below k es ∧ walkCost es = d2 := by
        rcases h2.2 with hach | ⟨hv, _⟩
        · exact hach
        · exact absurd hv hI2
      obtain ⟨es1, hw1, hb1, hc1⟩ := hach1
      obtain ⟨es2, hw2, hb2, hc2⟩ := hach2
      have hub1 : d1 ≤ ((g.n : Int) - 1) * B :=
        dk_le_bound hwf hnn hcb hB0 hi h1 ⟨es1, hw1, hb1⟩
      have hub2 : d2 ≤ ((g.n : Int) - 1) * B :=
        dk_le_bound hwf hnn hcb hB0 hk h2 ⟨es2, hw2, hb2⟩
      have hring : 2 * ((g.n : Int) - 1) * B =
          ((g.n : Int) - 1) * B + ((g.n : Int) - 1) * B := by ring
      have hsum : d1 + d2 < INF := by linarith
      have hexact : satAdd d1 d2 = d1 + d2 :=
        satAdd_exact (by linarith) (le_of_lt hsum)
      rcases le_or_lt d0 (d1 + d2) with hle | hlt
      · rw [hexact, min_eq_left hle]
        rcases h0.2 with ⟨es, hwk, hbk, hc⟩ | ⟨hv, _⟩
        · exact Or.inl ⟨es, hwk, below_mono (Nat.le_succ k) hbk, hc⟩
        · exfalso
          rw [hv] at hle
          linarith
      · rw [hexact, min_eq_right (le_of_lt hlt)]
        refine Or.inl ⟨es1 ++ es2, isWalk_append.mpr ⟨k, hw1, hw2⟩,
          below_append_at hw1 hb1 hb2, ?_⟩
        rw [walkCost_append, hc1, hc2]

end Dag

namespace Dag

theorem below_zero {es : List Edge} (h : Below 0 es) :
    es = [] ∨ ∃ e, es = [e] := by
  cases es with
  | nil => exact Or.inl rfl
  | cons e es' =>
    cases es' with
    | nil => exact Or.inr ⟨e, rfl⟩
    | cons f fs =>
      exfalso
      have hmem : e ∈ (e :: f :: fs).dropLast := by
        show e ∈ e :: (f :: fs).dropLast
        exact List.mem_cons_self _ _
      exact Nat.not_lt_zero _ (h e hmem)

/-- All initialized entries are representable `i64` values. -/
theorem fwInitF_bounds {g : Dag} (hwf : Wf g) (hnn : Nonneg g)
    (hcI : ∀ v, v < g.n → ∀ e ∈ g.adj v, e.cost ≤ INF) :
    ∀ a b, NEG_INF ≤ fwInitF g a b ∧ fwInitF g a b ≤ INF := by
  intro a b
  have hNI : NEG_INF ≤ (0 : Int) := by decide
  have hII : (0 : Int) ≤ INF := by decide
  by_cases ha : a < g.n
  · rw [fwInitF_char hwf a b ha]
    cases hfl : ((g.adj a).filter (fun e => e.to_ == b)).getLast? with
    | none =>
      show NEG_INF ≤ (if a = b then 0 else INF) ∧ (if a = b then 0 else INF) ≤ INF
      by_cases hab : a = b
      · rw [if_pos hab]
        exact ⟨hNI, hII⟩
      · rw [if_neg hab]
        exact ⟨by decide, le_refl _⟩
    | some e0 =>
      have hmem : e0 ∈ g.adj a :=
        (List.mem_filter.mp (List.mem_of_getLast?_eq_some hfl)).1
      show NEG_INF ≤ e0.cost ∧ e0.cost ≤ INF
      exact ⟨le_trans hNI (hnn a ha e0 hmem), hcI a ha e0 hmem⟩
  · rw [fwInitF_out hwf a b ha]
    by_cases hab : a = b
    · rw [if_pos hab]
      exact ⟨hNI, hII⟩
    · rw [if_neg hab]
      exact ⟨by decide, le_refl _⟩

/-- On a graph with no self-loops and no parallel edges the initialized
entry is the walk-minimum with no intermediate vertices allowed. -/
theorem dk_init {g : Dag} (hwf : Wf g) (hnn : Nonneg g)
    (hnsl : ∀ v, v < g.n → ∀ e ∈ g.adj v, e.to_ ≠ v)
    (hnp : ∀ v, v < g.n → ((g.adj v).map Edge.to_).Nodup)
    {a b : Nat} (ha : a < g.n) (hb : b < g.n) :
    DK g 0 a b (fwInitF g a b) := by
  rw [fwInitF_char hwf a b ha]
  cases hfl : ((g.adj a).filter (fun e => e.to_ == b)).getLast? with
  | none =>
    have hemp : (g.adj a).filter (fun e => e.to_ == b) = [] :=
      List.getLast?_eq_none_iff.mp hfl
    have hnowalk1 : ∀ (e : Edge), e ∈ g.adj a → e.to_ = b → False := by
      intro e he heb
      have hef : e ∈ (g.adj a).filter (fun e => e.to_ == b) :=
        List.mem_filter.mpr ⟨he, beq_iff_eq.mpr heb⟩
      rw [hemp] at hef
      exact List.not_mem_nil e hef
    by_cases hab : a = b
    · subst hab
      show DK g 0 a a (if a = a then 0 else INF)
      rw [if_pos rfl]
      exact dk_diag_zero hwf hnn ha 0
    · show DK g 0 a b (if a = b then 0 else INF)
      rw [if_neg hab]
      have hnowalk : ∀ es, IsWalk g a b es → ¬ Below 0 es := by
        intro es hw hbel
        rcases below_zero hbel with rfl | ⟨e, rfl⟩
        · exact hab hw
        · exact hnowalk1 e hw.1 hw.2
      constructor
      · intro es hw hbel
        exact absurd hbel (hnowalk es hw)
      · exact Or.inr ⟨rfl, hnowalk⟩
  | some e0 =>
    have hmemf := List.mem_of_getLast?_eq_some hfl
    have he0a : e0 ∈ g.adj a := (List.mem_filter.mp hmemf).1
    have he0b : e0.to_ = b := beq_iff_eq.mp (List.mem_filter.mp hmemf).2
    by_cases hab : a = b
    · exact absurd (he0b.trans hab.symm) (hnsl a ha e0 he0a)
    · show DK g 0 a b e0.cost
      constructor
      · intro es hw hbel
        rcases below_zero hbel with rfl | ⟨e, rfl⟩
        · exact absurd hw hab
        · obtain ⟨hea, heb⟩ := hw
          have heb' : e.to_ = b := heb
          have heq : e = e0 :=
            List.inj_on_of_nodup_map (hnp a ha) hea he0a
              (heb'.trans he0b.symm)
          rw [walkCost_cons, walkCost_nil, heq]
          omega
      · refine Or.inl ⟨[e0], ⟨he0a, ?_⟩, below_single 0 e0, ?_⟩
        · exact he0b
        · rw [walkCost_cons, walkCost_nil]
          omega

end Dag

namespace Dag

/-- The outer loop: after rounds `0..K`, every in-range entry is the
`Below K` walk-minimum, and all entries remain representable. -/
theorem fwLoopF_dk {g : Dag} {B : Int}
    (hwf : Wf g) (hnn : Nonneg g)
    (hcb : ∀ u, u < g.n → ∀ e ∈ g.adj u, e.cost ≤ B) (hB0 : 0 ≤ B)
    (hINF : 2 * ((g.n : Int) - 1) * B < INF)
    (f0 : Nat → Nat → Int)
    (hR0 : ∀ a b, NEG_INF ≤ f0 a b ∧ f0 a b ≤ INF)
    (hDK0 : ∀ a b, a < g.n → b < g.n → DK g 0 a b (f0 a b)) :
    ∀ K, K ≤ g.n →
      (∀ a b,
        NEG_INF ≤ ((List.range K).foldl (fun f k => relaxIF k g.n f) f0) a b ∧
        ((List.range K).foldl (fun f k => relaxIF k g.n f) f0) a b ≤ INF) ∧
      (∀ a b, a < g.n → b < g.n →
        DK g K a b (((List.range K).foldl (fun f k => relaxIF k g.n f) f0) a b)) := by
  intro K
  induction K with
  | zero =>
    intro _
    exact ⟨hR0, hDK0⟩
  | succ K ih =>
    intro hK1
    have hK : K < g.n := hK1
    obtain ⟨ihR, ihDK⟩ := ih (le_of_lt hK)
    have hA : ((List.range K).foldl (fun f k => relaxIF k g.n f) f0) K K = 0 :=
      dk_unique hwf hnn hcb hB0 hINF hK (ihDK K K hK hK)
        (dk_diag_zero hwf hnn hK K)
    rw [List.range_succ, List.foldl_append, List.foldl_cons, List.foldl_nil,
      relaxIF_eq K g.n _ hA ihR]
    constructor
    · intro a b
      by_cases hc : a < g.n ∧ b < g.n
      · simp only [if_pos hc]
        exact ⟨le_min (ihR a b).1 (satAdd_lb _ _),
          le_trans (min_le_left _ _) (ihR a b).2⟩
      · simp only [if_neg hc]
        exact ihR a b
    · intro a b ha hb
      simp only [if_pos (⟨ha, hb⟩ : a < g.n ∧ b < g.n)]
      exact dk_step hwf hnn hcb hB0 hINF hK ha
        (ihDK a K ha hK) (ihDK K b hK hb) (ihDK a b ha hb)

/-- The functional Floyd-Warshall result is the unrestricted
walk-minimum between every in-range pair. -/
theorem floyd_warshallF_dk {g : Dag} {B : Int}
    (hwf : Wf g) (hnn : Nonneg g)
    (hcb : ∀ u, u < g.n → ∀ e ∈ g.adj u, e.cost ≤ B) (hB0 : 0 ≤ B)
    (hINF : 2 * ((g.n : Int) - 1) * B < INF)
    (hnsl : ∀ v, v < g.n → ∀ e ∈ g.adj v, e.to_ ≠ v)
    (hnp : ∀ v, v < g.n → ((g.adj v).map Edge.to_).Nodup)
    {u v : Nat} (hu : u < g.n) (hv : v < g.n) :
    DK g g.n u v (floyd_warshallF g u v) := by
  have hcI : ∀ w, w < g.n → ∀ e ∈ g.adj w, e.cost ≤ INF := by
    intro w hw e he
    have hton : e.to_ < g.n := (hwf w hw e he).2
    have htnw : e.to_ ≠ w := hnsl w hw e he
    have hn2 : 2 ≤ g.n := by omega
    have hn2' : (1 : Int) ≤ (g.n : Int) - 1 := by
      have : (2 : Int) ≤ (g.n : Int) := by exact_mod_cast hn2
      linarith
    have hBb : B ≤ ((g.n : Int) - 1) * B := by
      nlinarith
    have h2 : ((g.n : Int) - 1) * B ≤ 2 * ((g.n : Int) - 1) * B := by
      nlinarith
    have := hcb w hw e he
    linarith
  exact (fwLoopF_dk hwf hnn hcb hB0 hINF (fwInitF g)
    (fwInitF_bounds hwf hnn hcI)
    (fun a b ha hb => dk_init hwf hnn hnsl hnp ha hb)
    g.n (le_refl g.n)).2 u v hu hv

end Dag

namespace Dag

instance nonnegDecidable (g : Dag) : Decidable (Nonneg g) := by
  unfold Nonneg
  infer_instance

/-- C1 (amended): on a well-formed graph with non-negative edge costs
bounded by `B` with `2(n-1)B < i64::MAX`, no self-loops, and no
parallel edges, `floyd_warshall` returns a full `n × n` matrix whose
entry `[u][v]` is the minimum cost of a directed walk `u → v`, and is
the `INF` sentinel exactly when no such walk exists.  The original
claim's allowance of negative edge costs is refuted separately: with a
negative edge, `saturating_add` contaminates the `INF` sentinel of
unreachable pairs. -/
theorem floyd_warshall_correct (g : Dag) (B : Int)
    (hwf : Wf g) (hnn : Nonneg g)
    (hcb : ∀ u, u < g.n → ∀ e ∈ g.adj u, e.cost ≤ B) (hB0 : 0 ≤ B)
    (hINF : 2 * ((g.n : Int) - 1) * B < INF)
    (hnsl : ∀ v, v < g.n → ∀ e ∈ g.adj v, e.to_ ≠ v)
    (hnp : ∀ v, v < g.n → ((g.adj v).map Edge.to_).Nodup) :
    (floyd_warshall g).length = g.n ∧
    (∀ row ∈ floyd_warshall g, row.length = g.n) ∧
    ∀ u v, u < g.n → v < g.n →
      ((∃ es, IsWalk g u v es ∧ walkCost es = mget (floyd_warshall g) u v ∧
          ∀ es2, IsWalk g u v es2 → walkCost es ≤ walkCost es2) ∨
       (mget (floyd_warshall g) u v = INF ∧ ∀ es, ¬ IsWalk g u v es)) := by
  obtain ⟨hlen, hrow, hval⟩ := matR_floyd hwf
  refine ⟨hlen, hrow, ?_⟩
  intro u v hu hv
  have hdk := floyd_warshallF_dk hwf hnn hcb hB0 hINF hnsl hnp hu hv
  rw [hval u v hu hv]
  have hbel : ∀ es, IsWalk g u v es → Below g.n es := by
    intro es hw e he
    have hmem : e ∈ es := (List.dropLast_sublist es).subset he
    exact ((isWalk_bounds hwf hu hw).2 e hmem).2.1
  rcases hdk.2 with ⟨es, hw, _, hc⟩ | ⟨hv', hnw⟩
  · refine Or.inl ⟨es, hw, hc, ?_⟩
    intro es2 hw2
    rw [hc]
    exact hdk.1 es2 hw2 (hbel es2 hw2)
  · exact Or.inr ⟨hv', fun es hw => hnw es hw (hbel es hw)⟩

/-- C1 counterexample to the original claim: with a single negative
edge `1 → 2` of cost `-3` on three vertices, the pair `(0, 2)` has no
directed path at all, yet the returned entry is `INF - 3`: neither a
path cost nor the `INF` "unreachable" sentinel, because
`INF.saturating_add(-3)` contaminates the sentinel during
relaxation. -/
theorem floyd_warshall_negative_breaks_sentinel :
    (∀ es, ¬ IsWalk ((Dag.new 3).add_edge 1 2 (-3)) 0 2 es) ∧
    mget (floyd_warshall ((Dag.new 3).add_edge 1 2 (-3))) 0 2 = INF - 3 ∧
    INF - 3 ≠ INF := by
  refine ⟨?_, by decide, by decide⟩
  intro es h
  cases es with
  | nil => exact (by decide : ¬ (0 = 2)) h
  | cons e es' =>
    obtain ⟨h1, _⟩ := h
    have hadj : ((Dag.new 3).add_edge 1 2 (-3)).adj 0 = [] := rfl
    rw [hadj] at h1
    exact List.not_mem_nil e h1

/-- The graph of the Rust `floyd_warshall` test. -/
def fwTest : Dag :=
  (((((Dag.new 4).add_edge 0 1 5).add_edge 0 2 2).add_edge 1 3 4).add_edge
    2 1 2).add_edge 2 3 3

theorem floyd_warshall_correct_witness :
    Wf fwTest ∧ Nonneg fwTest ∧
    (∀ u, u < fwTest.n → ∀ e ∈ fwTest.adj u, e.cost ≤ 5) ∧
    ((floyd_warshall fwTest).length = fwTest.n ∧
     (∀ row ∈ floyd_warshall fwTest, row.length = fwTest.n) ∧
     ∀ u v, u < fwTest.n → v < fwTest.n →
      ((∃ es, IsWalk fwTest u v es ∧
          walkCost es = mget (floyd_warshall fwTest) u v ∧
          ∀ es2, IsWalk fwTest u v es2 → walkCost es ≤ walkCost es2) ∨
       (mget (floyd_warshall fwTest) u v = INF ∧
        ∀ es, ¬ IsWalk fwTest u v es))) :=
  ⟨by decide, by decide, by decide,
    floyd_warshall_correct fwTest 5
      (by decide) (by decide) (by decide) (by decide) (by decide)
      (by decide) (by decide)⟩

end Dag

namespace Dag

theorem satAdd_inf_of_big {a b : Int} (h : INF ≤ a + b) : satAdd a b = INF := by
  unfold satAdd
  rw [min_eq_right h, max_eq_right (by decide)]

/-- The inner relaxation loop never increases an entry. -/
theorem relaxJF_le (k i : Nat) :
    ∀ (l : List Nat) (f : Nat → Nat → Int) (a b : Nat),
      (l.foldl (fun f j => if satAdd (f i k) (f k j) < f i j
        then msetF f i j (satAdd (f i k) (f k j)) else f) f) a b ≤ f a b := by
  intro l
  induction l with
  | nil => intro f a b; exact le_refl _
  | cons j l ih =>
    intro f a b
    rw [List.foldl_cons]
    refine le_trans (ih _ a b) ?_
    by_cases hlt : satAdd (f i k) (f k j) < f i j
    · rw [if_pos hlt]
      show (if a = i ∧ b = j then satAdd (f i k) (f k j) else f a b) ≤ f a b
      by_cases hc : a = i ∧ b = j
      · rw [if_pos hc, hc.1, hc.2]
        exact le_of_lt hlt
      · rw [if_neg hc]
    · rw [if_neg hlt]

/-- One relaxation round never increases an entry. -/
theorem relaxIF_le (k n : Nat) :
    ∀ (l : List Nat) (f : Nat → Nat → Int) (a b : Nat),
      (l.foldl (fun f i => relaxJF k i n f) f) a b ≤ f a b := by
  intro l
  induction l with
  | nil => intro f a b; exact le_refl _
  | cons i l ih =>
    intro f a b
    rw [List.foldl_cons]
    refine le_trans (ih _ a b) ?_
    exact relaxJF_le k i (List.range n) f a b

/-- The whole relaxation phase never increases an entry. -/
theorem fwLoopF_le (n : Nat) :
    ∀ (l : List Nat) (f : Nat → Nat → Int) (a b : Nat),
      (l.foldl (fun f k => relaxIF k n f) f) a b ≤ f a b := by
  intro l
  induction l with
  | nil => intro f a b; exact le_refl _
  | cons k l ih =>
    intro f a b
    rw [List.foldl_cons]
    refine le_trans (ih _ a b) ?_
    exact relaxIF_le k n (List.range n) f a b

/-- Invariant for the self-loop analysis: all in-range entries are in
`[0, INF]` and each is `INF` or the cost of an actual walk, the
`(v, v)` entry of a nonempty one. -/
def C10Inv (g : Dag) (v : Nat) (f : Nat → Nat → Int) : Prop :=
  ∀ a b, a < g.n → b < g.n →
    (0 ≤ f a b ∧ f a b ≤ INF) ∧
    (f a b = INF ∨ ∃ es, IsWalk g a b es ∧ walkCost es = f a b ∧
      (a = v → b = v → es ≠ []))

theorem msetF_same (f : Nat → Nat → Int) (i j : Nat) (v : Int) :
    msetF f i j v i j = v := by
  show (if i = i ∧ j = j then v else f i j) = v
  rw [if_pos ⟨rfl, rfl⟩]

theorem msetF_ne {f : Nat → Nat → Int} {i j a b : Nat} {v : Int}
    (h : ¬ (a = i ∧ b = j)) : msetF f i j v a b = f a b := by
  show (if a = i ∧ b = j then v else f a b) = f a b
  rw [if_neg h]

theorem c10Inv_step {g : Dag} {vv : Nat} {f : Nat → Nat → Int}
    (hInv : C10Inv g vv f) (k i j : Nat)
    (hk : k < g.n) (hi : i < g.n) (hj : j < g.n) :
    C10Inv g vv (if satAdd (f i k) (f k j) < f i j
      then msetF f i j (satAdd (f i k) (f k j)) else f) := by
  by_cases hlt : satAdd (f i k) (f k j) < f i j
  · rw [if_pos hlt]
    intro a b ha hb
    show (0 ≤ (if a = i ∧ b = j then satAdd (f i k) (f k j) else f a b) ∧
        (if a = i ∧ b = j then satAdd (f i k) (f k j) else f a b) ≤ INF) ∧ _
    by_cases hc : a = i ∧ b = j
    · obtain ⟨rfl, rfl⟩ := hc
      rw [if_pos ⟨rfl, rfl⟩, msetF_same]
      obtain ⟨⟨hik0, hikI⟩, hik⟩ := hInv a k ha hk
      obtain ⟨⟨hkj0, hkjI⟩, hkj⟩ := hInv k b hk hb
      obtain ⟨⟨hij0, hijI⟩, _⟩ := hInv a b ha hb
      refine ⟨⟨satAdd_nonneg hik0 hkj0, satAdd_ub _ _⟩, ?_⟩
      rcases hik with hI1 | ⟨es1, hw1, hc1, _⟩
      · exfalso
        rw [hI1, satAdd_inf_left hkj0] at hlt
        exact absurd hlt (not_lt.mpr hijI)
      · rcases hkj with hI2 | ⟨es2, hw2, hc2, _⟩
        · exfalso
          rw [hI2, satAdd_inf_right hik0] at hlt
          exact absurd hlt (not_lt.mpr hijI)
        · by_cases hbig : f a k + f k b ≤ INF
          · have hex : satAdd (f a k) (f k b) = f a k + f k b :=
              satAdd_exact (le_trans (by decide : NEG_INF ≤ (0 : Int))
                (add_nonneg hik0 hkj0)) hbig
            refine Or.inr ⟨es1 ++ es2, isWalk_append.mpr ⟨k, hw1, hw2⟩, ?_, ?_⟩
            · rw [walkCost_append, hc1, hc2, hex]
            · intro _ _ hnil
              rcases List.append_eq_nil.mp hnil with ⟨rfl, rfl⟩
              have hik' : a = k := hw1
              have hkj' : k = b := hw2
              have h1 : f a k = 0 := by rw [← hc1]; rfl
              have h2 : f k b = 0 := by rw [← hc2]; rfl
              rw [hex, h1, h2] at hlt
              rw [← hkj'] at hlt
              rw [h1] at hlt
              exact absurd hlt (by decide)
          · exfalso
            rw [satAdd_inf_of_big (le_of_lt (lt_of_not_le hbig))] at hlt
            exact absurd hlt (not_lt.mpr hijI)
    · rw [if_neg hc, msetF_ne hc]
      exact hInv a b ha hb
  · rw [if_neg hlt]
    exact hInv

theorem c10Inv_relaxJF {g : Dag} {vv : Nat} (k i : Nat)
    (hk : k < g.n) (hi : i < g.n) :
    ∀ (l : List Nat), (∀ j ∈ l, j < g.n) →
      ∀ f, C10Inv g vv f →
      C10Inv g vv (l.foldl (fun f j => if satAdd (f i k) (f k j) < f i j
        then msetF f i j (satAdd (f i k) (f k j)) else f) f) := by
  intro l
  induction l with
  | nil => intro _ f h; exact h
  | cons j l ih =>
    intro hmem f h
    rw [List.foldl_cons]
    refine ih (fun j2 hj2 => hmem j2 (List.mem_cons_of_mem j hj2)) _ ?_
    exact c10Inv_step h k i j hk hi (hmem j (List.mem_cons_self j l))

theorem c10Inv_relaxIF {g : Dag} {vv : Nat} (k : Nat) (hk : k < g.n) :
    ∀ (l : List Nat), (∀ i ∈ l, i < g.n) →
      ∀ f, C10Inv g vv f →
      C10Inv g vv (l.foldl (fun f i => relaxJF k i g.n f) f) := by
  intro l
  induction l with
  | nil => intro _ f h; exact h
  | cons i l ih =>
    intro hmem f h
    rw [List.foldl_cons]
    refine ih (fun i2 hi2 => hmem i2 (List.mem_cons_of_mem i hi2)) _ ?_
    exact c10Inv_relaxJF k i hk (hmem i (List.mem_cons_self i l))
      (List.range g.n) (fun j hj => List.mem_range.mp hj) f h

theorem c10Inv_fwLoopF {g : Dag} {vv : Nat} :
    ∀ (l : List Nat), (∀ k ∈ l, k < g.n) →
      ∀ f, C10Inv g vv f →
      C10Inv g vv (l.foldl (fun f k => relaxIF k g.n f) f) := by
  intro l
  induction l with
  | nil => intro _ f h; exact h
  | cons k l ih =>
    intro hmem f h
    rw [List.foldl_cons]
    refine ih (fun k2 hk2 => hmem k2 (List.mem_cons_of_mem k hk2)) _ ?_
    exact c10Inv_relaxIF k (hmem k (List.mem_cons_self k l))
      (List.range g.n) (fun i hi => List.mem_range.mp hi) f h

end Dag

namespace Dag

/-- The initialization establishes the self-loop invariant: every entry
is `INF` or an achieved walk cost, and the `(v, v)` entry (overwritten
by the self-loop) is achieved by a nonempty walk. -/
theorem c10Inv_init {g : Dag} {v : Nat} {c : Int}
    (hwf : Wf g) (hnn : Nonneg g)
    (hcI : ∀ w, w < g.n → ∀ e ∈ g.adj w, e.cost ≤ INF)
    (hc10 : ((g.adj v).filter (fun e => e.to_ == v)).getLast? = some ⟨v, v, c⟩) :
    C10Inv g v (fwInitF g) := by
  intro a b ha hb
  rw [fwInitF_char hwf a b ha]
  cases hfl : ((g.adj a).filter (fun e => e.to_ == b)).getLast? with
  | none =>
    by_cases hab : a = b
    · show (0 ≤ (if a = b then 0 else INF) ∧ (if a = b then 0 else INF) ≤ INF) ∧
        ((if a = b then (0 : Int) else INF) = INF ∨
         ∃ es, IsWalk g a b es ∧ walkCost es = (if a = b then (0 : Int) else INF) ∧
           (a = v → b = v → es ≠ []))
      rw [if_pos hab]
      refine ⟨⟨le_refl 0, by decide⟩, Or.inr ⟨[], hab, rfl, ?_⟩⟩
      intro hav hbv
      exfalso
      rw [hav, hbv, hc10] at hfl
      exact Option.noConfusion hfl
    · show (0 ≤ (if a = b then 0 else INF) ∧ (if a = b then 0 else INF) ≤ INF) ∧
        ((if a = b then (0 : Int) else INF) = INF ∨
         ∃ es, IsWalk g a b es ∧ walkCost es = (if a = b then (0 : Int) else INF) ∧
           (a = v → b = v → es ≠ []))
      rw [if_neg hab]
      exact ⟨⟨by decide, le_refl INF⟩, Or.inl rfl⟩
  | some e0 =>
    have hmemf := List.mem_of_getLast?_eq_some hfl
    have he0a : e0 ∈ g.adj a := (List.mem_filter.mp hmemf).1
    have he0b : e0.to_ = b := beq_iff_eq.mp (List.mem_filter.mp hmemf).2
    show (0 ≤ e0.cost ∧ e0.cost ≤ INF) ∧
      (e0.cost = INF ∨ ∃ es, IsWalk g a b es ∧ walkCost es = e0.cost ∧
        (a = v → b = v → es ≠ []))
    refine ⟨⟨hnn a ha e0 he0a, hcI a ha e0 he0a⟩,
      Or.inr ⟨[e0], ⟨he0a, he0b⟩, ?_, fun _ _ => List.cons_ne_nil e0 []⟩⟩
    rw [walkCost_cons, walkCost_nil]
    omega

theorem fwInitF_diag_self_loop {g : Dag} {v : Nat} {c : Int}
    (hwf : Wf g) (hv : v < g.n)
    (hc10 : ((g.adj v).filter (fun e => e.to_ == v)).getLast? = some ⟨v, v, c⟩) :
    fwInitF g v v = c := by
  rw [fwInitF_char hwf v v hv, hc10]

/-- C10 (amended): on a well-formed graph with non-negative
representable edge costs whose last `v → v` self-loop write carries
cost `c > 0`, if every nonempty closed walk at `v` costs at least `c`,
then `floyd_warshall` returns `dist[v][v] = c` rather than `0`: the
per-edge initialization overwrites the diagonal zero and relaxation
cannot restore it, since the empty path is no longer represented.  The
original unconditional claim (no non-negativity requirement) is refuted
separately via saturating-add contamination. -/
theorem floyd_warshall_self_loop (g : Dag) (v : Nat) (c : Int)
    (hwf : Wf g) (hnn : Nonneg g)
    (hcI : ∀ w, w < g.n → ∀ e ∈ g.adj w, e.cost ≤ INF)
    (hv : v < g.n)
    (hc10 : ((g.adj v).filter (fun e => e.to_ == v)).getLast? = some ⟨v, v, c⟩)
    (hcpos : 0 < c)
    (hcyc : ∀ es, IsWalk g v v es → es ≠ [] → c ≤ walkCost es) :
    mget (floyd_warshall g) v v = c ∧ c ≠ 0 := by
  have hval := (matR_floyd hwf).2.2 v v hv hv
  rw [hval]
  refine ⟨?_, by omega⟩
  have hub : floyd_warshallF g v v ≤ c := by
    have h1 : floyd_warshallF g v v ≤ fwInitF g v v :=
      fwLoopF_le g.n (List.range g.n) (fwInitF g) v v
    rw [fwInitF_diag_self_loop hwf hv hc10] at h1
    exact h1
  have hinv : C10Inv g v (floyd_warshallF g) :=
    c10Inv_fwLoopF (List.range g.n) (fun k hk => List.mem_range.mp hk)
      (fwInitF g) (c10Inv_init hwf hnn hcI hc10)
  obtain ⟨⟨_, _⟩, hach⟩ := hinv v v hv hv
  have hlb : c ≤ floyd_warshallF g v v := by
    rcases hach with hI | ⟨es, hw, hcost, hne⟩
    · rw [hI]
      have hmem : (⟨v, v, c⟩ : Edge) ∈ g.adj v :=
        (List.mem_filter.mp (List.mem_of_getLast?_eq_some hc10)).1
      exact hcI v hv _ hmem
    · rw [← hcost]
      exact hcyc es hw (hne rfl rfl)
  exact le_antisymm hub hlb

end Dag

namespace Dag

/-- Three vertices, a positive self-loop at `0` and two hugely negative
edges `0 → 1 → 2` that never return to `0`. -/
def selfLoopSat : Dag :=
  (((Dag.new 3).add_edge 0 0 5).add_edge 0 1 (-(2 ^ 62))).add_edge
    1 2 (-(2 ^ 62) - 1)

theorem selfLoopSat_no20 : ∀ es, ¬ IsWalk selfLoopSat 2 0 es := by
  intro es h
  cases es with
  | nil => exact (by decide : ¬ (2 = 0)) h
  | cons e es' =>
    obtain ⟨h1, _⟩ := h
    have hadj : selfLoopSat.adj 2 = [] := rfl
    rw [hadj] at h1
    exact List.not_mem_nil e h1

theorem selfLoopSat_no10 : ∀ es, ¬ IsWalk selfLoopSat 1 0 es := by
  intro es h
  cases es with
  | nil => exact (by decide : ¬ (1 = 0)) h
  | cons e es' =>
    obtain ⟨h1, h2⟩ := h
    have hadj : selfLoopSat.adj 1 = [⟨1, 2, -(2 ^ 62) - 1⟩] := rfl
    rw [hadj] at h1
    rw [List.mem_singleton.mp h1] at h2
    exact selfLoopSat_no20 es' h2

theorem selfLoopSat_cycle :
    ∀ (L : Nat) (es : List Edge), es.length ≤ L →
      IsWalk selfLoopSat 0 0 es →
      0 ≤ walkCost es ∧ (es ≠ [] → 5 ≤ walkCost es) := by
  intro L
  induction L with
  | zero =>
    intro es hlen _
    have : es = [] := List.length_eq_zero.mp (by omega)
    subst this
    exact ⟨le_refl 0, fun hne => absurd rfl hne⟩
  | succ L ih =>
    intro es hlen h
    cases es with
    | nil => exact ⟨le_refl 0, fun hne => absurd rfl hne⟩
    | cons e es' =>
      obtain ⟨h1, h2⟩ := h
      have hadj : selfLoopSat.adj 0 = [⟨0, 0, 5⟩, ⟨0, 1, -(2 ^ 62)⟩] := rfl
      rw [hadj] at h1
      rcases List.mem_cons.mp h1 with rfl | h1'
      · have hrec := ih es' (by rw [List.length_cons] at hlen; omega) h2
        have h0 := hrec.1
        constructor
        · rw [walkCost_cons, show (⟨0, 0, 5⟩ : Edge).cost = 5 from rfl]
          omega
        · intro _
          rw [walkCost_cons, show (⟨0, 0, 5⟩ : Edge).cost = 5 from rfl]
          omega
      · exfalso
        rw [List.mem_singleton.mp h1'] at h2
        exact selfLoopSat_no10 es' h2

/-- C10 counterexample to the original claim: on `selfLoopSat` the
self-loop `add_edge(0, 0, 5)` has `c = 5 > 0` and every nonempty
directed cycle through `0` costs at least `5`, yet the returned
diagonal entry is `-1`, because `saturating_add` on the two huge
negative costs clamps `dist[0][2]` to `i64::MIN` and the final round
computes `i64::MIN.saturating_add(INF) = -1 < 5`.  The claim needs the
costs to be non-negative. -/
theorem floyd_warshall_self_loop_saturation :
    (⟨0, 0, 5⟩ : Edge) ∈ selfLoopSat.adj 0 ∧ (0 : Int) < 5 ∧
    (∀ es, IsWalk selfLoopSat 0 0 es → es ≠ [] → 5 ≤ walkCost es) ∧
    mget (floyd_warshall selfLoopSat) 0 0 = -1 ∧
    (-1 : Int) ≠ 5 ∧ (-1 : Int) ≠ 0 := by
  refine ⟨by decide, by decide, ?_, by decide, by decide, by decide⟩
  intro es h hne
  exact (selfLoopSat_cycle es.length es (le_refl _) h).2 hne

/-- One vertex with the single self-loop `add_edge(0, 0, 5)`. -/
def selfLoopUnit : Dag := (Dag.new 1).add_edge 0 0 5

theorem selfLoopUnit_cycle :
    ∀ es, IsWalk selfLoopUnit 0 0 es → es ≠ [] → 5 ≤ walkCost es := by
  intro es h hne
  cases es with
  | nil => exact absurd rfl hne
  | cons e es' =>
    obtain ⟨h1, h2⟩ := h
    have hadj : selfLoopUnit.adj 0 = [⟨0, 0, 5⟩] := rfl
    rw [hadj] at h1
    have he : e = ⟨0, 0, 5⟩ := List.mem_singleton.mp h1
    subst he
    rw [walkCost_cons, show (⟨0, 0, 5⟩ : Edge).cost = 5 from rfl]
    have h2' : IsWalk selfLoopUnit 0 0 es' := h2
    have h0 : 0 ≤ walkCost es' :=
      @walkCost_nonneg selfLoopUnit (by decide) (by decide) es' 0 0
        (by decide) h2'
    omega

theorem floyd_warshall_self_loop_witness :
    Wf selfLoopUnit ∧ Nonneg selfLoopUnit ∧ (0 : Int) < 5 ∧
    ((selfLoopUnit.adj 0).filter (fun e => e.to_ == 0)).getLast? =
      some ⟨0, 0, 5⟩ ∧
    (mget (floyd_warshall selfLoopUnit) 0 0 = 5 ∧ (5 : Int) ≠ 0) :=
  ⟨by decide, by decide, by decide, by decide,
    floyd_warshall_self_loop selfLoopUnit 0 5 (by decide) (by decide)
      (by decide) (by decide) (by decide) (by decide) selfLoopUnit_cycle⟩

end Dag

namespace Dag

/-- The `State` struct of `djkstra`. -/
structure DState where
  position : Nat
  cost : Int
deriving DecidableEq, Repr

/-- `s` is popped before `t` by the `BinaryHeap`: the `Ord` impl
reverses cost order and breaks ties by larger position. -/
def better (s t : DState) : Bool :=
  s.cost < t.cost || (s.cost == t.cost && t.position < s.position)

/-- `BinaryHeap::pop`: removes and returns the greatest element of the
heap under the `State` ordering (least cost, then greatest position).
All elements of the queue are pairwise distinct pairs during the
algorithm, so the popped element is uniquely determined. -/
def popMax : List DState → Option (DState × List DState)
  | [] => none
  | s :: rest =>
    match popMax rest with
    | none => some (s, [])
    | some (m, rest') =>
      if better m s then some (m, s :: rest') else some (s, m :: rest')

/-- The relaxation of the out-edges of the popped vertex: for each edge
in adjacency order, push and update `dist` when strictly improving,
reading `dist` as updated so far. -/
def relaxEdges (c : Int) : List Edge → List DState × (Nat → Int) →
    List DState × (Nat → Int)
  | [], acc => acc
  | e :: l, acc =>
    relaxEdges c l
      (if e.cost + c < acc.2 e.to_
       then (⟨e.to_, e.cost + c⟩ :: acc.1,
         fun x => if x = e.to_ then e.cost + c else acc.2 x)
       else acc)

/-- The `while let Some(State { position, cost }) = queue.pop()` loop,
with explicit fuel (the Rust loop terminates; `djkstra` supplies enough
fuel, as proved below). -/
def djkstraLoop (g : Dag) (to_ : Nat) : Nat → List DState → (Nat → Int) → Option Int
  | 0, _, _ => none
  | fuel + 1, queue, dist =>
    match popMax queue with
    | none => none
    | some (s, rest) =>
      if s.position = to_ then some s.cost
      else if dist s.position < s.cost then djkstraLoop g to_ fuel rest dist
      else
        djkstraLoop g to_ fuel
          (relaxEdges s.cost (g.adj s.position) (rest, dist)).1
          (relaxEdges s.cost (g.adj s.position) (rest, dist)).2

/-- `Dag::djkstra(from, to)`: `dist` initialized to `INF` except
`dist[from] = 0`, queue seeded with the source state. -/
def djkstra (g : Dag) (from_ to_ : Nat) : Option Int :=
  djkstraLoop g to_ (g.edges.length + 2) [⟨from_, 0⟩]
    (fun v => if v = from_ then 0 else INF)

theorem better_le {s t : DState} (h : better s t = true) : s.cost ≤ t.cost := by
  unfold better at h
  rcases Bool.or_eq_true_iff.mp h with h1 | h1
  · exact le_of_lt (decide_eq_true_eq.mp h1)
  · exact le_of_eq (beq_iff_eq.mp (Bool.and_eq_true_iff.mp h1).1)

theorem not_better_le {s t : DState} (h : better s t = false) : t.cost ≤ s.cost := by
  unfold better at h
  rcases Bool.or_eq_false_iff.mp h with ⟨h1, _⟩
  exact not_lt.mp (of_decide_eq_false h1)

theorem popMax_cons_none {s : DState} {rest : List DState}
    (h : popMax rest = none) : popMax (s :: rest) = some (s, []) := by
  show (match popMax rest with
    | none => some (s, [])
    | some (m, rest') =>
      if better m s then some (m, s :: rest') else some (s, m :: rest')) = _
  rw [h]

theorem popMax_cons_some {s m : DState} {rest rest' : List DState}
    (h : popMax rest = some (m, rest')) :
    popMax (s :: rest) =
      if better m s then some (m, s :: rest') else some (s, m :: rest') := by
  show (match popMax rest with
    | none => some (s, [])
    | some (m, rest') =>
      if better m s then some (m, s :: rest') else some (s, m :: rest')) = _
  rw [h]

theorem popMax_none : ∀ {q : List DState}, popMax q = none → q = [] := by
  intro q
  cases q with
  | nil => intro _; rfl
  | cons s rest =>
    intro h
    exfalso
    cases hr : popMax rest with
    | none =>
      rw [popMax_cons_none hr] at h
      exact Option.noConfusion h
    | some p =>
      obtain ⟨pm, pr⟩ := p
      rw [popMax_cons_some hr] at h
      by_cases hb : better pm s
      · rw [if_pos hb] at h; exact Option.noConfusion h
      · rw [if_neg hb] at h; exact Option.noConfusion h

theorem popMax_spec : ∀ {q : List DState} {m : DState} {rest : List DState},
    popMax q = some (m, rest) →
    q.Perm (m :: rest) ∧ ∀ x ∈ q, m.cost ≤ x.cost := by
  intro q
  induction q with
  | nil => intro m rest h; exact Option.noConfusion h
  | cons s t ih =>
    intro m rest h
    cases hr : popMax t with
    | none =>
      rw [popMax_cons_none hr] at h
      have ht : t = [] := popMax_none hr
      subst ht
      have h2 := Option.some.inj h
      have hm : s = m := congrArg Prod.fst h2
      have hrest : ([] : List DState) = rest := congrArg Prod.snd h2
      subst hm
      subst hrest
      refine ⟨List.Perm.refl _, ?_⟩
      intro x hx
      rw [List.mem_singleton.mp hx]
    | some p =>
      obtain ⟨pm, pr⟩ := p
      rw [popMax_cons_some hr] at h
      obtain ⟨hperm, hmin⟩ := ih hr
      by_cases hb : better pm s
      · rw [if_pos hb] at h
        have h2 := Option.some.inj h
        have hm : pm = m := congrArg Prod.fst h2
        have hrest : s :: pr = rest := congrArg Prod.snd h2
        subst hm
        subst hrest
        constructor
        · exact List.Perm.trans (List.Perm.cons s hperm) (List.Perm.swap _ _ _)
        · intro x hx
          rcases List.mem_cons.mp hx with rfl | hx2
          · exact better_le hb
          · exact hmin x hx2
      · rw [if_neg hb] at h
        have h2 := Option.some.inj h
        have hm : s = m := congrArg Prod.fst h2
        have hrest : pm :: pr = rest := congrArg Prod.snd h2
        subst hm
        subst hrest
        constructor
        · exact List.Perm.cons s hperm
        · intro x hx
          rcases List.mem_cons.mp hx with rfl | hx2
          · exact le_refl _
          · exact le_trans (not_better_le (Bool.eq_false_iff.mpr hb)) (hmin x hx2)

end Dag

namespace Dag

/-- The Dijkstra loop invariant.  `P` is the (ghost) set of vertices
already processed non-stale, `lastM` a lower bound on all queued
costs (the last popped cost). -/
structure DInv (g : Dag) (src tgt : Nat) (P : List Nat) (lastM : Int)
    (queue : List DState) (dist : Nat → Int) : Prop where
  qok : ∀ s ∈ queue, s.position < g.n ∧ dist s.position ≤ s.cost ∧
    lastM ≤ s.cost ∧ 0 ≤ s.cost ∧
    ∃ es, IsWalk g src s.position es ∧ walkCost es = s.cost
  dok : ∀ v, v < g.n → dist v = INF ∨
    (dist v < INF ∧ ∃ es, IsWalk g src v es ∧ walkCost es = dist v)
  queued : ∀ w, w < g.n → w ∉ P → dist w ≠ INF →
    (⟨w, dist w⟩ : DState) ∈ queue
  relaxed : ∀ v ∈ P, v < g.n ∧ ∀ e ∈ g.adj v, dist e.to_ ≤ dist v + e.cost
  src0 : dist src ≤ 0
  pdone : ∀ v ∈ P, dist v ≤ lastM
  m0 : 0 ≤ lastM
  distinct : List.Pairwise (fun s t => s.position = t.position → s.cost ≠ t.cost) queue
  pstale : ∀ v ∈ P, ∀ s ∈ queue, s.position = v → dist v < s.cost
  tnotp : tgt ∉ P

/-- Remaining relaxation capacity: total out-degree of unprocessed
vertices. -/
def edgeSum (g : Dag) (P : List Nat) : Nat :=
  ((List.range g.n).map (fun v => if v ∈ P then 0 else (g.adj v).length)).sum

theorem edgeSum_cons {g : Dag} {u : Nat} {P : List Nat}
    (hu : u < g.n) (hP : u ∉ P) :
    edgeSum g (u :: P) + (g.adj u).length = edgeSum g P := by
  unfold edgeSum
  have hgen : ∀ (l : List Nat), l.Nodup → u ∈ l →
      ((l.map (fun v => if v ∈ u :: P then 0 else (g.adj v).length)).sum +
        (g.adj u).length =
       (l.map (fun v => if v ∈ P then 0 else (g.adj v).length)).sum) := by
    intro l
    induction l with
    | nil => intro _ hm; exact absurd hm (List.not_mem_nil u)
    | cons v l ih =>
      intro hnd hm
      have hndl := (List.nodup_cons.mp hnd).2
      have hvnotl := (List.nodup_cons.mp hnd).1
      rw [List.map_cons, List.map_cons, List.sum_cons, List.sum_cons]
      by_cases hvu : v = u
      · subst hvu
        rw [if_pos (List.mem_cons_self v P), if_neg hP]
        have heq : l.map (fun w => if w ∈ v :: P then 0 else (g.adj w).length) =
            l.map (fun w => if w ∈ P then 0 else (g.adj w).length) := by
          refine List.map_congr_left ?_
          intro w hw
          have hwv : w ≠ v := fun hc => hvnotl (hc ▸ hw)
          by_cases hwP : w ∈ P
          · rw [if_pos (List.mem_cons_of_mem v hwP), if_pos hwP]
          · rw [if_neg ?_, if_neg hwP]
            intro hc
            rcases List.mem_cons.mp hc with hc2 | hc2
            · exact hwv hc2
            · exact hwP hc2
        rw [heq]
        omega
      · have hm2 : u ∈ l := by
          rcases List.mem_cons.mp hm with hc | hc
          · exact absurd hc.symm hvu
          · exact hc
        have hv : (if v ∈ u :: P then 0 else (g.adj v).length) =
            (if v ∈ P then 0 else (g.adj v).length) := by
          by_cases hvP : v ∈ P
          · rw [if_pos (List.mem_cons_of_mem u hvP), if_pos hvP]
          · rw [if_neg ?_, if_neg hvP]
            intro hc
            rcases List.mem_cons.mp hc with hc2 | hc2
            · exact hvu hc2
            · exact hvP hc2
        rw [hv]
        have := ih hndl hm2
        omega
  exact hgen (List.range g.n) (List.nodup_range g.n) (List.mem_range.mpr hu)

/-- Completeness: every sufficiently cheap walk is either already
beaten by `dist` at its endpoint or witnessed by a queued state of no
greater cost. -/
theorem dinv_complete {g : Dag} {src tgt : Nat} {P : List Nat} {lastM : Int}
    {queue : List DState} {dist : Nat → Int}
    (hwf : Wf g) (hnn : Nonneg g) (hsrc : src < g.n)
    (hinv : DInv g src tgt P lastM queue dist) :
    ∀ (es : List Edge) (v : Nat), IsWalk g src v es → walkCost es < INF →
      dist v ≤ walkCost es ∨ ∃ s ∈ queue, s.cost ≤ walkCost es := by
  intro es
  induction es using List.reverseRecOn with
  | nil =>
    intro v hw _
    have : src = v := hw
    subst this
    left
    refine le_trans hinv.src0 ?_
    show (0 : Int) ≤ walkCost []
    exact le_refl 0
  | append_singleton es' e ih =>
    intro v hw hcost
    obtain ⟨w, hw1, hw2⟩ := isWalk_append.mp hw
    obtain ⟨hew, hev⟩ := hw2
    have hwn : w < g.n := (isWalk_bounds hwf hsrc hw1).1
    have hec : 0 ≤ e.cost := hnn w hwn e hew
    have hsplit : walkCost (es' ++ [e]) = walkCost es' + e.cost := by
      rw [walkCost_append, walkCost_cons, walkCost_nil]
      ring
    have hcost' : walkCost es' < INF := by
      rw [hsplit] at hcost
      omega
    rcases ih w hw1 hcost' with hle | ⟨s, hs, hsc⟩
    · by_cases hP : w ∈ P
      · left
        have hrel := (hinv.relaxed w hP).2 e hew
        have hev' : e.to_ = v := hev
        rw [hev'] at hrel
        rw [hsplit]
        omega
      · right
        have hne : dist w ≠ INF := by omega
        refine ⟨⟨w, dist w⟩, hinv.queued w hwn hP hne, ?_⟩
        show dist w ≤ _
        rw [hsplit]
        omega
    · right
      refine ⟨s, hs, ?_⟩
      rw [hsplit]
      omega

end Dag

namespace Dag

/-- The state predicate carried through the relaxation of the popped
vertex `u` at final distance `c`. -/
def RState (g : Dag) (src u : Nat) (P : List Nat) (c : Int)
    (q : List DState) (d : Nat → Int) : Prop :=
  d u = c ∧
  (∀ s ∈ q, s.position < g.n ∧ d s.position ≤ s.cost ∧ c ≤ s.cost ∧
    0 ≤ s.cost ∧ ∃ es, IsWalk g src s.position es ∧ walkCost es = s.cost) ∧
  (∀ v, v < g.n → d v = INF ∨
    (d v < INF ∧ ∃ es, IsWalk g src v es ∧ walkCost es = d v)) ∧
  (∀ w, w < g.n → w ∉ u :: P → d w ≠ INF → (⟨w, d w⟩ : DState) ∈ q) ∧
  (∀ v ∈ P, v < g.n ∧ ∀ e ∈ g.adj v, d e.to_ ≤ d v + e.cost) ∧
  (∀ v ∈ u :: P, d v ≤ c) ∧
  List.Pairwise (fun s t => s.position = t.position → s.cost ≠ t.cost) q ∧
  (∀ v ∈ u :: P, ∀ s ∈ q, s.position = v → d v < s.cost)

/-- Effect of the relaxation loop: the state predicate is preserved,
entries only decrease (and stay put on processed vertices), the queue
grows by at most one state per edge, and afterwards every relaxed edge
satisfies the triangle bound through `u`. -/
theorem relaxEdges_spec {g : Dag} {src u : Nat} {P : List Nat} {c : Int}
    (hwf : Wf g) (hnn : Nonneg g) (hsrc : src < g.n) (hu : u < g.n)
    (hc0 : 0 ≤ c)
    (hach : ∃ es0, IsWalk g src u es0 ∧ walkCost es0 = c) :
    ∀ (l : List Edge), (∀ e ∈ l, e ∈ g.adj u) →
    ∀ (q : List DState) (d : Nat → Int), RState g src u P c q d →
      RState g src u P c (relaxEdges c l (q, d)).1 (relaxEdges c l (q, d)).2 ∧
      (relaxEdges c l (q, d)).1.length ≤ l.length + q.length ∧
      (∀ v, (relaxEdges c l (q, d)).2 v ≤ d v) ∧
      (∀ v ∈ u :: P, (relaxEdges c l (q, d)).2 v = d v) ∧
      (∀ e ∈ l, (relaxEdges c l (q, d)).2 e.to_ ≤ c + e.cost) := by
  intro l
  induction l with
  | nil =>
    intro _ q d hR
    refine ⟨hR, ?_, fun v => le_refl _, fun v _ => rfl,
      fun e he => absurd he (List.not_mem_nil e)⟩
    show q.length ≤ [].length + q.length
    omega
  | cons e l ih =>
    intro hl q d hR
    obtain ⟨hdu, hqok, hdok, hqueued, hrelP, hle_c, hpw, hpstale⟩ := hR
    have he : e ∈ g.adj u := hl e (List.mem_cons_self e l)
    have hto : e.to_ < g.n := (hwf u hu e he).2
    have hec : 0 ≤ e.cost := hnn u hu e he
    have hstep : relaxEdges c (e :: l) (q, d) =
        relaxEdges c l (if e.cost + c < d e.to_
          then (⟨e.to_, e.cost + c⟩ :: q,
            fun x => if x = e.to_ then e.cost + c else d x)
          else (q, d)) := rfl
    rw [hstep]
    by_cases hlt : e.cost + c < d e.to_
    · rw [if_pos hlt]
      have hnotP : e.to_ ∉ u :: P := by
        intro hmem
        have := hle_c e.to_ hmem
        omega
      have hneu : e.to_ ≠ u := fun hc => hnotP (hc ▸ List.mem_cons_self u P)
      have hd'to : (fun x => if x = e.to_ then e.cost + c else d x) e.to_ =
          e.cost + c := if_pos rfl
      have hd'other : ∀ x, x ≠ e.to_ →
          (fun x => if x = e.to_ then e.cost + c else d x) x = d x := by
        intro x hx
        exact if_neg hx
      have hd'le : ∀ x, (fun x => if x = e.to_ then e.cost + c else d x) x ≤ d x := by
        intro x
        by_cases hx : x = e.to_
        · subst hx
          rw [hd'to]
          exact le_of_lt hlt
        · rw [hd'other x hx]
      have hachto : ∃ es, IsWalk g src e.to_ es ∧ walkCost es = e.cost + c := by
        obtain ⟨es0, hw0, hc0'⟩ := hach
        refine ⟨es0 ++ [e], isWalk_append.mpr ⟨u, hw0, ⟨he, rfl⟩⟩, ?_⟩
        rw [walkCost_append, walkCost_cons, walkCost_nil, hc0']
        ring
      have hR' : RState g src u P c (⟨e.to_, e.cost + c⟩ :: q)
          (fun x => if x = e.to_ then e.cost + c else d x) := by
        refine ⟨?_, ?_, ?_, ?_, ?_, ?_, ?_, ?_⟩
        · rw [hd'other u (fun hc => hneu hc.symm)]
          exact hdu
        · intro s hs
          rcases List.mem_cons.mp hs with rfl | hs2
          · refine ⟨hto, ?_, ?_, ?_, hachto⟩
            · show (if e.to_ = e.to_ then e.cost + c else d e.to_) ≤ e.cost + c
              rw [if_pos rfl]
            · show c ≤ e.cost + c
              omega
            · show (0 : Int) ≤ e.cost + c
              omega
          · obtain ⟨h1, h2, h3, h4, h5⟩ := hqok s hs2
            exact ⟨h1, le_trans (hd'le s.position) h2, h3, h4, h5⟩
        · intro v hv
          by_cases hx : v = e.to_
          · subst hx
            right
            rw [hd'to]
            have hINFd : d e.to_ ≤ INF := by
              rcases hdok e.to_ hv with hI | ⟨hlt2, _⟩
              · rw [hI]
              · exact le_of_lt hlt2
            exact ⟨by omega, hachto⟩
          · rw [hd'other v hx]
            exact hdok v hv
        · intro w hw hwP hwINF
          by_cases hx : w = e.to_
          · subst hx
            have heq : (⟨e.to_,
                (fun x => if x = e.to_ then e.cost + c else d x) e.to_⟩ : DState) =
                ⟨e.to_, e.cost + c⟩ := by rw [hd'to]
            rw [heq]
            exact List.mem_cons_self _ _
          · rw [hd'other w hx] at hwINF ⊢
            exact List.mem_cons_of_mem _ (hqueued w hw hwP hwINF)
        · intro v hv
          obtain ⟨h1, h2⟩ := hrelP v hv
          refine ⟨h1, ?_⟩
          intro e2 he2
          have hvne : v ≠ e.to_ := by
            intro hc
            exact hnotP (hc ▸ List.mem_cons_of_mem u hv)
          rw [hd'other v hvne]
          exact le_trans (hd'le e2.to_) (h2 e2 he2)
        · intro v hv
          have hvne : v ≠ e.to_ := fun hc => hnotP (hc ▸ hv)
          rw [hd'other v hvne]
          exact hle_c v hv
        · refine List.Pairwise.cons ?_ hpw
          intro t ht hpos
          obtain ⟨_, h2, _, _, _⟩ := hqok t ht
          have hpos' : e.to_ = t.position := hpos
          rw [← hpos'] at h2
          show e.cost + c ≠ t.cost
          omega
        · intro v hv s hs hspos
          rcases List.mem_cons.mp hs with rfl | hs2
          · have hev2 : e.to_ = v := hspos
            rw [← hev2] at hv
            exact absurd hv hnotP
          · have hvne : v ≠ e.to_ := fun hc => hnotP (hc ▸ hv)
            rw [hd'other v hvne]
            exact hpstale v hv s hs2 hspos
      obtain ⟨p1, p2, p3, p4, p5⟩ :=
        ih (fun e2 he2 => hl e2 (List.mem_cons_of_mem e he2)) _ _ hR'
      refine ⟨p1, ?_, ?_, ?_, ?_⟩
      · simp only [List.length_cons] at p2 ⊢
        omega
      · intro v
        exact le_trans (p3 v) (hd'le v)
      · intro v hv
        rw [p4 v hv]
        have hvne : v ≠ e.to_ := fun hc => hnotP (hc ▸ hv)
        exact hd'other v hvne
      · intro e2 he2
        rcases List.mem_cons.mp he2 with rfl | he2'
        · refine le_trans (p3 e2.to_) ?_
          show (if e2.to_ = e2.to_ then e2.cost + c else d e2.to_) ≤ c + e2.cost
          rw [if_pos rfl]
          omega
        · exact p5 e2 he2'
    · rw [if_neg hlt]
      obtain ⟨p1, p2, p3, p4, p5⟩ :=
        ih (fun e2 he2 => hl e2 (List.mem_cons_of_mem e he2)) q d
          ⟨hdu, hqok, hdok, hqueued, hrelP, hle_c, hpw, hpstale⟩
      refine ⟨p1, by rw [List.length_cons]; omega, p3, p4, ?_⟩
      intro e2 he2
      rcases List.mem_cons.mp he2 with rfl | he2'
      · refine le_trans (p3 e2.to_) ?_
        omega
      · exact p5 e2 he2'

end Dag

namespace Dag

theorem djkstraLoop_pop_none {g : Dag} {to_ fuel : Nat} {queue : List DState}
    {dist : Nat → Int} (h : popMax queue = none) :
    djkstraLoop g to_ (fuel + 1) queue dist = none := by
  show (match popMax queue with
    | none => none
    | some (s, rest) =>
      if s.position = to_ then some s.cost
      else if dist s.position < s.cost then djkstraLoop g to_ fuel rest dist
      else djkstraLoop g to_ fuel
        (relaxEdges s.cost (g.adj s.position) (rest, dist)).1
        (relaxEdges s.cost (g.adj s.position) (rest, dist)).2) = none
  rw [h]

theorem djkstraLoop_pop_some {g : Dag} {to_ fuel : Nat} {queue rest : List DState}
    {dist : Nat → Int} {m : DState} (h : popMax queue = some (m, rest)) :
    djkstraLoop g to_ (fuel + 1) queue dist =
      (if m.position = to_ then some m.cost
       else if dist m.position < m.cost then djkstraLoop g to_ fuel rest dist
       else djkstraLoop g to_ fuel
         (relaxEdges m.cost (g.adj m.position) (rest, dist)).1
         (relaxEdges m.cost (g.adj m.position) (rest, dist)).2) := by
  show (match popMax queue with
    | none => none
    | some (s, rest) =>
      if s.position = to_ then some s.cost
      else if dist s.position < s.cost then djkstraLoop g to_ fuel rest dist
      else djkstraLoop g to_ fuel
        (relaxEdges s.cost (g.adj s.position) (rest, dist)).1
        (relaxEdges s.cost (g.adj s.position) (rest, dist)).2) = _
  rw [h]

theorem dstate_symm {s t : DState}
    (h : s.position = t.position → s.cost ≠ t.cost) :
    t.position = s.position → t.cost ≠ s.cost :=
  fun hpos => (h hpos.symm).symm

/-- The Dijkstra loop returns the minimum walk cost to the target when
one exists, `none` when the target is unreachable, given the invariant
and sufficient fuel. -/
theorem djkstraLoop_spec {g : Dag} {src tgt : Nat} {B : Int}
    (hwf : Wf g) (hnn : Nonneg g)
    (hcb : ∀ u, u < g.n → ∀ e ∈ g.adj u, e.cost ≤ B) (hB0 : 0 ≤ B)
    (hINF : ((g.n : Int) - 1) * B < INF)
    (hsrc : src < g.n) (htgt : tgt < g.n) :
    ∀ (fuel : Nat) (queue : List DState) (dist : Nat → Int)
      (P : List Nat) (lastM : Int),
      DInv g src tgt P lastM queue dist →
      queue.length + edgeSum g P < fuel →
      (∀ dd, djkstraLoop g tgt fuel queue dist = some dd →
        ∃ es, IsWalk g src tgt es ∧ walkCost es = dd ∧
          ∀ es2, IsWalk g src tgt es2 → dd ≤ walkCost es2) ∧
      (djkstraLoop g tgt fuel queue dist = none →
        ∀ es, ¬ IsWalk g src tgt es) := by
  intro fuel
  induction fuel with
  | zero =>
    intro queue dist P lastM _ hmeas
    exact absurd hmeas (by omega)
  | succ fuel ih =>
    intro queue dist P lastM hinv hmeas
    cases hpop : popMax queue with
    | none =>
      have hq : queue = [] := popMax_none hpop
      rw [djkstraLoop_pop_none hpop]
      constructor
      · intro dd hdd
        exact Option.noConfusion hdd
      · intro _ es hwalk
        have hbel : Below g.n es := by
          intro e he
          have hmem : e ∈ es := (List.dropLast_sublist es).subset he
          exact ((isWalk_bounds hwf hsrc hwalk).2 e hmem).2.1
        obtain ⟨es3, p1, _, _, p4⟩ :=
          walk_min_bound hwf hnn hcb hB0 hsrc hwalk hbel
        have hcost3 : walkCost es3 < INF := lt_of_le_of_lt p4 hINF
        rcases dinv_complete hwf hnn hsrc hinv es3 tgt p1 hcost3 with hle | ⟨s, hs, _⟩
        · have hne : dist tgt ≠ INF := by omega
          have hqd := hinv.queued tgt htgt hinv.tnotp hne
          rw [hq] at hqd
          exact absurd hqd (List.not_mem_nil _)
        · rw [hq] at hs
          exact absurd hs (List.not_mem_nil s)
    | some p =>
      obtain ⟨m, rest⟩ := p
      obtain ⟨hperm, hmin⟩ := popMax_spec hpop
      have hmq : m ∈ queue := hperm.mem_iff.mpr (List.mem_cons_self m rest)
      obtain ⟨hm1, hm2, hm3, hm4, hm5⟩ := hinv.qok m hmq
      have hrest_sub : ∀ s ∈ rest, s ∈ queue := by
        intro s hs
        exact hperm.mem_iff.mpr (List.mem_cons_of_mem m hs)
      have hpw_cons : List.Pairwise
          (fun s t : DState => s.position = t.position → s.cost ≠ t.cost)
          (m :: rest) :=
        (hperm.pairwise_iff dstate_symm).mp hinv.distinct
      rw [djkstraLoop_pop_some hpop]
      by_cases htarget : m.position = tgt
      · rw [if_pos htarget]
        constructor
        · intro dd hdd
          have hdd' : m.cost = dd := Option.some.inj hdd
          subst hdd'
          obtain ⟨es0, hw0, hc0'⟩ := hm5
          rw [htarget] at hw0
          refine ⟨es0, hw0, hc0', ?_⟩
          intro es2 hw2
          have hbel : Below g.n es2 := by
            intro e he
            have hmem : e ∈ es2 := (List.dropLast_sublist es2).subset he
            exact ((isWalk_bounds hwf hsrc hw2).2 e hmem).2.1
          obtain ⟨es3, p1, _, p3, p4⟩ :=
            walk_min_bound hwf hnn hcb hB0 hsrc hw2 hbel
          have hcost3 : walkCost es3 < INF := lt_of_le_of_lt p4 hINF
          rcases dinv_complete hwf hnn hsrc hinv es3 tgt p1 hcost3 with
            hle | ⟨s, hs, hsc⟩
          · have hne : dist tgt ≠ INF := by omega
            have hqd := hinv.queued tgt htgt hinv.tnotp hne
            have hmc : m.cost ≤ dist tgt := hmin _ hqd
            omega
          · have hmc : m.cost ≤ s.cost := hmin s hs
            omega
        · intro hnone
          exact Option.noConfusion hnone
      · rw [if_neg htarget]
        by_cases hstale : dist m.position < m.cost
        · rw [if_pos hstale]
          refine ih rest dist P m.cost ?_ ?_
          · refine ⟨?_, hinv.dok, ?_, hinv.relaxed, hinv.src0, ?_, hm4,
              List.Pairwise.of_cons hpw_cons, ?_, hinv.tnotp⟩
            · intro s hs
              obtain ⟨h1, h2, _, h4, h5⟩ := hinv.qok s (hrest_sub s hs)
              exact ⟨h1, h2, hmin s (hrest_sub s hs), h4, h5⟩
            · intro w hw hwP hwINF
              have hqd := hinv.queued w hw hwP hwINF
              have := hperm.subset hqd
              rcases List.mem_cons.mp this with heq | hr
              · exfalso
                have hp1 : m.position = w := congrArg DState.position heq.symm
                have hp2 : m.cost = dist w := congrArg DState.cost heq.symm
                rw [← hp1] at hp2
                omega
              · exact hr
            · intro v hv
              exact le_trans (hinv.pdone v hv) hm3
            · intro v hv s hs hspos
              exact hinv.pstale v hv s (hrest_sub s hs) hspos
          · have hlen : queue.length = rest.length + 1 := by
              rw [hperm.length_eq, List.length_cons]
            omega
        · rw [if_neg hstale]
          have hceq : dist m.position = m.cost := le_antisymm hm2 (not_lt.mp hstale)
          have hunotP : m.position ∉ P := by
            intro hP
            have := hinv.pstale m.position hP m hmq rfl
            omega
          have hRpre : RState g src m.position P m.cost rest dist := by
            refine ⟨hceq, ?_, hinv.dok, ?_, hinv.relaxed, ?_, ?_, ?_⟩
            · intro s hs
              obtain ⟨h1, h2, _, h4, h5⟩ := hinv.qok s (hrest_sub s hs)
              exact ⟨h1, h2, hmin s (hrest_sub s hs), h4, h5⟩
            · intro w hw hwP hwINF
              have hwne : w ≠ m.position := by
                intro hc
                exact hwP (hc ▸ List.mem_cons_self m.position P)
              have hqd := hinv.queued w hw
                (fun hc => hwP (List.mem_cons_of_mem _ hc)) hwINF
              have := hperm.subset hqd
              rcases List.mem_cons.mp this with heq | hr
              · exfalso
                have hweq : w = m.position := congrArg DState.position heq
                exact hwne hweq
              · exact hr
            · intro v hv
              rcases List.mem_cons.mp hv with rfl | hv2
              · rw [hceq]
              · exact le_trans (hinv.pdone v hv2) hm3
            · exact List.Pairwise.of_cons hpw_cons
            · intro v hv s hs hspos
              rcases List.mem_cons.mp hv with rfl | hv2
              · have hne := (List.pairwise_cons.mp hpw_cons).1 s hs hspos.symm
                obtain ⟨_, h2, _, _, _⟩ := hinv.qok s (hrest_sub s hs)
                rw [hspos] at h2
                omega
              · exact hinv.pstale v hv2 s (hrest_sub s hs) hspos
          obtain ⟨⟨q1, q2, q3, q4, q5, q6, q7, q8⟩, hp2, hp3, hp4, hp5⟩ :=
            relaxEdges_spec hwf hnn hsrc hm1 hm4 hm5
              (g.adj m.position) (fun e he => he) rest dist hRpre
          refine ih _ _ (m.position :: P) m.cost ?_ ?_
          · refine ⟨q2, q3, q4, ?_, ?_, ?_, hm4, q7, q8, ?_⟩
            · intro v hv
              rcases List.mem_cons.mp hv with rfl | hv2
              · refine ⟨hm1, ?_⟩
                intro e he
                rw [q1]
                have := hp5 e he
                omega
              · obtain ⟨h1, h2⟩ := hinv.relaxed v hv2
                refine ⟨h1, ?_⟩
                intro e he
                rw [hp4 v (List.mem_cons_of_mem _ hv2)]
                exact le_trans (hp3 e.to_) (h2 e he)
            · exact le_trans (hp3 src) hinv.src0
            · intro v hv
              rw [hp4 v hv]
              rcases List.mem_cons.mp hv with rfl | hv2
              · rw [hceq]
              · exact le_trans (hinv.pdone v hv2) hm3
            · intro hc
              rcases List.mem_cons.mp hc with hc2 | hc2
              · exact htarget hc2.symm
              · exact hinv.tnotp hc2
          · have hlen : queue.length = rest.length + 1 := by
              rw [hperm.length_eq, List.length_cons]
            have hes := edgeSum_cons hm1 hunotP
            omega

end Dag

namespace Dag

theorem edgeSum_nil (g : Dag) : edgeSum g [] = g.edges.length := by
  unfold edgeSum edges
  have hgen : ∀ l : List Nat,
      ((l.map (fun v => if v ∈ ([] : List Nat) then 0
        else (g.adj v).length)).sum) = (l.flatMap g.adj).length := by
    intro l
    induction l with
    | nil => rfl
    | cons v l ih =>
      rw [List.map_cons, List.sum_cons, List.flatMap_cons, List.length_append,
        if_neg (List.not_mem_nil v), ih]
  exact hgen (List.range g.n)

/-- C3: with non-negative bounded edge costs, `djkstra` returns
`Some d` with `d` the minimal cost of a directed walk from source to
target, `None` when the target is unreachable, and `Some 0` when
source and target coincide. -/
theorem djkstra_correct (g : Dag) (src tgt : Nat) (B : Int)
    (hwf : Wf g) (hnn : Nonneg g)
    (hcb : ∀ u, u < g.n → ∀ e ∈ g.adj u, e.cost ≤ B) (hB0 : 0 ≤ B)
    (hINF : ((g.n : Int) - 1) * B < INF)
    (hsrc : src < g.n) (htgt : tgt < g.n) :
    (∀ d, djkstra g src tgt = some d →
      ∃ es, IsWalk g src tgt es ∧ walkCost es = d ∧
        ∀ es2, IsWalk g src tgt es2 → d ≤ walkCost es2) ∧
    (djkstra g src tgt = none → ∀ es, ¬ IsWalk g src tgt es) ∧
    (src = tgt → djkstra g src tgt = some 0) := by
  have hd0src : (fun v => if v = src then (0 : Int) else INF) src = 0 := if_pos rfl
  have hinv0 : DInv g src tgt [] 0 [⟨src, 0⟩]
      (fun v => if v = src then (0 : Int) else INF) := by
    refine ⟨?_, ?_, ?_, ?_, ?_, ?_, le_refl 0, ?_, ?_, List.not_mem_nil tgt⟩
    · intro s hs
      rw [List.mem_singleton.mp hs]
      refine ⟨hsrc, ?_, le_refl 0, le_refl 0, ⟨[], isWalk_nil, rfl⟩⟩
      show (if src = src then (0 : Int) else INF) ≤ 0
      rw [if_pos rfl]
    · intro v hv
      by_cases hx : v = src
      · subst hx
        right
        refine ⟨?_, [], isWalk_nil, ?_⟩
        · show (if v = v then (0 : Int) else INF) < INF
          rw [if_pos rfl]
          decide
        · show walkCost [] = (if v = v then (0 : Int) else INF)
          rw [if_pos rfl]
          rfl
      · left
        exact if_neg hx
    · intro w hw _ hwINF
      by_cases hx : w = src
      · subst hx
        have heq : (⟨w, (fun v => if v = w then (0 : Int) else INF) w⟩ : DState) =
            ⟨w, 0⟩ := by
          show (⟨w, if w = w then (0 : Int) else INF⟩ : DState) = ⟨w, 0⟩
          rw [if_pos rfl]
        rw [heq]
        exact List.mem_singleton.mpr rfl
      · exact absurd (if_neg hx) hwINF
    · intro v hv
      exact absurd hv (List.not_mem_nil v)
    · show (if src = src then (0 : Int) else INF) ≤ 0
      rw [if_pos rfl]
    · intro v hv
      exact absurd hv (List.not_mem_nil v)
    · exact List.pairwise_singleton _ _
    · intro v hv
      exact absurd hv (List.not_mem_nil v)
  have hmeas : ([⟨src, 0⟩] : List DState).length + edgeSum g [] <
      g.edges.length + 2 := by
    rw [edgeSum_nil, List.length_singleton]
    omega
  obtain ⟨h1, h2⟩ := djkstraLoop_spec hwf hnn hcb hB0 hINF hsrc htgt
    (g.edges.length + 2) [⟨src, 0⟩]
    (fun v => if v = src then (0 : Int) else INF) [] 0 hinv0 hmeas
  refine ⟨h1, h2, ?_⟩
  intro heq
  subst heq
  have hp : popMax [(⟨src, 0⟩ : DState)] = some (⟨src, 0⟩, []) := rfl
  show djkstraLoop g src (g.edges.length + 1 + 1) [⟨src, 0⟩]
    (fun v => if v = src then (0 : Int) else INF) = some 0
  rw [djkstraLoop_pop_some hp]
  rw [if_pos (show (⟨src, (0 : Int)⟩ : DState).position = src from rfl)]

end Dag

namespace Dag

/-- The graph of the Rust `djkstra` test. -/
def djkstraTest : Dag :=
  ((((((((Dag.new 5).add_edge 0 1 1).add_edge 0 2 10).add_edge 1 3 2).add_edge
    2 1 1).add_edge 2 3 3).add_edge 2 4 1).add_edge 3 0 7).add_edge 3 4 2

theorem djkstra_correct_witness :
    Wf djkstraTest ∧ Nonneg djkstraTest ∧
    (∀ u, u < djkstraTest.n → ∀ e ∈ djkstraTest.adj u, e.cost ≤ 10) ∧
    ((∀ d, djkstra djkstraTest 0 4 = some d →
        ∃ es, IsWalk djkstraTest 0 4 es ∧ walkCost es = d ∧
          ∀ es2, IsWalk djkstraTest 0 4 es2 → d ≤ walkCost es2) ∧
     (djkstra djkstraTest 0 4 = none → ∀ es, ¬ IsWalk djkstraTest 0 4 es) ∧
     ((0 : Nat) = 4 → djkstra djkstraTest 0 4 = some 0)) :=
  ⟨by decide, by decide, by decide,
    djkstra_correct djkstraTest 0 4 10 (by decide) (by decide) (by decide)
      (by decide) (by decide) (by decide) (by decide)⟩

end Dag
